import Mathlib

/-!
# roid: a verification development

A shallow embedding of `src/roid.js` (the bundler) and of the runtime loader it
emits (see also `output.js`, a committed artifact), followed by theorems about both.

Conventions of the embedding.

* The module-level counter `let ID = 0` is threaded explicitly: every function that
  reads or bumps it takes the current value and returns the new one.  It is a `Nat`:
  a JavaScript number is exact on the integers below `2 ^ 53`, a count of parsed files
  no process can reach.
* A thrown exception is a value of `JsError`; code that may throw returns `Except`.
* `for (const asset of graph)` walks an array that grows while it is walked and need
  not stop, so the loop takes a fuel (an upper bound on the number of iterations) and
  its outcome is `returned`, `threw` or `outOfFuel`.
* What the program uses from Node and Babel (`fs`, `path`, `babel-core`,
  `babel-traverse`) is collected in `Env`.
-/

namespace Roid

/-- A thrown JavaScript exception, identified by its message. -/
abbrev JsError := String

/-- Outcome of running code that may loop: the value it returns, the exception it
throws, or `outOfFuel` when the fuel given did not suffice. -/
inductive Outcome (α : Type) where
  | returned (a : α)
  | threw (e : JsError)
  | outOfFuel
  deriving DecidableEq, Repr

/-- An ordinary JavaScript object whose own properties hold numbers, listed in
insertion order (`{}` is the empty list). -/
abbrev JsObject := List (String × Nat)

/-- The property read `o[k]`: the number stored under the own key `k`.  `none` stands
for every read that yields no number: `undefined` for an absent key, and the members
inherited from `Object.prototype` (among them `__proto__`). -/
def JsObject.get : JsObject → String → Option Nat
  | [], _ => none
  | (k', v) :: rest, k => if k' = k then some v else JsObject.get rest k

/-- Create or overwrite the own data property `k`; an existing key keeps its place. -/
def JsObject.put : JsObject → String → Nat → JsObject
  | [], k, v => [(k, v)]
  | (k', v') :: rest, k, v =>
    if k' = k then (k', v) :: rest else (k', v') :: JsObject.put rest k v

/-- The assignment `o[k] = v` of a number to a property of an ordinary object.  The key
`__proto__` is not an own property but the accessor inherited from `Object.prototype`,
whose setter ignores a value that is neither an object nor `null`: the assignment
leaves `o` as it was. -/
def JsObject.set (o : JsObject) (k : String) (v : Nat) : JsObject :=
  if k = "__proto__" then o else JsObject.put o k v

/-- What the program uses of a Babel AST: the `source.value` of every
`ImportDeclaration` node in traversal order, and what `transformFromAst` with the
`env` preset makes of the tree (its `.code`, or the exception it throws). -/
structure Ast where
  importDeclarations : List String
  generated : Except JsError String

/-- The collaborators of the bundler: `process.cwd()`, `path.resolve`, `path.dirname`,
`fs.readFileSync(_, 'utf-8')` and Babel's `transform(_).ast`. -/
structure Env where
  currentPath : String
  resolve : String → String → String
  dirname : String → String
  readFileSync : String → Except JsError String
  transform : String → Except JsError Ast

/-- The object returned by `parseDependecies`; `idMapping` is `none` until `parseGraph`
creates the property. -/
structure Asset where
  id : Nat
  code : String
  dependencies : List String
  filename : String
  idMapping : Option JsObject
  deriving DecidableEq, Repr

/-- The function `loader(filename, code)`: it returns `code` unchanged (the line it
prints for a filename matching `/index/` is not modelled). -/
def loader (_filename : String) (code : String) : String := code

/-- The function `parseDependecies(filename)`, run with the counter at `ID`: the Asset
and the new value of the counter, or the exception of the first step that throws. -/
def parseDependecies (env : Env) (filename : String) (ID : Nat) :
    Except JsError (Asset × Nat) :=
  match env.readFileSync filename with
  | .error e => .error e
  | .ok rawCode =>
    match env.transform rawCode with
    | .error e => .error e
    | .ok ast =>
      let dependencies := ast.importDeclarations
      match ast.generated with
      | .error e => .error e
      | .ok es5Code =>
        let customCode := loader filename es5Code
        .ok ({ id := ID, code := customCode, dependencies := dependencies,
               filename := filename, idMapping := none }, ID + 1)

/-- The statement `asset.idMapping[dependencyPath] = id` where `asset` is `graph[i]`;
it throws a `TypeError` when `asset.idMapping` is `undefined`. -/
def assignIdMapping (graph : List Asset) (i : Nat) (dependencyPath : String) (id : Nat) :
    Except JsError (List Asset) :=
  match graph[i]? with
  | none => .error "TypeError: Cannot read properties of undefined"
  | some asset =>
    match asset.idMapping with
    | none => .error "TypeError: Cannot set properties of undefined"
    | some m =>
      .ok (graph.set i { asset with idMapping := some (JsObject.set m dependencyPath id) })

/-- The call `asset.dependencies.forEach(dependencyPath => ...)` of `parseGraph`, for the
asset `graph[i]` whose directory is `dir`: the graph and the counter after the
dependencies listed have been handled, in order. -/
def forEachDependency (env : Env) (dir : String) (i : Nat) :
    List String → List Asset → Nat → Except JsError (List Asset × Nat)
  | [], graph, ID => .ok (graph, ID)
  | dependencyPath :: rest, graph, ID =>
    let absolutePath := env.resolve dir dependencyPath
    match parseDependecies env absolutePath ID with
    | .error e => .error e
    | .ok (denpendencyAsset, ID1) =>
      match assignIdMapping graph i dependencyPath denpendencyAsset.id with
      | .error e => .error e
      | .ok graph1 => forEachDependency env dir i rest (graph1 ++ [denpendencyAsset]) ID1

/-- The statement `if (!asset.idMapping) asset.idMapping = {}` for `asset = graph[i]`. -/
def initIdMapping (graph : List Asset) (i : Nat) (asset : Asset) : List Asset :=
  match asset.idMapping with
  | none => graph.set i { asset with idMapping := some [] }
  | some _ => graph

/-- The loop `for (const asset of graph) { ... }` of `parseGraph`, from the iterator
position `i`: each round reads `graph[i]` (the loop ends when there is none), handles
its dependencies, which appends to `graph`, and moves on to `i + 1`. -/
def graphLoop (env : Env) : Nat → Nat → List Asset → Nat → Outcome (List Asset × Nat)
  | 0, _, _, _ => .outOfFuel
  | fuel + 1, i, graph, ID =>
    match graph[i]? with
    | none => .returned (graph, ID)
    | some asset =>
      let graph1 := initIdMapping graph i asset
      let dir := env.dirname asset.filename
      match forEachDependency env dir i asset.dependencies graph1 ID with
      | .error e => .threw e
      | .ok (graph2, ID2) => graphLoop env fuel (i + 1) graph2 ID2

/-- The function `parseGraph(entry)`, run with the counter at `ID`: the Graph and the
new value of the counter. -/
def parseGraph (env : Env) (fuel : Nat) (entry : String) (ID : Nat) :
    Outcome (List Asset × Nat) :=
  match parseDependecies env (env.resolve env.currentPath entry) ID with
  | .error e => .threw e
  | .ok (entryAsset, ID1) => graphLoop env fuel 0 [entryAsset] ID1

/-! ## The emitter -/

/-- The character with the given code, as a one-character string. -/
def chr (n : Nat) : String := String.singleton (Char.ofNat n)

/-- Lower-case hexadecimal digit. -/
def hexDigit (n : Nat) : Char :=
  if n < 10 then Char.ofNat (48 + n) else Char.ofNat (87 + n)

/-- How `JSON.stringify` writes one character of a string (ECMAScript
`QuoteJSONString`): the two-character escapes, `\u00xx` for the other control
characters, the character itself otherwise. -/
def quoteJSONChar (c : Char) : String :=
  if c.toNat = 8 then chr 92 ++ "b"
  else if c.toNat = 9 then chr 92 ++ "t"
  else if c.toNat = 10 then chr 92 ++ "n"
  else if c.toNat = 12 then chr 92 ++ "f"
  else if c.toNat = 13 then chr 92 ++ "r"
  else if c.toNat = 34 then chr 92 ++ chr 34
  else if c.toNat = 92 then chr 92 ++ chr 92
  else if c.toNat < 32 then
    chr 92 ++ "u00" ++ String.mk [hexDigit (c.toNat / 16), hexDigit (c.toNat % 16)]
  else String.singleton c

/-- The quoted form of a string in `JSON.stringify`. -/
def quoteJSONString (s : String) : String :=
  chr 34 ++ String.join (s.data.map quoteJSONChar) ++ chr 34

/-- Value of a string of decimal digits, `none` if some character is not a digit. -/
def digitsValue : List Char → Nat → Option Nat
  | [], acc => some acc
  | c :: cs, acc =>
    if 48 ≤ c.toNat ∧ c.toNat ≤ 57 then digitsValue cs (acc * 10 + (c.toNat - 48)) else none

/-- The array index a property key denotes, if any: the canonical decimal form of an
integer below `2 ^ 32 - 1`. -/
def arrayIndex (k : String) : Option Nat :=
  match k.data with
  | [] => none
  | c :: cs =>
    if c.toNat = 48 ∧ cs ≠ [] then none
    else
      match digitsValue (c :: cs) 0 with
      | some n => if n < 4294967295 then some n else none
      | none => none

/-- Insert a property whose key is an array index among those already ordered. -/
def insertIndexed (p : Nat × String × Nat) : List (Nat × String × Nat) → List (Nat × String × Nat)
  | [] => [p]
  | q :: qs => if p.1 ≤ q.1 then p :: q :: qs else q :: insertIndexed p qs

/-- The own properties whose key is an array index, in ascending order of the index. -/
def indexedProperties : JsObject → List (Nat × String × Nat)
  | [] => []
  | (k, v) :: rest =>
    match arrayIndex k with
    | some n => insertIndexed (n, k, v) (indexedProperties rest)
    | none => indexedProperties rest

/-- The own properties in the order in which JavaScript enumerates them: array-index
keys in ascending numeric order, then the other keys in insertion order. -/
def ownProperties (o : JsObject) : JsObject :=
  (indexedProperties o).map (fun p => p.2) ++ o.filter (fun p => (arrayIndex p.1).isNone)

/-- The text `JSON.stringify(o)` of an object whose properties hold numbers. -/
def stringifyObject (o : JsObject) : String :=
  chr 123 ++ String.intercalate ","
    ((ownProperties o).map (fun p => quoteJSONString p.1 ++ ":" ++ toString p.2)) ++ chr 125

/-- The text that the template literal makes of `JSON.stringify(asset.idMapping)`:
`JSON.stringify(undefined)` is `undefined`, interpolated as the word. -/
def stringifyIdMapping : Option JsObject → String
  | none => "undefined"
  | some o => stringifyObject o

/-- One round of `graph.forEach(asset => { modules += ... })` in `build`: the table
entry of one asset. -/
def moduleEntry (asset : Asset) : String :=
  toString asset.id ++ ":[\n            function(require,module,exports)" ++ chr 123
    ++ asset.code ++ chr 125 ++ ",\n            " ++ stringifyIdMapping asset.idMapping
    ++ ",\n        ],"

/-- The string `modules` of `build` after the `forEach`. -/
def modulesText (graph : List Asset) : String :=
  graph.foldl (fun modules asset => modules ++ moduleEntry asset) ""

/-- The text of the runtime loader in `wrap`, up to the place of the table. -/
def wrapHead : String :=
  "\n  (function(modules) " ++ chr 123 ++ "\n    function require(id) " ++ chr 123
    ++ "\n      const [fn, idMapping] = modules[id];"
    ++ "\n      function childRequire(filename) " ++ chr 123
    ++ "\n        return require(idMapping[filename]);"
    ++ "\n      " ++ chr 125
    ++ "\n      const newModule = " ++ chr 123 ++ "exports: " ++ chr 123 ++ chr 125 ++ chr 125 ++ ";"
    ++ "\n      fn(childRequire, newModule, newModule.exports);"
    ++ "\n      return newModule.exports"
    ++ "\n    " ++ chr 125
    ++ "\n    require(0);"
    ++ "\n  " ++ chr 125 ++ ")(" ++ chr 123

/-- The function `build(graph)`: the loader applied to the table of the graph. -/
def build (graph : List Asset) : String :=
  wrapHead ++ modulesText graph ++ chr 125 ++ ");"

/-- The exported function `entry => build(parseGraph(entry))`, run with the counter at
`ID`: the artifact and the new value of the counter. -/
def bundler (env : Env) (fuel : Nat) (entry : String) (ID : Nat) : Outcome (String × Nat) :=
  match parseGraph env fuel entry ID with
  | .returned (graph, ID1) => .returned (build graph, ID1)
  | .threw e => .threw e
  | .outOfFuel => .outOfFuel

/-! ## Paths and file systems for the examples -/

/-- Split a path at its slashes. -/
def splitSlash : List Char → List (List Char)
  | [] => [[]]
  | c :: cs =>
    match splitSlash cs with
    | [] => [[c]]
    | seg :: segs => if c = '/' then [] :: seg :: segs else (c :: seg) :: segs

/-- Node's `normalizeString` for an absolute path: empty and `.` segments are dropped,
`..` removes the segment before it (and is dropped at the root).  `stack` holds the
segments kept so far, last first. -/
def normalizeSegments (stack : List (List Char)) : List (List Char) → List (List Char)
  | [] => stack.reverse
  | seg :: rest =>
    if seg = [] ∨ seg = ['.'] then normalizeSegments stack rest
    else if seg = ['.', '.'] then normalizeSegments stack.tail rest
    else normalizeSegments (seg :: stack) rest

/-- The POSIX `path.resolve(a, b)` in a process whose working directory is the absolute
path `cwd`: arguments are taken from the right until one is absolute, then the path
is normalised. -/
def posixResolve (cwd a b : String) : String :=
  let joined : List Char :=
    if b.data.head? = some '/' then b.data
    else if a.data.head? = some '/' then a.data ++ '/' :: b.data
    else cwd.data ++ '/' :: (a.data ++ '/' :: b.data)
  String.mk ('/' :: List.intercalate ['/'] (normalizeSegments [] (splitSlash joined)))

/-- The scan of POSIX `path.dirname` from the end of the path (first character left
out): the characters before the last slash that follows a name. -/
def dirnameScan : List Char → Bool → Option (List Char)
  | [], _ => none
  | c :: r, matchedSlash =>
    if c = '/' then (if matchedSlash then dirnameScan r true else some r.reverse)
    else dirnameScan r false

/-- The POSIX `path.dirname(p)`. -/
def posixDirname (p : String) : String :=
  match p.data with
  | [] => "."
  | c :: cs =>
    match dirnameScan cs.reverse true with
    | none => if c = '/' then "/" else "."
    | some pre => if c = '/' ∧ pre = [] then "//" else String.mk (c :: pre)

/-- The code of `entry.js` after Babel, as `output.js` holds it. -/
def entryCode : String :=
  "\"use strict\";\n\n" ++
  "var _message = require(\"./message.js\");\n\n" ++
  "var _message2 = _interopRequireDefault(_message);\n\n" ++
  "var _name = require(\"./name.js\");\n\n" ++
  "function _interopRequireDefault(obj) \x7b return obj && obj.__esModule ? obj : \x7b default: obj \x7d; \x7d\n\n" ++
  "console.log((0, _message2.default)());\n" ++
  "console.log(_name.name);"

/-- The code of `message.js` after Babel, as `output.js` holds it. -/
def messageCode : String :=
  "\"use strict\";\n\n" ++
  "Object.defineProperty(exports, \"__esModule\", \x7b\n" ++
  "  value: true\n" ++
  "\x7d);\n\n" ++
  "var _name = require(\"./name.js\");\n\n" ++
  "exports.default = function () \x7b\n" ++
  "  return \"hello \" + _name.name + \"!\";\n" ++
  "\x7d;"

/-- The code of `name.js` after Babel, as `output.js` holds it. -/
def nameCode : String :=
  "\"use strict\";\n\n" ++
  "Object.defineProperty(exports, \"__esModule\", \x7b\n" ++
  "  value: true\n" ++
  "\x7d);\n" ++
  "var name = exports.name = 'world';"

/-- The text of the committed artifact `output.js`, without the newline that ends the
file. -/
def outputJs : String :=
  "\n" ++
  "  (function(modules) \x7b\n" ++
  "    function require(id) \x7b\n" ++
  "      const [fn, idMapping] = modules[id];\n" ++
  "      function childRequire(filename) \x7b\n" ++
  "        return require(idMapping[filename]);\n" ++
  "      \x7d\n" ++
  "      const newModule = \x7bexports: \x7b\x7d\x7d;\n" ++
  "      fn(childRequire, newModule, newModule.exports);\n" ++
  "      return newModule.exports\n" ++
  "    \x7d\n" ++
  "    require(0);\n" ++
  "  \x7d)(\x7b0:[\n" ++
  "            function(require,module,exports)\x7b\"use strict\";\n\n" ++
  "var _message = require(\"./message.js\");\n\n" ++
  "var _message2 = _interopRequireDefault(_message);\n\n" ++
  "var _name = require(\"./name.js\");\n\n" ++
  "function _interopRequireDefault(obj) \x7b return obj && obj.__esModule ? obj : \x7b default: obj \x7d; \x7d\n\n" ++
  "console.log((0, _message2.default)());\n" ++
  "console.log(_name.name);\x7d,\n" ++
  "            \x7b\"./message.js\":1,\"./name.js\":2\x7d,\n" ++
  "        ],1:[\n" ++
  "            function(require,module,exports)\x7b\"use strict\";\n\n" ++
  "Object.defineProperty(exports, \"__esModule\", \x7b\n" ++
  "  value: true\n" ++
  "\x7d);\n\n" ++
  "var _name = require(\"./name.js\");\n\n" ++
  "exports.default = function () \x7b\n" ++
  "  return \"hello \" + _name.name + \"!\";\n" ++
  "\x7d;\x7d,\n" ++
  "            \x7b\"./name.js\":3\x7d,\n" ++
  "        ],2:[\n" ++
  "            function(require,module,exports)\x7b\"use strict\";\n\n" ++
  "Object.defineProperty(exports, \"__esModule\", \x7b\n" ++
  "  value: true\n" ++
  "\x7d);\n" ++
  "var name = exports.name = 'world';\x7d,\n" ++
  "            \x7b\x7d,\n" ++
  "        ],3:[\n" ++
  "            function(require,module,exports)\x7b\"use strict\";\n\n" ++
  "Object.defineProperty(exports, \"__esModule\", \x7b\n" ++
  "  value: true\n" ++
  "\x7d);\n" ++
  "var name = exports.name = 'world';\x7d,\n" ++
  "            \x7b\x7d,\n" ++
  "        ],\x7d);"

/-- A source file of an example: its path, its text, and what Babel makes of the text. -/
structure SourceFile where
  path : String
  text : String
  ast : Except JsError Ast

/-- The `readFileSync` of a file system holding the files listed. -/
def readFrom : List SourceFile → String → Except JsError String
  | [], p => .error ("ENOENT: no such file or directory, open " ++ p)
  | f :: fs, p => if f.path = p then .ok f.text else readFrom fs p

/-- Babel's `transform` on the texts of the files listed. -/
def transformFrom : List SourceFile → String → Except JsError Ast
  | [], _ => .error "SyntaxError"
  | f :: fs, t => if f.text = t then f.ast else transformFrom fs t

/-- The environment of a process started in `cwd` on a POSIX file system holding the
files listed. -/
def posixEnv (cwd : String) (files : List SourceFile) : Env where
  currentPath := cwd
  resolve := posixResolve cwd
  dirname := posixDirname
  readFileSync := readFrom files
  transform := transformFrom files

/-- A file whose text Babel accepts, with the specifiers it imports. -/
def sourceFile (path text : String) (imports : List String) (es5 : String) : SourceFile :=
  { path := path, text := text,
    ast := .ok { importDeclarations := imports, generated := .ok es5 } }

/-- The example behind `output.js`: the entry imports `./message.js` and `./name.js`,
and `message.js` imports `./name.js`.  The artifact keeps the code that Babel made of
each file, not its text; the texts here are sources with these imports. -/
def exampleFiles : List SourceFile :=
  [ sourceFile "/example/entry.js"
      "import message from './message.js'\nimport { name } from './name.js'\nconsole.log(message())\nconsole.log(name)"
      ["./message.js", "./name.js"] entryCode,
    sourceFile "/example/message.js"
      "import { name } from './name.js'\nexport default () => 'hello ' + name + '!'"
      ["./name.js"] messageCode,
    sourceFile "/example/name.js"
      "export const name = 'world'"
      [] nameCode ]

/-- The process of the example, started in `/`. -/
def exampleEnv : Env := posixEnv "/" exampleFiles

/-! ## The runtime loader

The loader that `build` writes into every artifact (`wrap`, and lines 2 to 12 of
`output.js`).  A module body is not code of the bundler but its input, so it is data
here: a straight-line sequence of the two kinds of statement that involve the loader,
calls of the `require` it is handed and writes to the `exports` object it is handed.
A JavaScript object reference is the index of the object among the objects created. -/

/-- A statement of the body of a module function `function(require,module,exports)`. -/
inductive Stmt where
  /-- The call `require(filename)` of the function passed in, that is of `childRequire`. -/
  | require (filename : String)
  /-- The write `exports[key] = value` of a number. -/
  | exportsAssign (key : String) (value : Nat)
  deriving DecidableEq, Repr

/-- A value `[fn, idMapping]` of the table. -/
structure ModuleEntry where
  fn : List Stmt
  idMapping : JsObject
  deriving DecidableEq, Repr

/-- The table `modules`: the properties `id:[fn, idMapping],` of the object literal, in
the order in which they are written. -/
abbrev Modules := List (Nat × ModuleEntry)

/-- The property read `modules[id]` for a number `id`; of two properties written with
the same key the later one stands. -/
def Modules.get : Modules → Nat → Option ModuleEntry
  | [], _ => none
  | (k, entry) :: rest, id =>
    match Modules.get rest id with
    | some later => some later
    | none => if k = id then some entry else none

/-- The state of one execution of an artifact: the `exports` objects created so far (a
reference is a position in `objects`), and, for the proofs only, the identifiers whose
module body has been entered, in order. -/
structure LoaderState where
  objects : List JsObject
  executed : List Nat
  deriving DecidableEq, Repr

/-- The write `exports[key] = value` to the object with reference `ref`. -/
def writeExport : List JsObject → Nat → String → Nat → List JsObject
  | [], _, _, _ => []
  | o :: rest, 0, key, value => JsObject.set o key value :: rest
  | o :: rest, ref + 1, key, value => o :: writeExport rest ref key value

/-- The call `fn(childRequire, newModule, newModule.exports)`: the statements of the body
in order, where `exports` is the reference of `newModule.exports`. -/
def runBody (childRequire : String → LoaderState → Outcome (Nat × LoaderState))
    (exports : Nat) : List Stmt → LoaderState → Outcome LoaderState
  | [], st => .returned st
  | .require filename :: rest, st =>
    match childRequire filename st with
    | .returned (_, st1) => runBody childRequire exports rest st1
    | .threw e => .threw e
    | .outOfFuel => .outOfFuel
  | .exportsAssign key value :: rest, st =>
    runBody childRequire exports rest
      { st with objects := writeExport st.objects exports key value }

/-- The function `require(id)` of the loader, with `depth` bounding the nesting of calls.
The argument is `some n` for the number `n` and `none` for any other value (such as
the `undefined` that `idMapping[filename]` yields for an unknown `filename`); when
`modules[id]` is `undefined` the destructuring `const [fn, idMapping] = modules[id]`
throws.  The result is the reference of `newModule.exports`. -/
def require (modules : Modules) : Nat → Option Nat → LoaderState → Outcome (Nat × LoaderState)
  | 0, _, _ => .outOfFuel
  | depth + 1, id, st =>
    match id with
    | none => .threw "TypeError: undefined is not iterable"
    | some n =>
      match Modules.get modules n with
      | none => .threw "TypeError: undefined is not iterable"
      | some entry =>
        let childRequire := fun (filename : String) (s : LoaderState) =>
          require modules depth (JsObject.get entry.idMapping filename) s
        let exports := st.objects.length
        let st1 : LoaderState :=
          { objects := st.objects ++ [[]], executed := st.executed ++ [n] }
        match runBody childRequire exports entry.fn st1 with
        | .returned st2 => .returned (exports, st2)
        | .threw e => .threw e
        | .outOfFuel => .outOfFuel

/-- The state in which the loader starts: no object created, no body entered. -/
def LoaderState.initial : LoaderState := { objects := [], executed := [] }

/-- A table of one module that exports a name and requires nothing. -/
def singleModules : Modules :=
  [(0, { fn := [.exportsAssign "name" 7], idMapping := [] })]

/-- A table of two modules that require each other: module 0 writes an export, requires
module 1 and writes a second export; module 1 requires module 0. -/
def circularModules : Modules :=
  [(0, { fn := [.exportsAssign "first" 1, .require "./b.js", .exportsAssign "second" 2],
         idMapping := [("./b.js", 1)] }),
   (1, { fn := [.require "./a.js", .exportsAssign "b" 3], idMapping := [("./a.js", 0)] })]

/-- Two files that import each other: `a.js` imports `./b.js` and `b.js` imports
`./a.js`. -/
def cycleFiles : List SourceFile :=
  [ sourceFile "/a.js" "import b from './b.js'" ["./b.js"] "var _b = require('./b.js');",
    sourceFile "/b.js" "import a from './a.js'" ["./a.js"] "var _a = require('./a.js');" ]

/-- A process started in `/` on the two files that import each other. -/
def cycleEnv : Env := posixEnv "/" cycleFiles

/-- A project of one file without imports. -/
def singleEnv : Env :=
  posixEnv "/" [sourceFile "/entry.js" "console.log(1)" [] "console.log(1);"]

/-- A project whose entry imports the file named `__proto__` that lies next to it. -/
def protoEnv : Env :=
  posixEnv "/"
    [ sourceFile "/entry.js" "import p from '__proto__'" ["__proto__"]
        "var _proto__ = require('__proto__');",
      sourceFile "/__proto__" "export default 1" [] "exports.default = 1;" ]

/-- A project whose entry imports `./a.js` and `./missing.js`, in this order; the second
file does not exist, and `a.js` is a file Babel cannot parse. -/
def brokenEnv : Env :=
  posixEnv "/"
    [ sourceFile "/entry.js" "import a from './a.js'\nimport m from './missing.js'"
        ["./a.js", "./missing.js"] "var _a = require('./a.js');",
      { path := "/a.js", text := "import from", ast := .error "SyntaxError: Unexpected token" } ]

/-- The graph that `parseGraph` returns for the example (compare the table of
`output.js`): `name.js` is parsed twice, as the assets 2 and 3. -/
def exampleGraph : List Asset :=
  [ { id := 0, code := entryCode, dependencies := ["./message.js", "./name.js"],
      filename := "/example/entry.js",
      idMapping := some [("./message.js", 1), ("./name.js", 2)] },
    { id := 1, code := messageCode, dependencies := ["./name.js"],
      filename := "/example/message.js", idMapping := some [("./name.js", 3)] },
    { id := 2, code := nameCode, dependencies := [], filename := "/example/name.js",
      idMapping := some [] },
    { id := 3, code := nameCode, dependencies := [], filename := "/example/name.js",
      idMapping := some [] } ]

/-- The graph that `parseGraph` returns for the project that imports `__proto__`. -/
def protoGraph : List Asset :=
  [ { id := 0, code := "var _proto__ = require('__proto__');", dependencies := ["__proto__"],
      filename := "/entry.js", idMapping := some [] },
    { id := 1, code := "exports.default = 1;", dependencies := [], filename := "/__proto__",
      idMapping := some [] } ]

/-- The asset that `parseDependecies` makes of the one file of `singleEnv` when the
counter is at `id`, once `parseGraph` has walked it. -/
def singleAsset (id : Nat) : Asset :=
  { id := id, code := "console.log(1);", dependencies := [], filename := "/entry.js",
    idMapping := some [] }

/-- The paths that `parseGraph` resolves the specifiers of an asset to, in source order:
`path.resolve(path.dirname(asset.filename), dependencyPath)`. -/
def childPaths (env : Env) (asset : Asset) : List String :=
  asset.dependencies.map (env.resolve (env.dirname asset.filename))

/-- The object `m` after the assignments `m[s₀] = n`, `m[s₁] = n + 1`, ... for the
specifiers listed. -/
def assignAll (m : JsObject) : List String → Nat → JsObject
  | [], _ => m
  | s :: rest, n => assignAll (JsObject.set m s n) rest (n + 1)

/-- The assets that `parseDependecies` returns for the specifiers listed, resolved
against `dir`, with the counter starting at `n`; the exception of the first call that
throws. -/
def parseAll (env : Env) (dir : String) : List String → Nat → Except JsError (List Asset)
  | [], _ => .ok []
  | s :: rest, n =>
    match parseDependecies env (env.resolve dir s) n with
    | .error e => .error e
    | .ok (c, _) =>
      match parseAll env dir rest (n + 1) with
      | .error e => .error e
      | .ok cs => .ok (c :: cs)

/-- Number of specifier occurrences in the assets listed. -/
def importCount (assets : List Asset) : Nat :=
  (assets.map (fun a => a.dependencies.length)).sum

/-- The `idMapping` of each asset of a list when the first identifier handed out to a
dependency of the list is `n`: every specifier occurrence takes the next identifier. -/
def expectedMappings : Nat → List Asset → List (Option JsObject)
  | _, [] => []
  | n, a :: rest =>
    some (assignAll [] a.dependencies n) :: expectedMappings (n + a.dependencies.length) rest

/-- What holds of the graph each time the loop of `parseGraph` reads the next asset:
`done` are the assets already walked, `todo` those still ahead, `ID0` the counter when
`parseGraph` was called and `entryPath` the path of the entry. -/
structure LoopInv (env : Env) (ID0 : Nat) (entryPath : String) (done todo : List Asset)
    (ID : Nat) : Prop where
  counter : ID = ID0 + (done ++ todo).length
  ids : (done ++ todo).map (fun a => a.id) = List.range' ID0 (done ++ todo).length
  files : (done ++ todo).map (fun a => a.filename) = entryPath :: done.flatMap (childPaths env)
  parsed : ∀ a ∈ done ++ todo,
    parseDependecies env a.filename a.id = .ok ({ a with idMapping := none }, a.id + 1)
  pending : ∀ a ∈ todo, a.idMapping = none
  mapped : done.map (fun a => a.idMapping) = expectedMappings (ID0 + 1) done

/-! ## The calls of `parseDependecies`

The same three functions once more, each keeping the list of the paths it has passed
to `parseDependecies`, in the order of the calls (`log` holds the calls made before). -/

/-- The `forEach` of `parseGraph` (see `forEachDependency`) with the paths it has passed
to `parseDependecies`. -/
def forEachDependencyLogged (env : Env) (dir : String) (i : Nat) :
    List String → List Asset → Nat → List String →
      Except JsError (List Asset × Nat) × List String
  | [], graph, ID, log => (.ok (graph, ID), log)
  | dependencyPath :: rest, graph, ID, log =>
    let absolutePath := env.resolve dir dependencyPath
    match parseDependecies env absolutePath ID with
    | .error e => (.error e, log ++ [absolutePath])
    | .ok (denpendencyAsset, ID1) =>
      match assignIdMapping graph i dependencyPath denpendencyAsset.id with
      | .error e => (.error e, log ++ [absolutePath])
      | .ok graph1 =>
        forEachDependencyLogged env dir i rest (graph1 ++ [denpendencyAsset]) ID1
          (log ++ [absolutePath])

/-- The loop of `parseGraph` (see `graphLoop`) with the paths it has passed to
`parseDependecies`. -/
def graphLoopLogged (env : Env) :
    Nat → Nat → List Asset → Nat → List String → Outcome (List Asset × Nat) × List String
  | 0, _, _, _, log => (.outOfFuel, log)
  | fuel + 1, i, graph, ID, log =>
    match graph[i]? with
    | none => (.returned (graph, ID), log)
    | some asset =>
      let graph1 := initIdMapping graph i asset
      let dir := env.dirname asset.filename
      match forEachDependencyLogged env dir i asset.dependencies graph1 ID log with
      | (.error e, log1) => (.threw e, log1)
      | (.ok (graph2, ID2), log1) => graphLoopLogged env fuel (i + 1) graph2 ID2 log1

/-- The function `parseGraph` with the paths it has passed to `parseDependecies`, the
path of the entry first. -/
def parseGraphLogged (env : Env) (fuel : Nat) (entry : String) (ID : Nat) :
    Outcome (List Asset × Nat) × List String :=
  match parseDependecies env (env.resolve env.currentPath entry) ID with
  | .error e => (.threw e, [env.resolve env.currentPath entry])
  | .ok (entryAsset, ID1) =>
    graphLoopLogged env fuel 0 [entryAsset] ID1 [env.resolve env.currentPath entry]

/-- The resolutions of the specifiers listed, up to and including the first that
`parseDependecies` fails on. -/
def attempted (env : Env) (dir : String) : List String → List String
  | [] => []
  | s :: rest =>
    env.resolve dir s ::
      (match parseDependecies env (env.resolve dir s) 0 with
       | .error _ => []
       | .ok _ => attempted env dir rest)

/-- The identifiers whose bodies a module body enters through its calls of `require`, in
order, when `childTrace` tells those of each call (`none` for a call that does not
return). -/
def bodyTrace (childTrace : String → Option (List Nat)) : List Stmt → Option (List Nat)
  | [] => some []
  | .require filename :: rest =>
    match childTrace filename with
    | none => none
    | some t =>
      match bodyTrace childTrace rest with
      | none => none
      | some ts => some (t ++ ts)
  | .exportsAssign _ _ :: rest => bodyTrace childTrace rest

/-- The identifiers whose bodies a call `require(id)` enters, in order, when the call
returns within the nesting `depth`; `none` when it does not. -/
def requireTrace (modules : Modules) : Nat → Option Nat → Option (List Nat)
  | 0, _ => none
  | depth + 1, id =>
    match id with
    | none => none
    | some n =>
      match Modules.get modules n with
      | none => none
      | some entry =>
        match bodyTrace
            (fun filename => requireTrace modules depth (JsObject.get entry.idMapping filename))
            entry.fn with
        | none => none
        | some ts => some (n :: ts)

/-! ## Running an artifact -/

/-- The self-executing expression `(function(modules) ... )(table)` that `build` emits:
the function declares `require`, runs the statement `require(0);` and ends without a
`return`.  The result is the value of the expression, `none` for `undefined` and
`some r` for the object with reference `r`, with the state the execution leaves. -/
def runtimeLoader (modules : Modules) (depth : Nat) : Outcome (Option Nat × LoaderState) :=
  match require modules depth (some 0) LoaderState.initial with
  | .returned (_, st) => .returned (none, st)
  | .threw e => .threw e
  | .outOfFuel => .outOfFuel

/-- The table that the engine builds from the object literal emitted for a graph, when
`bodyOf` tells the statements of a function body from its code: one property per
asset, keyed by its `id`, in graph order.  An `idMapping` that was never created is
emitted as the word `undefined`; such a module has no mapping to read. -/
def tableOf (bodyOf : String → List Stmt) (graph : List Asset) : Modules :=
  graph.map (fun asset =>
    (asset.id, { fn := bodyOf asset.code, idMapping := asset.idMapping.getD [] }))

/-- A table whose module 0 requires a file that its mapping does not hold. -/
def danglingModules : Modules :=
  [(0, { fn := [.exportsAssign "first" 1, .require "./gone.js"], idMapping := [("./b.js", 1)] }),
   (1, { fn := [], idMapping := [] })]

/-- A project whose entry imports `./name` where only the file `/name.js` exists. -/
def extensionEnv : Env :=
  posixEnv "/"
    [ sourceFile "/entry.js" "import { name } from './name'" ["./name"]
        "var _name = require('./name');",
      sourceFile "/name.js" "export const name = 'world'" [] "exports.name = 'world';" ]

/-- A project whose entry imports `./lib` where only the file `/lib/index.js` exists. -/
def indexEnv : Env :=
  posixEnv "/"
    [ sourceFile "/entry.js" "import lib from './lib'" ["./lib"]
        "var _lib = require('./lib');",
      sourceFile "/lib/index.js" "export default 1" [] "exports.default = 1;" ]

/-- A project of one file without imports whose body sets an export to the constant 42. -/
def constantEnv : Env :=
  posixEnv "/" [sourceFile "/entry.js" "exports.answer = 42" [] "exports.answer = 42;"]

/-- The asset that `parseGraph` makes of the one file of `constantEnv` with the counter
at 0. -/
def constantAsset : Asset :=
  { id := 0, code := "exports.answer = 42;", dependencies := [], filename := "/entry.js",
    idMapping := some [] }

/-- The statements of the function bodies of `constantEnv`. -/
def constantBody (code : String) : List Stmt :=
  if code = "exports.answer = 42;" then [.exportsAssign "answer" 42] else []

/-! ## Reading a quoted string back -/

/-- The value of a hexadecimal digit. -/
def hexValue (c : Char) : Option Nat :=
  if 48 ≤ c.toNat ∧ c.toNat ≤ 57 then some (c.toNat - 48)
  else if 97 ≤ c.toNat ∧ c.toNat ≤ 102 then some (c.toNat - 87)
  else if 65 ≤ c.toNat ∧ c.toNat ≤ 70 then some (c.toNat - 55)
  else none

/-- The character that a `\uXXXX` escape with the four digits given denotes. -/
def unicodeEscape (a b x y : Char) : Option Char :=
  match hexValue a, hexValue b, hexValue x, hexValue y with
  | some a, some b, some x, some y => some (Char.ofNat (4096 * a + 256 * b + 16 * x + y))
  | _, _, _, _ => none

/-- The characters that the engine reads from the inside of a double-quoted string
literal (the text between the quotes): an unescaped quote ends the literal and is not
allowed inside; a backslash starts one of the escapes of JSON. -/
def unquoteJSONChars : List Char → Option (List Char)
  | [] => some []
  | c :: rest =>
    if c.toNat = 34 then none
    else if c.toNat = 92 then
      match rest with
      | [] => none
      | e :: rest1 =>
        if e.toNat = 98 then (unquoteJSONChars rest1).map (fun cs => Char.ofNat 8 :: cs)
        else if e.toNat = 116 then (unquoteJSONChars rest1).map (fun cs => Char.ofNat 9 :: cs)
        else if e.toNat = 110 then (unquoteJSONChars rest1).map (fun cs => Char.ofNat 10 :: cs)
        else if e.toNat = 102 then (unquoteJSONChars rest1).map (fun cs => Char.ofNat 12 :: cs)
        else if e.toNat = 114 then (unquoteJSONChars rest1).map (fun cs => Char.ofNat 13 :: cs)
        else if e.toNat = 34 then (unquoteJSONChars rest1).map (fun cs => Char.ofNat 34 :: cs)
        else if e.toNat = 92 then (unquoteJSONChars rest1).map (fun cs => Char.ofNat 92 :: cs)
        else if e.toNat = 47 then (unquoteJSONChars rest1).map (fun cs => Char.ofNat 47 :: cs)
        else if e.toNat = 117 then
          match rest1 with
          | a :: b :: x :: y :: rest2 =>
            match unicodeEscape a b x y with
            | some u => (unquoteJSONChars rest2).map (fun cs => u :: cs)
            | none => none
          | _ => none
        else none
    else (unquoteJSONChars rest).map (fun cs => c :: cs)

/-- The string that a double-quoted string literal denotes, `none` when the text is not
such a literal. -/
def unquoteJSONString (t : String) : Option String :=
  match t.data with
  | [] => none
  | q :: body =>
    if q.toNat = 34 ∧ body.getLast? = some (Char.ofNat 34) then
      (unquoteJSONChars body.dropLast).map String.mk
    else none

/-! ## Levels of a graph -/

/-- The levels of a graph after the level `level`: the next level is made of as many
assets of `rest` as the assets of `level` have specifier occurrences.  The fuel bounds
the number of levels. -/
def levelsFrom : Nat → List Asset → List Asset → List (List Asset)
  | 0, level, _ => [level]
  | fuel + 1, level, rest =>
    match rest with
    | [] => [level]
    | _ :: _ =>
      level :: levelsFrom fuel (rest.take (importCount level)) (rest.drop (importCount level))

/-- The levels of a graph: the entry asset alone, then the assets parsed for the
specifiers of the entry, then those parsed for the specifiers of these, and so on. -/
def levels (graph : List Asset) : List (List Asset) :=
  match graph with
  | [] => []
  | entryAsset :: rest => levelsFrom rest.length [entryAsset] rest

/-- The number `n` for every asset of the first level listed, `n + 1` for every asset of
the next, and so on. -/
def levelNumbers : Nat → List (List Asset) → List Nat
  | _, [] => []
  | n, level :: rest => List.replicate level.length n ++ levelNumbers (n + 1) rest

/-- For each position of a graph, the length of the import chain by which its asset was
discovered: the number of its level. -/
def chainLengths (graph : List Asset) : List Nat := levelNumbers 0 (levels graph)

/-! ## The import relation between files -/

/-- The paths that the specifiers of a file resolve to, in source order, one for each
occurrence of a specifier; none when the file does not parse. -/
def importsOf (env : Env) (file : String) : List String :=
  match parseDependecies env file 0 with
  | .ok (asset, _) => childPaths env asset
  | .error _ => []

/-- The file `p` parses and one of its specifiers resolves to `q`. -/
def Imports (env : Env) (p q : String) : Prop := q ∈ importsOf env p

instance (env : Env) (p q : String) : Decidable (Imports env p q) :=
  inferInstanceAs (Decidable (q ∈ importsOf env p))

/-- The sum of the sizes of the paths listed, when each has one. -/
def sumSizes (size : String → Option Nat) : List String → Option Nat
  | [] => some 0
  | q :: rest =>
    match size q, sumSizes size rest with
    | some n, some m => some (n + m)
    | _, _ => none

/-- The number of import chains that start at `file`, the empty chain included, each
occurrence of a specifier counted separately: one more than the sum of the numbers for
the paths its specifiers resolve to.  There is none when a chain comes to a file that
does not parse or is longer than `depth - 1`. -/
def unfoldSize (env : Env) : Nat → String → Option Nat
  | 0, _ => none
  | depth + 1, file =>
    match parseDependecies env file 0 with
    | .error _ => none
    | .ok (asset, _) =>
      match sumSizes (unfoldSize env depth) (childPaths env asset) with
      | some n => some (1 + n)
      | none => none

/-- The import chains of at most `depth - 1` imports that start at `file`, each as the
list of the files it passes: the chain that stays at `file`, then for each occurrence of
a specifier of `file`, in source order, the chains that go on from the path it resolves
to. -/
def importChains (env : Env) : Nat → String → List (List String)
  | 0, _ => []
  | depth + 1, file =>
    [file] :: (importsOf env file).flatMap
      (fun q => (importChains env depth q).map (fun chain => file :: chain))

/-! ## The builder of the specification

The GraphBuilder as section 4.3 of the specification words it, with the table from
absolute paths to identifiers that it consults before it parses.  Its parser is
`parseDependecies` and its path resolver the `resolve` of the environment, as in
`parseGraph`; its `specifierToId` is a mapping, so a key is recorded whatever its
name. -/

/-- The identifier `knownId(P)` registered for the path `P`, if `P` is already known. -/
def knownId : List (String × Nat) → String → Option Nat
  | [], _ => none
  | (path, id) :: rest, P => if path = P then some id else knownId rest P

/-- The builder of the specification on the specifiers of the asset `A` being processed,
one resolved path `P` after the other: if `P` is already known, record
`A.specifierToId[specifier] = knownId(P)` and do not parse again; otherwise parse `P`
into a new asset `B` with the next sequential identifier, register
`absolutePath(B) -> id(B)`, append `B` to the graph (the worklist is its unprocessed
end) and record `A.specifierToId[specifier] = id(B)`. -/
def specResolveEach (env : Env) (dir : String) :
    List String → JsObject → List Asset → List (String × Nat) → Nat →
      Except JsError (JsObject × List Asset × List (String × Nat) × Nat)
  | [], specifierToId, graph, known, next => .ok (specifierToId, graph, known, next)
  | specifier :: rest, specifierToId, graph, known, next =>
    let P := env.resolve dir specifier
    match knownId known P with
    | some id => specResolveEach env dir rest (specifierToId.put specifier id) graph known next
    | none =>
      match parseDependecies env P next with
      | .error e => .error e
      | .ok (B, _) =>
        specResolveEach env dir rest (specifierToId.put specifier B.id) (graph ++ [B])
          (known ++ [(P, B.id)]) (next + 1)

/-- The worklist loop of the specification, breadth-first: the next unprocessed asset is
`graph[i]`; the loop ends when there is none. -/
def specLoop (env : Env) :
    Nat → Nat → List Asset → List (String × Nat) → Nat → Outcome (List Asset)
  | 0, _, _, _, _ => .outOfFuel
  | fuel + 1, i, graph, known, next =>
    match graph[i]? with
    | none => .returned graph
    | some A =>
      match specResolveEach env (env.dirname A.filename) A.dependencies [] graph known next with
      | .error e => .threw e
      | .ok (specifierToId, graph1, known1, next1) =>
        specLoop env fuel (i + 1) (graph1.set i { A with idMapping := some specifierToId })
          known1 next1

/-- The contract `build(entryPath) -> Graph` of the specification: the worklist is seeded
with the entry, which receives the identifier 0 and is registered under its path. -/
def specBuild (env : Env) (fuel : Nat) (entry : String) : Outcome (List Asset) :=
  match parseDependecies env (env.resolve env.currentPath entry) 0 with
  | .error e => .threw e
  | .ok (A, _) => specLoop env fuel 0 [A] [(env.resolve env.currentPath entry, A.id)] 1

/-- The graph that the builder of the specification returns for the project that imports
`__proto__`. -/
def specProtoGraph : List Asset :=
  [ { id := 0, code := "var _proto__ = require('__proto__');", dependencies := ["__proto__"],
      filename := "/entry.js", idMapping := some [("__proto__", 1)] },
    { id := 1, code := "exports.default = 1;", dependencies := [], filename := "/__proto__",
      idMapping := some [] } ]

/-- The files reachable from `entryPath` by imports, listed once each in `files`, form a
tree: no import cycle is reachable, and every reachable file other than the entry is
imported by exactly one specifier occurrence of the reachable files. -/
def ImportTree (env : Env) (entryPath : String) (files : List String) : Prop :=
  files.Nodup ∧
  (∀ p, p ∈ files ↔ Relation.ReflTransGen (Imports env) entryPath p) ∧
  (¬ ∃ q, Relation.ReflTransGen (Imports env) entryPath q ∧
    Relation.TransGen (Imports env) q q) ∧
  ∀ q ∈ files, q ≠ entryPath → (files.flatMap (importsOf env)).count q = 1

end Roid

namespace Roid

/-- The Graph of an outcome of `parseGraph`, the counter left out. -/
def graphOf : Outcome (List Asset × Nat) → Outcome (List Asset)
  | .returned (graph, _) => .returned graph
  | .threw e => .threw e
  | .outOfFuel => .outOfFuel

end Roid

namespace Roid

/-- A project that is a tree: the entry imports `./a.js` and `./b.js`, and `a.js`
imports `./c.js`. -/
def treeEnv : Env :=
  posixEnv "/"
    [ sourceFile "/entry.js" "import a from './a.js'\nimport b from './b.js'"
        ["./a.js", "./b.js"] "var _a = require('./a.js');\nvar _b = require('./b.js');",
      sourceFile "/a.js" "import c from './c.js'" ["./c.js"] "var _c = require('./c.js');",
      sourceFile "/b.js" "export default 2" [] "exports.default = 2;",
      sourceFile "/c.js" "export default 3" [] "exports.default = 3;" ]

/-! ## Auxiliary facts -/

theorem parseDependecies_ok {env : Env} {f : String} {ID : Nat} {a : Asset} {ID1 : Nat}
    (h : parseDependecies env f ID = .ok (a, ID1)) :
    a.id = ID ∧ ID1 = ID + 1 ∧ a.filename = f ∧ a.idMapping = none := by
  unfold parseDependecies at h
  split at h
  · cases h
  · split at h
    · cases h
    · split at h
      · cases h
      · simp only [Except.ok.injEq, Prod.mk.injEq] at h
        obtain ⟨rfl, rfl⟩ := h
        exact ⟨rfl, rfl, rfl, rfl⟩

/-- The result of `parseDependecies` depends on the counter through the `id` only. -/
theorem parseDependecies_counter {env : Env} {f : String} {ID : Nat} {a : Asset} {ID1 : Nat}
    (h : parseDependecies env f ID = .ok (a, ID1)) (n : Nat) :
    parseDependecies env f n = .ok ({ a with id := n }, n + 1) := by
  unfold parseDependecies at h ⊢
  split at h
  · cases h
  · split at h
    · cases h
    · split at h
      · cases h
      · simp only [Except.ok.injEq, Prod.mk.injEq] at h
        obtain ⟨rfl, rfl⟩ := h
        rfl

theorem parseDependecies_error_counter {env : Env} {f : String} {ID : Nat} {e : JsError}
    (h : parseDependecies env f ID = .error e) (n : Nat) :
    parseDependecies env f n = .error e := by
  unfold parseDependecies at h ⊢
  split at h
  · exact h
  · split at h
    · exact h
    · split at h
      · exact h
      · cases h

theorem set_append_cons {α : Type} (l r : List α) (x y : α) :
    (l ++ x :: r).set l.length y = l ++ y :: r := by
  induction l with
  | nil => rfl
  | cons a l ih => simp [ih]

theorem getElem?_append_cons {α : Type} (l r : List α) (x : α) :
    (l ++ x :: r)[l.length]? = some x := by
  induction l with
  | nil => simp
  | cons a l ih => simpa using ih

/-- Closed form of the `forEach` of `parseGraph` on the asset at position `done.length`,
whose `idMapping` is the object `m`. -/
theorem forEachDependency_eq (env : Env) (dir : String) (deps : List String) :
    ∀ (done rest : List Asset) (a : Asset) (m : JsObject) (ID : Nat),
      a.idMapping = some m →
      forEachDependency env dir done.length deps (done ++ a :: rest) ID =
        match parseAll env dir deps ID with
        | .error e => .error e
        | .ok cs =>
          .ok (done ++ { a with idMapping := some (assignAll m deps ID) } :: (rest ++ cs),
               ID + deps.length) := by
  induction deps with
  | nil =>
    intro done rest a m ID hm
    cases a
    simp only at hm
    subst hm
    simp [forEachDependency, parseAll, assignAll]
  | cons s deps ih =>
    intro done rest a m ID hm
    simp only [forEachDependency, parseAll]
    cases hp : parseDependecies env (env.resolve dir s) ID with
    | error e => rfl
    | ok r =>
      obtain ⟨c, ID1⟩ := r
      obtain ⟨hid, hID1, -, -⟩ := parseDependecies_ok hp
      subst hID1
      simp only [assignIdMapping, getElem?_append_cons, hm, set_append_cons]
      have := ih done (rest ++ [c]) { a with idMapping := some (JsObject.set m s c.id) }
        (JsObject.set m s c.id) (ID + 1) rfl
      simp only [List.append_assoc, List.cons_append] at this ⊢
      rw [this]
      cases parseAll env dir deps (ID + 1) with
      | error e => rfl
      | ok cs =>
        simp only [assignAll, hid, List.append_assoc, List.singleton_append, List.length_cons,
          Except.ok.injEq, Prod.mk.injEq, List.append_cancel_left_eq, List.cons.injEq, and_true,
          true_and]
        exact ⟨rfl, by omega⟩

theorem parseAll_ok (env : Env) (dir : String) :
    ∀ (deps : List String) (n : Nat) (cs : List Asset), parseAll env dir deps n = .ok cs →
      cs.map (fun c => c.filename) = deps.map (env.resolve dir) ∧
      cs.map (fun c => c.id) = List.range' n deps.length ∧
      cs.length = deps.length ∧
      (∀ c ∈ cs, c.idMapping = none) ∧
      (∀ c ∈ cs, parseDependecies env c.filename c.id = .ok (c, c.id + 1)) := by
  intro deps
  induction deps with
  | nil =>
    intro n cs h
    simp only [parseAll, Except.ok.injEq] at h
    subst h
    simp
  | cons s deps ih =>
    intro n cs h
    simp only [parseAll] at h
    cases hp : parseDependecies env (env.resolve dir s) n with
    | error e => rw [hp] at h; cases h
    | ok r =>
      obtain ⟨c, ID1⟩ := r
      rw [hp] at h
      simp only at h
      cases hq : parseAll env dir deps (n + 1) with
      | error e => rw [hq] at h; cases h
      | ok cs1 =>
        rw [hq] at h
        simp only [Except.ok.injEq] at h
        subst h
        obtain ⟨hid, hID1, hf, hm⟩ := parseDependecies_ok hp
        obtain ⟨h1, h2, h3, h4, h5⟩ := ih (n + 1) cs1 hq
        subst hID1
        refine ⟨?_, ?_, ?_, ?_, ?_⟩
        · simp [h1, hf]
        · simp [h2, hid, List.range'_succ]
        · simp [h3]
        · intro c' hc'
          rcases List.mem_cons.mp hc' with rfl | hc'
          · exact hm
          · exact h4 c' hc'
        · intro c' hc'
          rcases List.mem_cons.mp hc' with rfl | hc'
          · rw [hf, hid]; exact hp
          · exact h5 c' hc'

theorem graphLoop_end (env : Env) (fuel : Nat) (done : List Asset) (ID : Nat) :
    graphLoop env (fuel + 1) done.length done ID = .returned (done, ID) := by
  simp [graphLoop]

theorem graphLoop_step (env : Env) (fuel : Nat) (done rest : List Asset) (a : Asset) (ID : Nat)
    (ha : a.idMapping = none) :
    graphLoop env (fuel + 1) done.length (done ++ a :: rest) ID =
      match parseAll env (env.dirname a.filename) a.dependencies ID with
      | .error e => .threw e
      | .ok cs =>
        graphLoop env fuel (done ++ [{ a with idMapping := some (assignAll [] a.dependencies ID) }]).length
          ((done ++ [{ a with idMapping := some (assignAll [] a.dependencies ID) }]) ++ (rest ++ cs))
          (ID + a.dependencies.length) := by
  simp only [graphLoop, getElem?_append_cons, initIdMapping, ha, set_append_cons]
  have := forEachDependency_eq env (env.dirname a.filename) a.dependencies done rest
    { a with idMapping := some [] } [] ID rfl
  simp only at this
  rw [this]
  cases parseAll env (env.dirname a.filename) a.dependencies ID with
  | error e => rfl
  | ok cs => simp

theorem expectedMappings_append (n : Nat) (l : List Asset) (a : Asset) :
    expectedMappings n (l ++ [a]) =
      expectedMappings n l ++ [some (assignAll [] a.dependencies (n + importCount l))] := by
  induction l generalizing n with
  | nil => simp [expectedMappings, importCount]
  | cons b l ih =>
    have := ih (n + b.dependencies.length)
    simp only [importCount, Nat.add_assoc] at this
    show expectedMappings n (b :: (l ++ [a])) = _
    simp only [expectedMappings, this, importCount, List.map_cons, List.sum_cons, List.cons_append]

theorem length_flatMap_childPaths (env : Env) (l : List Asset) :
    (l.flatMap (childPaths env)).length = importCount l := by
  induction l with
  | nil => rfl
  | cons a l ih => simp [List.flatMap_cons, childPaths, importCount, ih]

theorem LoopInv.length_eq {env : Env} {ID0 : Nat} {ep : String} {done todo : List Asset}
    {ID : Nat} (h : LoopInv env ID0 ep done todo ID) :
    (done ++ todo).length = 1 + importCount done := by
  have := congrArg List.length h.files
  simp only [List.length_map, List.length_cons, length_flatMap_childPaths] at this
  omega

theorem LoopInv.step {env : Env} {ID0 : Nat} {ep : String} {done rest : List Asset} {a : Asset}
    {ID : Nat} {cs : List Asset} (h : LoopInv env ID0 ep done (a :: rest) ID)
    (hcs : parseAll env (env.dirname a.filename) a.dependencies ID = .ok cs) :
    LoopInv env ID0 ep (done ++ [{ a with idMapping := some (assignAll [] a.dependencies ID) }])
      (rest ++ cs) (ID + a.dependencies.length) := by
  obtain ⟨h1, h2, h3, h4, h5⟩ := parseAll_ok env _ _ _ _ hcs
  have hlen := h.length_eq
  have hc := h.counter
  have hids := h.ids
  have hfiles := h.files
  simp only [List.length_append, List.length_cons, List.map_append, List.map_cons] at hlen hc hids hfiles
  refine ⟨?_, ?_, ?_, ?_, ?_, ?_⟩
  · simp only [List.length_append, List.length_cons, List.length_nil, h3]
    omega
  · simp only [List.map_append, List.map_cons, List.map_nil, List.append_assoc,
      List.singleton_append, List.length_append, List.length_cons, List.length_nil, h2, h3]
    rw [show ∀ (L R C : List Nat) (x : Nat), L ++ x :: (R ++ C) = (L ++ x :: R) ++ C from
      fun L R C x => by simp, hids]
    rw [show ID = ID0 + 1 * (done.length + (rest.length + 1)) by omega, List.range'_append]
    congr 1
    omega
  · simp only [List.map_append, List.map_cons, List.map_nil, List.append_assoc,
      List.singleton_append, h1, List.flatMap_append, List.flatMap_cons, List.flatMap_nil,
      List.append_nil]
    rw [show ∀ (L R C : List String) (x : String), L ++ x :: (R ++ C) = (L ++ x :: R) ++ C from
      fun L R C x => by simp, hfiles]
    simp [childPaths]
  · intro b hb
    simp only [List.append_assoc, List.singleton_append, List.mem_append, List.mem_cons] at hb
    rcases hb with hb | rfl | hb | hb
    · exact h.parsed b (by simp [hb])
    · exact h.parsed a (by simp)
    · exact h.parsed b (by simp [hb])
    · have := h5 b hb
      have hn := h4 b hb
      cases b
      simp only at hn
      subst hn
      exact this
  · intro b hb
    rcases List.mem_append.mp hb with hb | hb
    · exact h.pending b (by simp [hb])
    · exact h4 b hb
  · rw [List.map_append, h.mapped, expectedMappings_append]
    simp only [List.map_cons, List.map_nil, List.append_cancel_left_eq, List.cons.injEq,
      Option.some.injEq, and_true]
    congr 1
    omega

theorem graphLoop_inv (env : Env) (ID0 : Nat) (ep : String) :
    ∀ (fuel : Nat) (done todo : List Asset) (ID : Nat) (g : List Asset) (ID1 : Nat),
      LoopInv env ID0 ep done todo ID →
      graphLoop env fuel done.length (done ++ todo) ID = .returned (g, ID1) →
      LoopInv env ID0 ep g [] ID1 := by
  intro fuel
  induction fuel with
  | zero => intro done todo ID g ID1 _ h; simp [graphLoop] at h
  | succ fuel ih =>
    intro done todo ID g ID1 hinv h
    cases todo with
    | nil =>
      rw [List.append_nil, graphLoop_end] at h
      simp only [Outcome.returned.injEq, Prod.mk.injEq] at h
      obtain ⟨rfl, rfl⟩ := h
      exact hinv
    | cons a rest =>
      rw [graphLoop_step env fuel done rest a ID (hinv.pending a (by simp))] at h
      cases hcs : parseAll env (env.dirname a.filename) a.dependencies ID with
      | error e => rw [hcs] at h; cases h
      | ok cs =>
        rw [hcs] at h
        exact ih _ _ _ g ID1 (hinv.step hcs) h

theorem LoopInv.init {env : Env} {ID0 : Nat} {f : String} {a : Asset} {ID1 : Nat}
    (h : parseDependecies env f ID0 = .ok (a, ID1)) : LoopInv env ID0 f [] [a] ID1 := by
  obtain ⟨hid, hID1, hf, hm⟩ := parseDependecies_ok h
  subst hID1
  refine ⟨by simp, by simp [hid, List.range'_succ], by simp [hf], ?_, ?_,
    by simp [expectedMappings]⟩
  · intro b hb
    simp only [List.nil_append, List.mem_singleton] at hb
    subst hb
    cases b
    simp only at hm hid hf
    subst hm hid hf
    exact h
  · intro b hb
    simp only [List.mem_singleton] at hb
    subst hb
    exact hm

/-- The graph returned by `parseGraph` satisfies the loop invariant with nothing left to
walk. -/
theorem parseGraph_inv {env : Env} {fuel : Nat} {entry : String} {ID0 : Nat} {g : List Asset}
    {ID1 : Nat} (h : parseGraph env fuel entry ID0 = .returned (g, ID1)) :
    LoopInv env ID0 (env.resolve env.currentPath entry) g [] ID1 := by
  unfold parseGraph at h
  cases hp : parseDependecies env (env.resolve env.currentPath entry) ID0 with
  | error e => rw [hp] at h; cases h
  | ok r =>
    obtain ⟨a, ID2⟩ := r
    rw [hp] at h
    exact graphLoop_inv env ID0 _ fuel [] [a] ID2 g ID1 (LoopInv.init hp) h

theorem JsObject.get_put_self (m : JsObject) (k : String) (v : Nat) :
    JsObject.get (JsObject.put m k v) k = some v := by
  induction m with
  | nil => simp [JsObject.put, JsObject.get]
  | cons p m ih =>
    obtain ⟨k', v'⟩ := p
    by_cases hk : k' = k
    · simp [JsObject.put, JsObject.get, hk]
    · simp [JsObject.put, JsObject.get, hk, ih]

theorem JsObject.get_put_ne (m : JsObject) (k k' : String) (v : Nat) (h : k' ≠ k) :
    JsObject.get (JsObject.put m k v) k' = JsObject.get m k' := by
  induction m with
  | nil => simp [JsObject.put, JsObject.get, Ne.symm h]
  | cons p m ih =>
    obtain ⟨k₀, v₀⟩ := p
    by_cases hk : k₀ = k
    · subst hk
      simp [JsObject.put, JsObject.get, Ne.symm h]
    · by_cases hk' : k₀ = k'
      · subst hk'
        simp [JsObject.put, JsObject.get, hk]
      · simp [JsObject.put, JsObject.get, hk, hk', ih]

theorem JsObject.get_set_self (m : JsObject) (k : String) (v : Nat) (h : k ≠ "__proto__") :
    JsObject.get (JsObject.set m k v) k = some v := by
  simp [JsObject.set, h, JsObject.get_put_self]

theorem JsObject.get_set_ne (m : JsObject) (k k' : String) (v : Nat) (h : k' ≠ k) :
    JsObject.get (JsObject.set m k v) k' = JsObject.get m k' := by
  unfold JsObject.set
  split
  · rfl
  · exact JsObject.get_put_ne m k k' v h

theorem assignAll_get_of_not_mem (s : String) :
    ∀ (deps : List String) (m : JsObject) (n : Nat), s ∉ deps →
      JsObject.get (assignAll m deps n) s = JsObject.get m s := by
  intro deps
  induction deps with
  | nil => intro m n _; rfl
  | cons d deps ih =>
    intro m n hs
    simp only [List.mem_cons, not_or] at hs
    rw [assignAll, ih _ _ hs.2, JsObject.get_set_ne _ _ _ _ hs.1]

/-- After the assignments of a `forEach`, an ordinary specifier is mapped to the
identifier handed out at its last occurrence. -/
theorem assignAll_get (s : String) (hp : s ≠ "__proto__") :
    ∀ (deps : List String) (m : JsObject) (n : Nat), s ∈ deps →
      ∃ t, deps[t]? = some s ∧ JsObject.get (assignAll m deps n) s = some (n + t) := by
  intro deps
  induction deps with
  | nil => intro m n hs; simp at hs
  | cons d deps ih =>
    intro m n hs
    by_cases hmem : s ∈ deps
    · obtain ⟨t, ht, hg⟩ := ih (JsObject.set m d n) (n + 1) hmem
      refine ⟨t + 1, by simpa using ht, ?_⟩
      rw [assignAll, hg]
      congr 1
      omega
    · have hd : s = d := by
        rcases List.mem_cons.mp hs with h | h
        · exact h
        · exact absurd h hmem
      subst hd
      refine ⟨0, by simp, ?_⟩
      rw [assignAll, assignAll_get_of_not_mem _ _ _ _ hmem, JsObject.get_set_self _ _ _ hp]
      rfl

/-- The key `__proto__` never becomes a property of an `idMapping`. -/
theorem assignAll_get_proto (deps : List String) :
    ∀ (m : JsObject) (n : Nat),
      JsObject.get (assignAll m deps n) "__proto__" = JsObject.get m "__proto__" := by
  induction deps with
  | nil => intro m n; rfl
  | cons d deps ih =>
    intro m n
    rw [assignAll, ih]
    by_cases hd : d = "__proto__"
    · simp [JsObject.set, hd]
    · exact JsObject.get_set_ne _ _ _ _ (Ne.symm hd)

theorem importCount_cons (a : Asset) (l : List Asset) :
    importCount (a :: l) = a.dependencies.length + importCount l := by
  simp [importCount]

theorem importCount_append (l r : List Asset) :
    importCount (l ++ r) = importCount l + importCount r := by
  simp [importCount]

theorem expectedMappings_getElem :
    ∀ (l : List Asset) (n j : Nat) (a : Asset), l[j]? = some a →
      (expectedMappings n l)[j]? =
        some (some (assignAll [] a.dependencies (n + importCount (l.take j)))) := by
  intro l
  induction l with
  | nil => intro n j a h; simp at h
  | cons b l ih =>
    intro n j a h
    cases j with
    | zero =>
      simp only [List.getElem?_cons_zero, Option.some.injEq] at h
      subst h
      simp [expectedMappings, importCount]
    | succ j =>
      simp only [List.getElem?_cons_succ] at h
      simp only [expectedMappings, List.getElem?_cons_succ, List.take_succ_cons, ih _ _ _ h,
        importCount_cons, Nat.add_assoc]

theorem flatMap_childPaths_getElem (env : Env) :
    ∀ (l : List Asset) (j t : Nat) (a : Asset), l[j]? = some a → t < a.dependencies.length →
      (l.flatMap (childPaths env))[importCount (l.take j) + t]? = (childPaths env a)[t]? := by
  intro l
  induction l with
  | nil => intro j t a h; simp at h
  | cons b l ih =>
    intro j t a h ht
    cases j with
    | zero =>
      simp only [List.getElem?_cons_zero, Option.some.injEq] at h
      subst h
      simp only [List.take_zero, importCount, List.map_nil, List.sum_nil, Nat.zero_add,
        List.flatMap_cons]
      rw [List.getElem?_append_left (by simpa [childPaths] using ht)]
    | succ j =>
      simp only [List.getElem?_cons_succ] at h
      simp only [List.take_succ_cons, importCount_cons, List.flatMap_cons]
      rw [List.getElem?_append_right (by simp [childPaths]; omega)]
      rw [← ih j t a h ht]
      congr 1
      simp only [childPaths, List.length_map]
      omega

theorem importCount_take_le (l : List Asset) (j : Nat) :
    importCount (l.take j) ≤ importCount l := by
  conv_rhs => rw [← List.take_append_drop j l]
  rw [importCount_append]
  omega

/-- The specifier occurrences of the assets before position `j'` include those of the
asset at an earlier position `j`. -/
theorem importCount_take_lt (l : List Asset) (j j' : Nat) (a : Asset) (h : l[j]? = some a)
    (hjj : j < j') : importCount (l.take j) + a.dependencies.length ≤ importCount (l.take j') := by
  have hj : j < l.length := by
    rcases List.getElem?_eq_some.mp h with ⟨hj, _⟩
    exact hj
  have h1 : l.take (j + 1) = l.take j ++ [a] := by
    rw [List.take_succ, h]
    rfl
  have h2 : (l.take j').take (j + 1) = l.take (j + 1) := by
    rw [List.take_take]
    congr 1
    omega
  have h3 := importCount_take_le (l.take j') (j + 1)
  rw [h2, h1, importCount_append, importCount_cons] at h3
  simp only [importCount, List.map_nil, List.sum_nil, Nat.add_zero] at h3 ⊢
  exact h3

theorem LoopInv.id_at {env : Env} {ID0 : Nat} {ep : String} {g : List Asset} {ID1 : Nat}
    (h : LoopInv env ID0 ep g [] ID1) {k : Nat} {c : Asset} (hk : g[k]? = some c) :
    c.id = ID0 + k := by
  have hlt : k < g.length := by
    rcases List.getElem?_eq_some.mp hk with ⟨hlt, _⟩
    exact hlt
  have := congrArg (fun l => l[k]?) h.ids
  simp only [List.append_nil, List.getElem?_map, hk, Option.map_some'] at this
  rw [List.getElem?_range' _ _ hlt] at this
  simpa using this

/-- In a returned graph every ordinary specifier of every asset is mapped to the
identifier of the asset parsed for that occurrence: it lies at the position the
identifier names and holds the file the specifier resolves to. -/
theorem LoopInv.closure {env : Env} {ID0 : Nat} {ep : String} {g : List Asset} {ID1 : Nat}
    (h : LoopInv env ID0 ep g [] ID1) {j : Nat} {a : Asset} (hj : g[j]? = some a)
    {s : String} (hs : s ∈ a.dependencies) (hp : s ≠ "__proto__") :
    ∃ m t c, a.idMapping = some m ∧ a.dependencies[t]? = some s ∧
      JsObject.get m s = some (ID0 + (1 + importCount (g.take j) + t)) ∧
      g[1 + importCount (g.take j) + t]? = some c ∧
      c.id = ID0 + (1 + importCount (g.take j) + t) ∧
      c.filename = env.resolve (env.dirname a.filename) s := by
  have hm := congrArg (fun l => l[j]?) h.mapped
  simp only [List.getElem?_map, hj, Option.map_some', expectedMappings_getElem g _ j a hj,
    Option.some.injEq] at hm
  obtain ⟨t, ht, hg⟩ := assignAll_get s hp a.dependencies [] (ID0 + 1 + importCount (g.take j)) hs
  have htl : t < a.dependencies.length := by
    rcases List.getElem?_eq_some.mp ht with ⟨htl, _⟩
    exact htl
  have hf := congrArg (fun l => l[1 + importCount (g.take j) + t]?) h.files
  simp only [List.append_nil, List.getElem?_map] at hf
  rw [show 1 + importCount (g.take j) + t = (importCount (g.take j) + t) + 1 by omega,
    List.getElem?_cons_succ, flatMap_childPaths_getElem env g j t a hj htl] at hf
  simp only [childPaths, List.getElem?_map, ht, Option.map_some'] at hf
  cases hc : g[importCount (g.take j) + t + 1]? with
  | none => rw [hc] at hf; simp at hf
  | some c =>
    rw [hc] at hf
    simp only [Option.map_some', Option.some.injEq] at hf
    refine ⟨_, t, c, hm, ht, ?_, ?_, ?_, hf⟩
    · rw [hg]; congr 1; omega
    · rw [← hc]; congr 1; omega
    · rw [h.id_at hc]; omega

theorem parseAll_total (env : Env) (dir : String) :
    ∀ (deps : List String) (n : Nat),
      (∀ s ∈ deps, ∃ c ID1, parseDependecies env (env.resolve dir s) 0 = .ok (c, ID1)) →
      ∃ cs, parseAll env dir deps n = .ok cs := by
  intro deps
  induction deps with
  | nil => intro n _; exact ⟨[], rfl⟩
  | cons s deps ih =>
    intro n h
    obtain ⟨c, ID1, hc⟩ := h s (by simp)
    obtain ⟨cs, hcs⟩ := ih (n + 1) (fun s' hs' => h s' (by simp [hs']))
    refine ⟨{ c with id := n } :: cs, ?_⟩
    simp only [parseAll, parseDependecies_counter hc n, hcs]

/-- The loop of `parseGraph` never ends when every file it can come to parses and
imports something: `Good` is a set of such files, closed under resolution of imports. -/
theorem graphLoop_diverges (env : Env) (Good : String → Prop)
    (hGood : ∀ f, Good f → ∃ a ID1, parseDependecies env f 0 = .ok (a, ID1) ∧
      a.dependencies ≠ [] ∧ ∀ s ∈ a.dependencies, Good (env.resolve (env.dirname f) s)) :
    ∀ (fuel : Nat) (done todo : List Asset) (ID : Nat), todo ≠ [] →
      (∀ a ∈ todo, a.idMapping = none ∧ Good a.filename ∧
        ∃ n ID1, parseDependecies env a.filename n = .ok (a, ID1)) →
      graphLoop env fuel done.length (done ++ todo) ID = .outOfFuel := by
  intro fuel
  induction fuel with
  | zero => intro done todo ID _ _; rfl
  | succ fuel ih =>
    intro done todo ID hne htodo
    cases todo with
    | nil => exact absurd rfl hne
    | cons a rest =>
      obtain ⟨hnone, hgood, n, ID1, hpa⟩ := htodo a (by simp)
      obtain ⟨a0, ID2, hp0, hdeps, hclosed⟩ := hGood _ hgood
      have ha0 : a0 = { a with id := 0 } := by
        have := parseDependecies_counter hpa 0
        rw [hp0] at this
        simp only [Except.ok.injEq, Prod.mk.injEq] at this
        exact this.1
      have hda : a0.dependencies = a.dependencies := by rw [ha0]
      rw [hda] at hdeps hclosed
      obtain ⟨cs, hcs⟩ := parseAll_total env (env.dirname a.filename) a.dependencies ID
        (fun s hs => by
          obtain ⟨c, ID3, hc, _⟩ := hGood _ (hclosed s hs)
          exact ⟨c, ID3, hc⟩)
      rw [graphLoop_step env fuel done rest a ID hnone, hcs]
      obtain ⟨h1, _, h3, h4, h5⟩ := parseAll_ok env _ _ _ _ hcs
      apply ih
      · intro hnil
        have hcs0 : cs = [] := (List.append_eq_nil.mp hnil).2
        rw [hcs0] at h3
        exact hdeps (List.length_eq_zero.mp h3.symm)
      · intro b hb
        rcases List.mem_append.mp hb with hb | hb
        · exact htodo b (by simp [hb])
        · refine ⟨h4 b hb, ?_, b.id, b.id + 1, h5 b hb⟩
          have : b.filename ∈ cs.map (fun c => c.filename) := List.mem_map_of_mem _ hb
          rw [h1] at this
          obtain ⟨s, hs, hsb⟩ := List.mem_map.mp this
          rw [← hsb]
          exact hclosed s hs

theorem parseGraph_diverges (env : Env) (Good : String → Prop)
    (hGood : ∀ f, Good f → ∃ a ID1, parseDependecies env f 0 = .ok (a, ID1) ∧
      a.dependencies ≠ [] ∧ ∀ s ∈ a.dependencies, Good (env.resolve (env.dirname f) s))
    (entry : String) (hentry : Good (env.resolve env.currentPath entry)) (fuel ID : Nat) :
    parseGraph env fuel entry ID = .outOfFuel := by
  obtain ⟨a0, ID1, hp0, _, _⟩ := hGood _ hentry
  have hp := parseDependecies_counter hp0 ID
  unfold parseGraph
  rw [hp]
  obtain ⟨_, _, hf, hm⟩ := parseDependecies_ok hp
  simp only at hf hm
  exact graphLoop_diverges env Good hGood fuel [] [_] (ID + 1) (by simp) (fun b hb => by
    simp only [List.mem_singleton] at hb
    subst hb
    exact ⟨hm, by simpa [hf] using hentry, ID, ID + 1, by simpa [hf] using hp⟩)

theorem parseAll_error (env : Env) (dir : String) (e : JsError) :
    ∀ (deps : List String) (n : Nat), parseAll env dir deps n = .error e →
      ∃ pre s post cs, deps = pre ++ s :: post ∧ parseAll env dir pre n = .ok cs ∧
        parseDependecies env (env.resolve dir s) (n + pre.length) = .error e := by
  intro deps
  induction deps with
  | nil => intro n h; simp [parseAll] at h
  | cons d deps ih =>
    intro n h
    simp only [parseAll] at h
    cases hp : parseDependecies env (env.resolve dir d) n with
    | error e' =>
      rw [hp] at h
      simp only [Except.error.injEq] at h
      subst h
      exact ⟨[], d, deps, [], rfl, rfl, hp⟩
    | ok r =>
      obtain ⟨c, ID1⟩ := r
      rw [hp] at h
      simp only at h
      cases hq : parseAll env dir deps (n + 1) with
      | ok cs => rw [hq] at h; cases h
      | error e' =>
        rw [hq] at h
        simp only [Except.error.injEq] at h
        subst h
        obtain ⟨pre, s, post, cs, hd, hpre, hs⟩ := ih (n + 1) hq
        refine ⟨d :: pre, s, post, c :: cs, by simp [hd], ?_, ?_⟩
        · simp only [parseAll, hp, hpre]
        · rw [← hs]
          congr 1
          simp only [List.length_cons]
          omega

/-- More fuel does not change the outcome of a loop that has ended. -/
theorem graphLoop_fuel_succ (env : Env) :
    ∀ (fuel i : Nat) (g : List Asset) (ID : Nat) (r : Outcome (List Asset × Nat)),
      graphLoop env fuel i g ID = r → r ≠ .outOfFuel → graphLoop env (fuel + 1) i g ID = r := by
  intro fuel
  induction fuel with
  | zero =>
    intro i g ID r h hr
    simp only [graphLoop] at h
    exact absurd h.symm hr
  | succ fuel ih =>
    intro i g ID r h hr
    rw [graphLoop] at h ⊢
    cases hg : g[i]? with
    | none => rw [hg] at h; exact h
    | some asset =>
      rw [hg] at h
      simp only at h ⊢
      cases hf : forEachDependency env (env.dirname asset.filename) i asset.dependencies
          (initIdMapping g i asset) ID with
      | error e => rw [hf] at h; exact h
      | ok x =>
        obtain ⟨g2, ID2⟩ := x
        rw [hf] at h
        exact ih _ _ _ _ h hr

theorem parseGraph_fuel_add (env : Env) (entry : String) (ID : Nat)
    (r : Outcome (List Asset × Nat)) (hr : r ≠ .outOfFuel) (fuel : Nat) :
    ∀ (k : Nat), parseGraph env fuel entry ID = r → parseGraph env (fuel + k) entry ID = r := by
  intro k
  induction k with
  | zero => intro h; exact h
  | succ k ih =>
    intro h
    have := ih h
    unfold parseGraph at this ⊢
    cases hp : parseDependecies env (env.resolve env.currentPath entry) ID with
    | error e => rw [hp] at this; exact this
    | ok x =>
      obtain ⟨a, ID1⟩ := x
      rw [hp] at this
      exact graphLoop_fuel_succ env _ _ _ _ _ this hr

theorem forEachDependencyLogged_eq (env : Env) (dir : String) (deps : List String) :
    ∀ (done rest : List Asset) (a : Asset) (m : JsObject) (ID : Nat) (log : List String),
      a.idMapping = some m →
      forEachDependencyLogged env dir done.length deps (done ++ a :: rest) ID log =
        (forEachDependency env dir done.length deps (done ++ a :: rest) ID,
          log ++ attempted env dir deps) := by
  induction deps with
  | nil =>
    intro done rest a m ID log _
    simp [forEachDependencyLogged, forEachDependency, attempted]
  | cons s deps ih =>
    intro done rest a m ID log hm
    simp only [forEachDependencyLogged, forEachDependency, attempted]
    cases hp : parseDependecies env (env.resolve dir s) ID with
    | error e =>
      rw [parseDependecies_error_counter hp 0]
    | ok r =>
      obtain ⟨c, ID1⟩ := r
      rw [parseDependecies_counter hp 0]
      simp only [assignIdMapping, getElem?_append_cons, hm, set_append_cons]
      have := ih done (rest ++ [c]) { a with idMapping := some (JsObject.set m s c.id) }
        (JsObject.set m s c.id) ID1 (log ++ [env.resolve dir s]) rfl
      simp only [List.append_assoc, List.cons_append, List.singleton_append] at this ⊢
      rw [this]
      simp

theorem attempted_ok (env : Env) (dir : String) :
    ∀ (deps : List String) (n : Nat) (cs : List Asset), parseAll env dir deps n = .ok cs →
      attempted env dir deps = cs.map (fun c => c.filename) := by
  intro deps
  induction deps with
  | nil =>
    intro n cs h
    simp only [parseAll, Except.ok.injEq] at h
    subst h
    rfl
  | cons s deps ih =>
    intro n cs h
    simp only [parseAll] at h
    cases hp : parseDependecies env (env.resolve dir s) n with
    | error e => rw [hp] at h; cases h
    | ok r =>
      obtain ⟨c, ID1⟩ := r
      rw [hp] at h
      simp only at h
      cases hq : parseAll env dir deps (n + 1) with
      | error e => rw [hq] at h; cases h
      | ok cs1 =>
        rw [hq] at h
        simp only [Except.ok.injEq] at h
        subst h
        obtain ⟨_, _, hf, _⟩ := parseDependecies_ok hp
        simp only [attempted, parseDependecies_counter hp 0, ih _ _ hq, List.map_cons, hf]

theorem attempted_error (env : Env) (dir : String) (e : JsError) :
    ∀ (deps : List String) (n : Nat), parseAll env dir deps n = .error e →
      ∃ (cs : List Asset) (p : String),
        attempted env dir deps = cs.map (fun c => c.filename) ++ [p] ∧
        (∀ c ∈ cs, parseDependecies env c.filename c.id = .ok (c, c.id + 1)) ∧
        parseDependecies env p 0 = .error e := by
  intro deps
  induction deps with
  | nil => intro n h; simp [parseAll] at h
  | cons s deps ih =>
    intro n h
    simp only [parseAll] at h
    cases hp : parseDependecies env (env.resolve dir s) n with
    | error e' =>
      rw [hp] at h
      simp only [Except.error.injEq] at h
      subst h
      have h0 := parseDependecies_error_counter hp 0
      exact ⟨[], env.resolve dir s, by simp [attempted, h0], by simp, h0⟩
    | ok r =>
      obtain ⟨c, ID1⟩ := r
      rw [hp] at h
      simp only at h
      cases hq : parseAll env dir deps (n + 1) with
      | ok cs => rw [hq] at h; cases h
      | error e' =>
        rw [hq] at h
        simp only [Except.error.injEq] at h
        subst h
        obtain ⟨cs, p, hatt, hcs, hperr⟩ := ih (n + 1) hq
        obtain ⟨hid, hID1, hf, _⟩ := parseDependecies_ok hp
        refine ⟨c :: cs, p, ?_, ?_, hperr⟩
        · simp only [attempted, parseDependecies_counter hp 0, hatt, List.map_cons, hf,
            List.cons_append]
        · intro c' hc'
          rcases List.mem_cons.mp hc' with rfl | hc'
          · rw [hf, hid]
            subst hID1
            exact hp
          · exact hcs c' hc'

theorem graphLoopLogged_end (env : Env) (fuel : Nat) (done : List Asset) (ID : Nat)
    (log : List String) :
    graphLoopLogged env (fuel + 1) done.length done ID log = (.returned (done, ID), log) := by
  simp [graphLoopLogged]

theorem graphLoopLogged_step (env : Env) (fuel : Nat) (done rest : List Asset) (a : Asset)
    (ID : Nat) (log : List String) (ha : a.idMapping = none) :
    graphLoopLogged env (fuel + 1) done.length (done ++ a :: rest) ID log =
      match parseAll env (env.dirname a.filename) a.dependencies ID with
      | .error e => (.threw e, log ++ attempted env (env.dirname a.filename) a.dependencies)
      | .ok cs =>
        graphLoopLogged env fuel
          (done ++ [{ a with idMapping := some (assignAll [] a.dependencies ID) }]).length
          ((done ++ [{ a with idMapping := some (assignAll [] a.dependencies ID) }]) ++ (rest ++ cs))
          (ID + a.dependencies.length)
          (log ++ attempted env (env.dirname a.filename) a.dependencies) := by
  simp only [graphLoopLogged, getElem?_append_cons, initIdMapping, ha, set_append_cons]
  rw [forEachDependencyLogged_eq env (env.dirname a.filename) a.dependencies done rest
    { a with idMapping := some [] } [] ID log rfl]
  have := forEachDependency_eq env (env.dirname a.filename) a.dependencies done rest
    { a with idMapping := some [] } [] ID rfl
  simp only at this
  rw [this]
  cases parseAll env (env.dirname a.filename) a.dependencies ID with
  | error e => rfl
  | ok cs => simp

/-- The calls of a run of the loop of `parseGraph`: the run has the outcome of `graphLoop`;
every call but the last succeeded; the last call failed exactly when the run threw, and
then with the error thrown; and when the run returned, the calls are those for the
files along the graph. -/
theorem graphLoopLogged_spec (env : Env) (ID0 : Nat) (ep : String) :
    ∀ (fuel : Nat) (done todo : List Asset) (ID : Nat),
      LoopInv env ID0 ep done todo ID →
      (graphLoopLogged env fuel done.length (done ++ todo) ID
          ((done ++ todo).map (fun a => a.filename))).1
        = graphLoop env fuel done.length (done ++ todo) ID ∧
      (((∀ e, graphLoop env fuel done.length (done ++ todo) ID ≠ .threw e) ∧
        (∀ q ∈ (graphLoopLogged env fuel done.length (done ++ todo) ID
            ((done ++ todo).map (fun a => a.filename))).2,
          ∃ b, parseDependecies env q 0 = .ok (b, 1)) ∧
        (∀ g ID1, graphLoop env fuel done.length (done ++ todo) ID = .returned (g, ID1) →
          (graphLoopLogged env fuel done.length (done ++ todo) ID
            ((done ++ todo).map (fun a => a.filename))).2 = g.map (fun a => a.filename))) ∨
       (∃ (before : List String) (p : String) (e : JsError),
        graphLoop env fuel done.length (done ++ todo) ID = .threw e ∧
        (graphLoopLogged env fuel done.length (done ++ todo) ID
            ((done ++ todo).map (fun a => a.filename))).2 = before ++ [p] ∧
        parseDependecies env p 0 = .error e ∧
        ∀ q ∈ before, ∃ b, parseDependecies env q 0 = .ok (b, 1))) := by
  intro fuel
  induction fuel with
  | zero =>
    intro done todo ID hinv
    refine ⟨rfl, Or.inl ⟨by simp [graphLoop], ?_, by simp [graphLoop]⟩⟩
    intro q hq
    simp only [graphLoopLogged] at hq
    obtain ⟨b, hb, rfl⟩ := List.mem_map.mp hq
    exact ⟨_, parseDependecies_counter (hinv.parsed b hb) 0⟩
  | succ fuel ih =>
    intro done todo ID hinv
    have hall : ∀ q ∈ (done ++ todo).map (fun a => a.filename),
        ∃ b, parseDependecies env q 0 = .ok (b, 1) := by
      intro q hq
      obtain ⟨b, hb, rfl⟩ := List.mem_map.mp hq
      exact ⟨_, parseDependecies_counter (hinv.parsed b hb) 0⟩
    cases todo with
    | nil =>
      simp only [List.append_nil] at hall ⊢
      rw [graphLoopLogged_end, graphLoop_end]
      refine ⟨rfl, Or.inl ⟨by simp, hall, ?_⟩⟩
      intro g ID1 h
      simp only [Outcome.returned.injEq, Prod.mk.injEq] at h
      rw [h.1]
    | cons a rest =>
      have ha := hinv.pending a (by simp)
      rw [graphLoopLogged_step env fuel done rest a ID _ ha, graphLoop_step env fuel done rest a ID ha]
      cases hcs : parseAll env (env.dirname a.filename) a.dependencies ID with
      | error e =>
        obtain ⟨cs, p, hatt, hcsok, hperr⟩ := attempted_error env _ e _ _ hcs
        refine ⟨rfl, Or.inr ⟨(done ++ a :: rest).map (fun (x : Asset) => x.filename)
          ++ cs.map (fun (c : Asset) => c.filename), p, e, rfl, by simp [hatt], hperr, ?_⟩⟩
        intro q hq
        rcases List.mem_append.mp hq with hq | hq
        · exact hall q hq
        · obtain ⟨c, hc, rfl⟩ := List.mem_map.mp hq
          exact ⟨_, parseDependecies_counter (hcsok c hc) 0⟩
      | ok cs =>
        have hnext := ih _ _ _ (hinv.step hcs)
        have hlog : (done ++ a :: rest).map (fun (x : Asset) => x.filename)
            ++ attempted env (env.dirname a.filename) a.dependencies
            = ((done ++ [{ a with idMapping := some (assignAll [] a.dependencies ID) }])
                ++ (rest ++ cs)).map (fun (x : Asset) => x.filename) := by
          rw [attempted_ok env _ _ _ _ hcs]
          simp
        simp only
        rw [hlog]
        exact hnext

/-- The calls of a run of `parseGraph` (see `graphLoopLogged_spec`). -/
theorem parseGraphLogged_spec (env : Env) (fuel : Nat) (entry : String) (ID : Nat) :
    (parseGraphLogged env fuel entry ID).1 = parseGraph env fuel entry ID ∧
    (((∀ e, parseGraph env fuel entry ID ≠ .threw e) ∧
      (∀ q ∈ (parseGraphLogged env fuel entry ID).2, ∃ b, parseDependecies env q 0 = .ok (b, 1)) ∧
      (∀ g ID1, parseGraph env fuel entry ID = .returned (g, ID1) →
        (parseGraphLogged env fuel entry ID).2 = g.map (fun a => a.filename))) ∨
     (∃ (before : List String) (p : String) (e : JsError),
      parseGraph env fuel entry ID = .threw e ∧
      (parseGraphLogged env fuel entry ID).2 = before ++ [p] ∧
      parseDependecies env p 0 = .error e ∧
      ∀ q ∈ before, ∃ b, parseDependecies env q 0 = .ok (b, 1))) := by
  unfold parseGraphLogged parseGraph
  cases hp : parseDependecies env (env.resolve env.currentPath entry) ID with
  | error e =>
    exact ⟨rfl, Or.inr ⟨[], _, e, rfl, rfl, parseDependecies_error_counter hp 0, by simp⟩⟩
  | ok r =>
    obtain ⟨a, ID1⟩ := r
    obtain ⟨_, _, hf, _⟩ := parseDependecies_ok hp
    have := graphLoopLogged_spec env ID _ fuel [] [a] ID1 (LoopInv.init hp)
    simp only [List.nil_append, List.length_nil, List.map_cons, List.map_nil, hf] at this
    exact this

theorem runBody_returns_anywhere
    (childRequire : String → LoaderState → Outcome (Nat × LoaderState))
    (hchild : ∀ f st x, childRequire f st = .returned x →
      ∀ stX, ∃ xX, childRequire f stX = .returned xX) :
    ∀ (body : List Stmt) (exports : Nat) (st st' : LoaderState),
      runBody childRequire exports body st = .returned st' →
      ∀ (exportsX : Nat) (stX : LoaderState),
        ∃ stX', runBody childRequire exportsX body stX = .returned stX' := by
  intro body
  induction body with
  | nil => intro exports st st' _ exportsX stX; exact ⟨stX, rfl⟩
  | cons stmt body ih =>
    intro exports st st' h exportsX stX
    cases stmt with
    | require f =>
      simp only [runBody] at h ⊢
      cases hc : childRequire f st with
      | returned x =>
        obtain ⟨r, st1⟩ := x
        rw [hc] at h
        obtain ⟨⟨rX, stX1⟩, hX⟩ := hchild f st _ hc stX
        rw [hX]
        exact ih exports st1 st' h exportsX stX1
      | threw e => rw [hc] at h; cases h
      | outOfFuel => rw [hc] at h; cases h
    | exportsAssign key value =>
      simp only [runBody] at h ⊢
      exact ih exports _ st' h exportsX _

/-- Whether a call of `require` returns does not depend on the state it starts from. -/
theorem require_returns_anywhere (modules : Modules) :
    ∀ (depth : Nat) (id : Option Nat) (st : LoaderState) (x : Nat × LoaderState),
      require modules depth id st = .returned x →
      ∀ stX, ∃ xX, require modules depth id stX = .returned xX := by
  intro depth
  induction depth with
  | zero => intro id st x h; simp [require] at h
  | succ depth ih =>
    intro id st x h stX
    cases id with
    | none => simp [require] at h
    | some n =>
      simp only [require] at h ⊢
      cases hget : Modules.get modules n with
      | none => rw [hget] at h; cases h
      | some entry =>
        rw [hget] at h
        simp only at h ⊢
        cases hb : runBody (fun filename s =>
            require modules depth (JsObject.get entry.idMapping filename) s) st.objects.length
            entry.fn { objects := st.objects ++ [[]], executed := st.executed ++ [n] } with
        | returned st2 =>
          obtain ⟨stX', hX⟩ := runBody_returns_anywhere
            (fun filename s => require modules depth (JsObject.get entry.idMapping filename) s)
            (fun f s y hy sX => ih _ s y hy sX) _ _ _ _ hb stX.objects.length
            { objects := stX.objects ++ [[]], executed := stX.executed ++ [n] }
          rw [hX]
          exact ⟨_, rfl⟩
        | threw e => rw [hb] at h; cases h
        | outOfFuel => rw [hb] at h; cases h

theorem length_writeExport (objects : List JsObject) (ref : Nat) (key : String) (value : Nat) :
    (writeExport objects ref key value).length = objects.length := by
  induction objects generalizing ref with
  | nil => rfl
  | cons o rest ih =>
    cases ref with
    | zero => rfl
    | succ ref => simp [writeExport, ih]

theorem runBody_extends (childRequire : String → LoaderState → Outcome (Nat × LoaderState))
    (exports : Nat)
    (hchild : ∀ f st r st', childRequire f st = .returned (r, st') →
      st.objects.length ≤ st'.objects.length ∧ ∃ t, st'.executed = st.executed ++ t) :
    ∀ (body : List Stmt) (st st' : LoaderState),
      runBody childRequire exports body st = .returned st' →
      st.objects.length ≤ st'.objects.length ∧ ∃ t, st'.executed = st.executed ++ t := by
  intro body
  induction body with
  | nil =>
    intro st st' h
    simp only [runBody, Outcome.returned.injEq] at h
    subst h
    exact ⟨Nat.le_refl _, [], by simp⟩
  | cons stmt body ih =>
    intro st st' h
    cases stmt with
    | require f =>
      simp only [runBody] at h
      cases hc : childRequire f st with
      | returned x =>
        obtain ⟨r, st1⟩ := x
        rw [hc] at h
        obtain ⟨h1, t1, ht1⟩ := hchild f st r st1 hc
        obtain ⟨h2, t2, ht2⟩ := ih st1 st' h
        exact ⟨Nat.le_trans h1 h2, t1 ++ t2, by rw [ht2, ht1, List.append_assoc]⟩
      | threw e => rw [hc] at h; cases h
      | outOfFuel => rw [hc] at h; cases h
    | exportsAssign key value =>
      simp only [runBody] at h
      obtain ⟨h2, t2, ht2⟩ := ih _ st' h
      simp only [length_writeExport] at h2
      exact ⟨h2, t2, ht2⟩

/-- A call of `require` that returns was given a number, returns the reference of an
object it created, and entered the body of that module before anything else. -/
theorem require_returned (modules : Modules) :
    ∀ (depth : Nat) (id : Option Nat) (st : LoaderState) (r : Nat) (st' : LoaderState),
      require modules depth id st = .returned (r, st') →
      ∃ n, id = some n ∧ r = st.objects.length ∧ st.objects.length < st'.objects.length ∧
        ∃ t, st'.executed = st.executed ++ n :: t := by
  intro depth
  induction depth with
  | zero => intro id st r st' h; simp [require] at h
  | succ depth ih =>
    intro id st r st' h
    cases id with
    | none => simp [require] at h
    | some n =>
      simp only [require] at h
      cases hget : Modules.get modules n with
      | none => rw [hget] at h; cases h
      | some entry =>
        rw [hget] at h
        simp only at h
        cases hb : runBody (fun filename s =>
            require modules depth (JsObject.get entry.idMapping filename) s) st.objects.length
            entry.fn { objects := st.objects ++ [[]], executed := st.executed ++ [n] } with
        | returned st2 =>
          rw [hb] at h
          simp only [Outcome.returned.injEq, Prod.mk.injEq] at h
          obtain ⟨rfl, rfl⟩ := h
          obtain ⟨h1, t, ht⟩ := runBody_extends _ _ (fun f s r s' hr => by
            obtain ⟨_, _, _, hlt, t, ht⟩ := ih _ s r s' hr
            exact ⟨Nat.le_of_lt hlt, _, ht⟩) _ _ _ hb
          simp only [List.length_append, List.length_singleton] at h1
          refine ⟨n, rfl, rfl, by omega, t, ?_⟩
          rw [ht]
          simp
        | threw e => rw [hb] at h; cases h
        | outOfFuel => rw [hb] at h; cases h

theorem runBody_never_returns (childRequire : String → LoaderState → Outcome (Nat × LoaderState))
    (exports : Nat) (f : String) (hf : ∀ st x, childRequire f st ≠ .returned x) :
    ∀ (body : List Stmt) (st st' : LoaderState), Stmt.require f ∈ body →
      runBody childRequire exports body st ≠ .returned st' := by
  intro body
  induction body with
  | nil => intro st st' h; simp at h
  | cons stmt body ih =>
    intro st st' hmem h
    cases stmt with
    | require g =>
      simp only [runBody] at h
      cases hc : childRequire g st with
      | returned x =>
        obtain ⟨r, st1⟩ := x
        rw [hc] at h
        rcases List.mem_cons.mp hmem with heq | hmem
        · simp only [Stmt.require.injEq] at heq
          subst heq
          exact hf st _ hc
        · exact ih st1 st' hmem h
      | threw e => rw [hc] at h; cases h
      | outOfFuel => rw [hc] at h; cases h
    | exportsAssign key value =>
      simp only [runBody] at h
      rcases List.mem_cons.mp hmem with heq | hmem
      · cases heq
      · exact ih _ st' hmem h

/-- Two modules whose bodies require each other: neither `require` ever returns. -/
theorem require_circular (modules : Modules) (a b : Nat) (ea eb : ModuleEntry) (sa sb : String)
    (ha : Modules.get modules a = some ea) (hb : Modules.get modules b = some eb)
    (hsa : Stmt.require sa ∈ ea.fn) (hma : JsObject.get ea.idMapping sa = some b)
    (hsb : Stmt.require sb ∈ eb.fn) (hmb : JsObject.get eb.idMapping sb = some a) :
    ∀ (depth : Nat) (st : LoaderState) (x : Nat × LoaderState),
      require modules depth (some a) st ≠ .returned x ∧
      require modules depth (some b) st ≠ .returned x := by
  intro depth
  induction depth with
  | zero => intro st x; simp [require]
  | succ depth ih =>
    intro st x
    constructor
    · intro h
      simp only [require, ha] at h
      split at h
      · rename_i st2 hrun
        exact runBody_never_returns _ _ sa (fun s y => by
          simp only [hma]
          exact (ih s y).2) _ _ _ hsa hrun
      · cases h
      · cases h
    · intro h
      simp only [require, hb] at h
      split at h
      · rename_i st2 hrun
        exact runBody_never_returns _ _ sb (fun s y => by
          simp only [hmb]
          exact (ih s y).1) _ _ _ hsb hrun
      · cases h
      · cases h

theorem runBody_trace (childRequire : String → LoaderState → Outcome (Nat × LoaderState))
    (childTrace : String → Option (List Nat)) (exports : Nat)
    (hchild : ∀ f st r st', childRequire f st = .returned (r, st') →
      ∃ t, childTrace f = some t ∧ st'.executed = st.executed ++ t) :
    ∀ (body : List Stmt) (st st' : LoaderState),
      runBody childRequire exports body st = .returned st' →
      ∃ t, bodyTrace childTrace body = some t ∧ st'.executed = st.executed ++ t := by
  intro body
  induction body with
  | nil =>
    intro st st' h
    simp only [runBody, Outcome.returned.injEq] at h
    subst h
    exact ⟨[], rfl, by simp⟩
  | cons stmt body ih =>
    intro st st' h
    cases stmt with
    | require f =>
      simp only [runBody] at h
      cases hc : childRequire f st with
      | returned x =>
        obtain ⟨r, st1⟩ := x
        rw [hc] at h
        obtain ⟨t1, hct, ht1⟩ := hchild f st r st1 hc
        obtain ⟨t2, hbt, ht2⟩ := ih st1 st' h
        exact ⟨t1 ++ t2, by simp only [bodyTrace, hct, hbt],
          by rw [ht2, ht1, List.append_assoc]⟩
      | threw e => rw [hc] at h; cases h
      | outOfFuel => rw [hc] at h; cases h
    | exportsAssign key value =>
      simp only [runBody] at h
      obtain ⟨t2, hbt, ht2⟩ := ih _ st' h
      exact ⟨t2, by simp only [bodyTrace, hbt], ht2⟩

/-- A call of `require` that returns has entered the bodies that `requireTrace` lists. -/
theorem require_trace (modules : Modules) :
    ∀ (depth : Nat) (id : Option Nat) (st : LoaderState) (r : Nat) (st' : LoaderState),
      require modules depth id st = .returned (r, st') →
      ∃ t, requireTrace modules depth id = some t ∧ st'.executed = st.executed ++ t := by
  intro depth
  induction depth with
  | zero => intro id st r st' h; simp [require] at h
  | succ depth ih =>
    intro id st r st' h
    cases id with
    | none => simp [require] at h
    | some n =>
      simp only [require] at h
      cases hget : Modules.get modules n with
      | none => rw [hget] at h; cases h
      | some entry =>
        rw [hget] at h
        simp only at h
        cases hb : runBody (fun filename s =>
            require modules depth (JsObject.get entry.idMapping filename) s) st.objects.length
            entry.fn { objects := st.objects ++ [[]], executed := st.executed ++ [n] } with
        | returned st2 =>
          rw [hb] at h
          simp only [Outcome.returned.injEq, Prod.mk.injEq] at h
          obtain ⟨rfl, rfl⟩ := h
          obtain ⟨t, hbt, ht⟩ := runBody_trace _
            (fun filename => requireTrace modules depth (JsObject.get entry.idMapping filename))
            _ (fun f s r s' hr => ih _ s r s' hr) _ _ _ hb
          refine ⟨n :: t, by simp only [requireTrace, hget, hbt], ?_⟩
          rw [ht]
          simp
        | threw e => rw [hb] at h; cases h
        | outOfFuel => rw [hb] at h; cases h

theorem bodyTrace_mono (c c' : String → Option (List Nat))
    (hc : ∀ f t, c f = some t → c' f = some t) :
    ∀ (body : List Stmt) (t : List Nat), bodyTrace c body = some t → bodyTrace c' body = some t := by
  intro body
  induction body with
  | nil => intro t h; exact h
  | cons stmt body ih =>
    intro t h
    cases stmt with
    | require f =>
      simp only [bodyTrace] at h ⊢
      cases hcf : c f with
      | none => rw [hcf] at h; cases h
      | some t1 =>
        rw [hcf] at h
        simp only at h
        cases hb : bodyTrace c body with
        | none => rw [hb] at h; cases h
        | some t2 =>
          rw [hb] at h
          rw [hc f t1 hcf, ih t2 hb]
          exact h
    | exportsAssign key value =>
      simp only [bodyTrace] at h ⊢
      exact ih t h

theorem requireTrace_succ (modules : Modules) :
    ∀ (depth : Nat) (id : Option Nat) (t : List Nat),
      requireTrace modules depth id = some t → requireTrace modules (depth + 1) id = some t := by
  intro depth
  induction depth with
  | zero => intro id t h; simp [requireTrace] at h
  | succ depth ih =>
    intro id t h
    cases id with
    | none => simp [requireTrace] at h
    | some n =>
      rw [requireTrace] at h ⊢
      cases hget : Modules.get modules n with
      | none => rw [hget] at h; cases h
      | some entry =>
        rw [hget] at h
        simp only at h ⊢
        cases hb : bodyTrace
            (fun filename => requireTrace modules depth (JsObject.get entry.idMapping filename))
            entry.fn with
        | none => rw [hb] at h; cases h
        | some ts =>
          rw [hb] at h
          rw [bodyTrace_mono _
            (fun filename => requireTrace modules (depth + 1) (JsObject.get entry.idMapping filename))
            (fun f t' hf => ih _ t' hf) _ _ hb]
          exact h

theorem requireTrace_le (modules : Modules) (id : Option Nat) (t : List Nat) (d : Nat) :
    ∀ (k : Nat), requireTrace modules d id = some t → requireTrace modules (d + k) id = some t := by
  intro k
  induction k with
  | zero => intro h; exact h
  | succ k ih => intro h; exact requireTrace_succ modules _ _ _ (ih h)

theorem bodyTrace_mem (c : String → Option (List Nat)) :
    ∀ (body : List Stmt) (t : List Nat), bodyTrace c body = some t → ∀ k ∈ t,
      ∃ f tc, c f = some tc ∧ k ∈ tc ∧ tc.length ≤ t.length := by
  intro body
  induction body with
  | nil => intro t h k hk; simp only [bodyTrace, Option.some.injEq] at h; subst h; simp at hk
  | cons stmt body ih =>
    intro t h k hk
    cases stmt with
    | require f =>
      simp only [bodyTrace] at h
      cases hcf : c f with
      | none => rw [hcf] at h; cases h
      | some t1 =>
        rw [hcf] at h
        simp only at h
        cases hb : bodyTrace c body with
        | none => rw [hb] at h; cases h
        | some t2 =>
          rw [hb] at h
          simp only [Option.some.injEq] at h
          subst h
          rcases List.mem_append.mp hk with hk | hk
          · exact ⟨f, t1, hcf, hk, by simp⟩
          · obtain ⟨g, tc, hg, hkc, hlen⟩ := ih t2 hb k hk
            exact ⟨g, tc, hg, hkc, by simp only [List.length_append]; omega⟩
    | exportsAssign key value =>
      simp only [bodyTrace] at h
      exact ih t h k hk

theorem requireTrace_mem (modules : Modules) :
    ∀ (depth : Nat) (id : Option Nat) (t : List Nat), requireTrace modules depth id = some t →
      ∀ k ∈ t, ∃ d tk, d ≤ depth ∧ requireTrace modules d (some k) = some tk ∧
        tk.length ≤ t.length := by
  intro depth
  induction depth with
  | zero => intro id t h; simp [requireTrace] at h
  | succ depth ih =>
    intro id t h k hk
    cases id with
    | none => simp [requireTrace] at h
    | some n =>
      have h0 := h
      rw [requireTrace] at h
      cases hget : Modules.get modules n with
      | none => rw [hget] at h; cases h
      | some entry =>
        rw [hget] at h
        simp only at h
        cases hb : bodyTrace
            (fun filename => requireTrace modules depth (JsObject.get entry.idMapping filename))
            entry.fn with
        | none => rw [hb] at h; cases h
        | some ts =>
          rw [hb] at h
          simp only [Option.some.injEq] at h
          subst h
          rcases List.mem_cons.mp hk with hk | hk
          · subst hk
            exact ⟨depth + 1, _, Nat.le_refl _, h0, Nat.le_refl _⟩
          · obtain ⟨f, tc, hf, hkc, hlen⟩ := bodyTrace_mem _ _ _ hb k hk
            obtain ⟨d, tk, hd, htk, hlen2⟩ := ih _ tc hf k hkc
            exact ⟨d, tk, by omega, htk, by simp only [List.length_cons]; omega⟩

/-- A call `require(n)` that returns has entered the body of module `n` once. -/
theorem requireTrace_count (modules : Modules) (depth n : Nat) (t : List Nat)
    (h : requireTrace modules depth (some n) = some t) : t.count n = 1 := by
  cases depth with
  | zero => simp [requireTrace] at h
  | succ depth =>
    have h0 := h
    rw [requireTrace] at h
    cases hget : Modules.get modules n with
    | none => rw [hget] at h; cases h
    | some entry =>
      rw [hget] at h
      simp only at h
      cases hb : bodyTrace
          (fun filename => requireTrace modules depth (JsObject.get entry.idMapping filename))
          entry.fn with
      | none => rw [hb] at h; cases h
      | some ts =>
        rw [hb] at h
        simp only [Option.some.injEq] at h
        subst h
        have hnot : n ∉ ts := by
          intro hmem
          obtain ⟨f, tc, hf, hkc, hlen⟩ := bodyTrace_mem _ _ _ hb n hmem
          obtain ⟨d, tk, hd, htk, hlen2⟩ := requireTrace_mem modules depth _ tc hf n hkc
          have hup := requireTrace_le modules (some n) tk d (depth + 1 - d) htk
          rw [show d + (depth + 1 - d) = depth + 1 by omega, h0] at hup
          simp only [Option.some.injEq] at hup
          subst hup
          simp only [List.length_cons] at hlen2
          omega
        simp [List.count_cons, List.count_eq_zero_of_not_mem hnot]

theorem two_le_countP (P : Asset → Bool) :
    ∀ (l : List Asset) (p q : Nat) (a b : Asset), l[p]? = some a → l[q]? = some b → p ≠ q →
      P a = true → P b = true → 2 ≤ l.countP P := by
  intro l
  induction l with
  | nil => intro p q a b h; simp at h
  | cons x l ih =>
    intro p q a b hp hq hne ha hb
    have hone : ∀ (k : Nat) (c : Asset), l[k]? = some c → P c = true → 1 ≤ l.countP P := by
      intro k c hk hc
      exact List.countP_pos_iff.mpr ⟨c, List.mem_iff_getElem?.mpr ⟨k, hk⟩, hc⟩
    cases p with
    | zero =>
      cases q with
      | zero => exact absurd rfl hne
      | succ q =>
        simp only [List.getElem?_cons_zero, Option.some.injEq] at hp
        simp only [List.getElem?_cons_succ] at hq
        subst hp
        have := hone q b hq hb
        simp only [List.countP_cons, ha, if_true]
        omega
    | succ p =>
      cases q with
      | zero =>
        simp only [List.getElem?_cons_zero, Option.some.injEq] at hq
        simp only [List.getElem?_cons_succ] at hp
        subst hq
        have := hone p a hp ha
        simp only [List.countP_cons, hb, if_true]
        omega
      | succ q =>
        simp only [List.getElem?_cons_succ] at hp hq
        have := ih p q a b hp hq (by omega) ha hb
        simp only [List.countP_cons]
        omega

/-- Two files that import each other and nothing else: the loop of `parseGraph` started
at one of them never ends. -/
theorem two_cycle_diverges (env : Env) (entry pathA pathB sa sb : String) (a b : Asset)
    (IDa IDb : Nat) (hentry : env.resolve env.currentPath entry = pathA)
    (hA : parseDependecies env pathA 0 = .ok (a, IDa)) (hdA : a.dependencies = [sb])
    (hB : parseDependecies env pathB 0 = .ok (b, IDb)) (hdB : b.dependencies = [sa])
    (hAB : env.resolve (env.dirname pathA) sb = pathB)
    (hBA : env.resolve (env.dirname pathB) sa = pathA) (fuel ID : Nat) :
    parseGraph env fuel entry ID = .outOfFuel := by
  apply parseGraph_diverges env (fun f => f = pathA ∨ f = pathB)
  · intro f hf
    rcases hf with rfl | rfl
    · refine ⟨a, IDa, hA, by simp [hdA], ?_⟩
      intro s hs
      simp only [hdA, List.mem_singleton] at hs
      subst hs
      exact Or.inr hAB
    · refine ⟨b, IDb, hB, by simp [hdB], ?_⟩
      intro s hs
      simp only [hdB, List.mem_singleton] at hs
      subst hs
      exact Or.inl hBA
  · exact Or.inl hentry

theorem require_absent (modules : Modules) (depth : Nat) (id : Option Nat) (st : LoaderState)
    (h : id = none ∨ ∃ n, id = some n ∧ Modules.get modules n = none) :
    require modules (depth + 1) id st = .threw "TypeError: undefined is not iterable" := by
  rcases h with rfl | ⟨n, rfl, hn⟩
  · rfl
  · simp only [require, hn]

/-- A body of writes to `exports` returns, whatever `require` it is handed. -/
theorem runBody_writes (childRequire : String → LoaderState → Outcome (Nat × LoaderState))
    (exports : Nat) :
    ∀ (body : List Stmt) (st : LoaderState),
      (∀ stmt ∈ body, ∃ k v, stmt = Stmt.exportsAssign k v) →
      ∃ st', runBody childRequire exports body st = .returned st' ∧
        st'.executed = st.executed ∧ st'.objects.length = st.objects.length := by
  intro body
  induction body with
  | nil => intro st _; exact ⟨st, rfl, rfl, rfl⟩
  | cons stmt body ih =>
    intro st h
    obtain ⟨k, v, rfl⟩ := h stmt (by simp)
    obtain ⟨st', h1, h2, h3⟩ := ih { st with objects := writeExport st.objects exports k v }
      (fun s hs => h s (by simp [hs]))
    refine ⟨st', by simp only [runBody, h1], h2, ?_⟩
    rw [h3]
    exact length_writeExport _ _ _ _

theorem runBody_append_writes (childRequire : String → LoaderState → Outcome (Nat × LoaderState))
    (exports : Nat) (rest : List Stmt) :
    ∀ (pre : List Stmt) (st : LoaderState),
      (∀ stmt ∈ pre, ∃ k v, stmt = Stmt.exportsAssign k v) →
      ∃ st', runBody childRequire exports (pre ++ rest) st = runBody childRequire exports rest st' := by
  intro pre
  induction pre with
  | nil => intro st _; exact ⟨st, rfl⟩
  | cons stmt pre ih =>
    intro st h
    obtain ⟨k, v, rfl⟩ := h stmt (by simp)
    obtain ⟨st', h1⟩ := ih { st with objects := writeExport st.objects exports k v }
      (fun s hs => h s (by simp [hs]))
    refine ⟨st', ?_⟩
    show runBody childRequire exports (Stmt.exportsAssign k v :: (pre ++ rest)) st = _
    simp only [runBody, h1]

/-- A build that returns has read and transformed a file at the very path that
`path.resolve` gives for each specifier, and holds an asset with that path. -/
theorem parseGraph_child_parsed {env : Env} {fuel : Nat} {entry : String} {ID : Nat}
    {g : List Asset} {ID1 : Nat} (h : parseGraph env fuel entry ID = .returned (g, ID1))
    {A : Asset} (hA : A ∈ g) {s : String} (hs : s ∈ A.dependencies) :
    (∃ b, parseDependecies env (env.resolve (env.dirname A.filename) s) 0 = .ok (b, 1)) ∧
    ∃ c ∈ g, c.filename = env.resolve (env.dirname A.filename) s := by
  have hinv := parseGraph_inv h
  have hf := hinv.files
  simp only [List.append_nil] at hf
  have hmem : env.resolve (env.dirname A.filename) s ∈ g.flatMap (childPaths env) :=
    List.mem_flatMap.mpr ⟨A, hA, List.mem_map_of_mem _ hs⟩
  have hmem2 : env.resolve (env.dirname A.filename) s ∈ g.map (fun a => a.filename) := by
    rw [hf]
    exact List.mem_cons_of_mem _ hmem
  obtain ⟨c, hc, hcf⟩ := List.mem_map.mp hmem2
  have hpc := parseDependecies_counter (hinv.parsed c (by simpa using hc)) 0
  rw [hcf] at hpc
  exact ⟨⟨_, hpc⟩, c, hc, hcf⟩

/-- A file without imports makes a graph of one asset, after two rounds of the loop. -/
theorem parseGraph_single {env : Env} {entry : String} {ID : Nat} {a : Asset} {ID1 : Nat}
    (hp : parseDependecies env (env.resolve env.currentPath entry) ID = .ok (a, ID1))
    (hd : a.dependencies = []) (fuel : Nat) :
    parseGraph env (fuel + 2) entry ID = .returned ([{ a with idMapping := some [] }], ID + 1) := by
  obtain ⟨_, hID1, _, hm⟩ := parseDependecies_ok hp
  subst hID1
  obtain ⟨id, code, deps, fname, im⟩ := a
  simp only at hd hm
  subst hd hm
  unfold parseGraph
  rw [hp]
  show graphLoop env (fuel + 1 + 1) 0 [_] (ID + 1) = _
  have h1 := graphLoop_step env (fuel + 1) [] []
    { id := id, code := code, dependencies := [], filename := fname, idMapping := none }
    (ID + 1) rfl
  simp only [List.length_nil, List.nil_append, parseAll, assignAll, List.append_nil,
    Nat.add_zero] at h1
  rw [h1]
  exact graphLoop_end env fuel _ (ID + 1)

theorem foldl_append_data (l : List String) :
    ∀ (acc : String), (l.foldl (fun r s => r ++ s) acc).data
      = acc.data ++ (l.map String.data).flatten := by
  induction l with
  | nil => intro acc; simp
  | cons x l ih =>
    intro acc
    simp only [List.foldl_cons, ih, String.data_append, List.map_cons, List.flatten_cons,
      List.append_assoc]

theorem join_data (l : List String) : (String.join l).data = (l.map String.data).flatten := by
  unfold String.join
  rw [foldl_append_data]
  rfl

theorem hexValue_hexDigit : ∀ k, k < 16 → hexValue (hexDigit k) = some k := by decide

theorem unquote_escape_b (rest : List Char) :
    unquoteJSONChars (Char.ofNat 92 :: 'b' :: rest)
      = (unquoteJSONChars rest).map (fun cs => Char.ofNat 8 :: cs) := by
  rw [unquoteJSONChars.eq_def]
  rfl

theorem unquote_escape_t (rest : List Char) :
    unquoteJSONChars (Char.ofNat 92 :: 't' :: rest)
      = (unquoteJSONChars rest).map (fun cs => Char.ofNat 9 :: cs) := by
  rw [unquoteJSONChars.eq_def]
  rfl

theorem unquote_escape_n (rest : List Char) :
    unquoteJSONChars (Char.ofNat 92 :: 'n' :: rest)
      = (unquoteJSONChars rest).map (fun cs => Char.ofNat 10 :: cs) := by
  rw [unquoteJSONChars.eq_def]
  rfl

theorem unquote_escape_f (rest : List Char) :
    unquoteJSONChars (Char.ofNat 92 :: 'f' :: rest)
      = (unquoteJSONChars rest).map (fun cs => Char.ofNat 12 :: cs) := by
  rw [unquoteJSONChars.eq_def]
  rfl

theorem unquote_escape_r (rest : List Char) :
    unquoteJSONChars (Char.ofNat 92 :: 'r' :: rest)
      = (unquoteJSONChars rest).map (fun cs => Char.ofNat 13 :: cs) := by
  rw [unquoteJSONChars.eq_def]
  rfl

theorem unquote_escape_quote (rest : List Char) :
    unquoteJSONChars (Char.ofNat 92 :: Char.ofNat 34 :: rest)
      = (unquoteJSONChars rest).map (fun cs => Char.ofNat 34 :: cs) := by
  rw [unquoteJSONChars.eq_def]
  rfl

theorem unquote_escape_backslash (rest : List Char) :
    unquoteJSONChars (Char.ofNat 92 :: Char.ofNat 92 :: rest)
      = (unquoteJSONChars rest).map (fun cs => Char.ofNat 92 :: cs) := by
  rw [unquoteJSONChars.eq_def]
  rfl

theorem unquote_unicode (a b x y u : Char) (rest : List Char)
    (h : unicodeEscape a b x y = some u) :
    unquoteJSONChars (Char.ofNat 92 :: 'u' :: a :: b :: x :: y :: rest)
      = (unquoteJSONChars rest).map (fun cs => u :: cs) := by
  rw [unquoteJSONChars.eq_def]
  have h1 : ¬ (Char.ofNat 92).toNat = 34 := by decide
  have h2 : (Char.ofNat 92).toNat = 92 := by decide
  have hu : ('u' : Char).toNat = 117 := by decide
  simp only [h1, h2, hu, if_true, if_false, h]
  simp

theorem unquote_plain (c : Char) (rest : List Char) (h34 : ¬ c.toNat = 34)
    (h92 : ¬ c.toNat = 92) :
    unquoteJSONChars (c :: rest) = (unquoteJSONChars rest).map (fun cs => c :: cs) := by
  rw [unquoteJSONChars.eq_def]
  simp only [h34, h92, if_false]

/-- Reading back what `quoteJSONChar` writes for a character gives the character. -/
theorem unquote_quoteJSONChar (c : Char) (rest : List Char) :
    unquoteJSONChars ((quoteJSONChar c).data ++ rest)
      = (unquoteJSONChars rest).map (fun cs => c :: cs) := by
  have hc : Char.ofNat c.toNat = c := Char.ofNat_toNat c
  unfold quoteJSONChar
  split_ifs with h8 h9 h10 h12 h13 h34 h92 h32
  · rw [h8] at hc
    rw [show (chr 92 ++ "b").data ++ rest = Char.ofNat 92 :: 'b' :: rest from rfl,
      unquote_escape_b rest, hc]
  · rw [h9] at hc
    rw [show (chr 92 ++ "t").data ++ rest = Char.ofNat 92 :: 't' :: rest from rfl,
      unquote_escape_t rest, hc]
  · rw [h10] at hc
    rw [show (chr 92 ++ "n").data ++ rest = Char.ofNat 92 :: 'n' :: rest from rfl,
      unquote_escape_n rest, hc]
  · rw [h12] at hc
    rw [show (chr 92 ++ "f").data ++ rest = Char.ofNat 92 :: 'f' :: rest from rfl,
      unquote_escape_f rest, hc]
  · rw [h13] at hc
    rw [show (chr 92 ++ "r").data ++ rest = Char.ofNat 92 :: 'r' :: rest from rfl,
      unquote_escape_r rest, hc]
  · rw [h34] at hc
    rw [show (chr 92 ++ chr 34).data ++ rest = Char.ofNat 92 :: Char.ofNat 34 :: rest from rfl,
      unquote_escape_quote rest, hc]
  · rw [h92] at hc
    rw [show (chr 92 ++ chr 92).data ++ rest = Char.ofNat 92 :: Char.ofNat 92 :: rest from rfl,
      unquote_escape_backslash rest, hc]
  · have hhi : c.toNat / 16 < 16 := by omega
    have hlo : c.toNat % 16 < 16 := by omega
    have hdata : (chr 92 ++ "u00"
        ++ String.mk [hexDigit (c.toNat / 16), hexDigit (c.toNat % 16)]).data ++ rest
        = Char.ofNat 92 :: 'u' :: '0' :: '0' :: hexDigit (c.toNat / 16)
          :: hexDigit (c.toNat % 16) :: rest := rfl
    have h0 : hexValue '0' = some 0 := by decide
    have hval : 4096 * 0 + 256 * 0 + 16 * (c.toNat / 16) + c.toNat % 16 = c.toNat := by omega
    rw [hdata, unquote_unicode _ _ _ _ c rest (by
      simp only [unicodeEscape, h0, hexValue_hexDigit _ hhi, hexValue_hexDigit _ hlo, hval, hc])]
  · rw [show (String.singleton c).data ++ rest = c :: rest from rfl,
      unquote_plain c rest h34 h92]

theorem unquote_quoted_chars :
    ∀ (cs : List Char),
      unquoteJSONChars ((cs.map quoteJSONChar).map String.data).flatten = some cs := by
  intro cs
  induction cs with
  | nil => rfl
  | cons c cs ih =>
    simp only [List.map_cons, List.flatten_cons]
    rw [unquote_quoteJSONChar, ih]
    rfl

/-- The engine reads the string `s` from the text that `JSON.stringify` writes for it. -/
theorem unquote_quoteJSONString (s : String) :
    unquoteJSONString (quoteJSONString s) = some s := by
  have hdata : (quoteJSONString s).data
      = Char.ofNat 34 :: (((s.data.map quoteJSONChar).map String.data).flatten ++ [Char.ofNat 34]) := by
    unfold quoteJSONString
    rw [String.data_append, String.data_append, join_data]
    rfl
  unfold unquoteJSONString
  rw [hdata]
  have h34 : (Char.ofNat 34).toNat = 34 := by decide
  have hlast : ∀ (l : List Char) (x : Char), (l ++ [x]).getLast? = some x := by
    intro l x
    simp
  simp only [h34, hlast, true_and, if_true, List.dropLast_concat, unquote_quoted_chars,
    Option.map_some']

theorem modulesText_eq_join (graph : List Asset) :
    modulesText graph = String.join (graph.map moduleEntry) := by
  unfold modulesText String.join
  rw [List.foldl_map]

theorem insertIndexed_perm (p : Nat × String × Nat) (l : List (Nat × String × Nat)) :
    (insertIndexed p l).Perm (p :: l) := by
  induction l with
  | nil => exact List.Perm.refl _
  | cons q qs ih =>
    unfold insertIndexed
    split
    · exact List.Perm.refl _
    · exact ((List.Perm.cons q ih).trans (List.Perm.swap p q qs))

theorem indexedProperties_perm (o : JsObject) :
    ((indexedProperties o).map (fun p => p.2)).Perm
      (o.filter (fun p => (arrayIndex p.1).isSome)) := by
  induction o with
  | nil => exact List.Perm.refl _
  | cons kv rest ih =>
    obtain ⟨k, v⟩ := kv
    unfold indexedProperties
    cases h : arrayIndex k with
    | none => simpa [h] using ih
    | some n =>
      simp only [List.filter_cons, h, Option.isSome_some, if_true]
      exact ((insertIndexed_perm _ _).map _).trans (List.Perm.cons _ ih)

/-- The enumeration order of `JSON.stringify` lists every own property once. -/
theorem ownProperties_perm (o : JsObject) : (ownProperties o).Perm o := by
  unfold ownProperties
  have h1 := indexedProperties_perm o
  have h2 := List.filter_append_perm (fun (p : String × Nat) => (arrayIndex p.1).isSome) o
  have h3 : o.filter (fun p => (arrayIndex p.1).isNone)
      = o.filter (fun p => !(arrayIndex p.1).isSome) := by
    congr 1
    funext p
    cases arrayIndex p.1 <;> rfl
  rw [h3]
  exact (List.Perm.append_right _ h1).trans h2

theorem JsObject.mem_put (m : JsObject) (k : String) (v : Nat) (kv : String × Nat)
    (h : kv ∈ JsObject.put m k v) : kv = (k, v) ∨ kv ∈ m := by
  induction m with
  | nil =>
    simp only [JsObject.put, List.mem_singleton] at h
    exact Or.inl h
  | cons p m ih =>
    obtain ⟨k', v'⟩ := p
    unfold JsObject.put at h
    split at h
    · rename_i hkk
      rcases List.mem_cons.mp h with h | h
      · rw [hkk] at h
        exact Or.inl h
      · exact Or.inr (List.mem_cons_of_mem _ h)
    · rcases List.mem_cons.mp h with h | h
      · exact Or.inr (by rw [h]; exact List.mem_cons_self _ _)
      · rcases ih h with h | h
        · exact Or.inl h
        · exact Or.inr (List.mem_cons_of_mem _ h)

theorem JsObject.keys_put (m : JsObject) (k : String) (v : Nat) :
    (JsObject.put m k v).map (fun p => p.1)
      = if k ∈ m.map (fun p => p.1) then m.map (fun p => p.1) else m.map (fun p => p.1) ++ [k] := by
  induction m with
  | nil => simp [JsObject.put]
  | cons p m ih =>
    obtain ⟨k', v'⟩ := p
    unfold JsObject.put
    by_cases hk : k' = k
    · subst hk
      simp
    · have hk2 : ¬ k = k' := fun h => hk h.symm
      simp only [hk, if_false, List.map_cons, ih, List.mem_cons, hk2, false_or]
      split <;> simp

theorem JsObject.keys_put_nodup (m : JsObject) (k : String) (v : Nat)
    (h : (m.map (fun p => p.1)).Nodup) : ((JsObject.put m k v).map (fun p => p.1)).Nodup := by
  rw [JsObject.keys_put]
  split
  · exact h
  · rename_i hk
    exact List.Nodup.append h (List.nodup_singleton k) (by simpa using hk)

theorem JsObject.get_of_mem (m : JsObject) (k : String) (v : Nat)
    (hn : (m.map (fun p => p.1)).Nodup) (h : (k, v) ∈ m) : JsObject.get m k = some v := by
  induction m with
  | nil => simp at h
  | cons p m ih =>
    obtain ⟨k', v'⟩ := p
    simp only [List.map_cons, List.nodup_cons] at hn
    rcases List.mem_cons.mp h with h | h
    · simp only [Prod.mk.injEq] at h
      obtain ⟨rfl, rfl⟩ := h
      simp [JsObject.get]
    · have hne : ¬ k' = k := by
        intro hk
        subst hk
        exact hn.1 (List.mem_map_of_mem (fun p => p.1) h)
      simp only [JsObject.get, hne, if_false]
      exact ih hn.2 h

/-- The properties of an `idMapping` after a `forEach`: those it had, and for each
specifier other than `__proto__` at most one property, keyed by the specifier. -/
theorem assignAll_props :
    ∀ (deps : List String) (m : JsObject) (n : Nat), (m.map (fun p => p.1)).Nodup →
      ((assignAll m deps n).map (fun p => p.1)).Nodup ∧
      ∀ kv ∈ assignAll m deps n, kv ∈ m ∨ (kv.1 ∈ deps ∧ kv.1 ≠ "__proto__") := by
  intro deps
  induction deps with
  | nil => intro m n h; exact ⟨h, fun kv hkv => Or.inl hkv⟩
  | cons d deps ih =>
    intro m n h
    have hset : ((JsObject.set m d n).map (fun p => p.1)).Nodup := by
      unfold JsObject.set
      split
      · exact h
      · exact JsObject.keys_put_nodup m d n h
    obtain ⟨h1, h2⟩ := ih (JsObject.set m d n) (n + 1) hset
    refine ⟨h1, ?_⟩
    intro kv hkv
    rcases h2 kv hkv with hm | ⟨hd, hp⟩
    · unfold JsObject.set at hm
      split at hm
      · exact Or.inl hm
      · rename_i hproto
        rcases JsObject.mem_put m d n kv hm with heq | hin
        · right
          rw [heq]
          exact ⟨List.mem_cons_self _ _, hproto⟩
        · exact Or.inl hin
    · exact Or.inr ⟨List.mem_cons_of_mem _ hd, hp⟩

/-- In a returned graph every `idMapping` exists, its keys are specifiers of its asset
as they are written, and each value is the `id` of an asset of the graph that holds
the file the key resolves to. -/
theorem parseGraph_mapping_props {env : Env} {fuel : Nat} {entry : String} {ID : Nat}
    {g : List Asset} {ID1 : Nat} (h : parseGraph env fuel entry ID = .returned (g, ID1))
    {a : Asset} (ha : a ∈ g) :
    ∃ m, a.idMapping = some m ∧ ∀ kv ∈ m, kv.1 ∈ a.dependencies ∧
      ∃ c ∈ g, c.id = kv.2 ∧ c.filename = env.resolve (env.dirname a.filename) kv.1 := by
  have hinv := parseGraph_inv h
  obtain ⟨j, hj⟩ := List.mem_iff_getElem?.mp ha
  have hm := congrArg (fun l => l[j]?) hinv.mapped
  simp only [List.getElem?_map, hj, Option.map_some', expectedMappings_getElem g _ j a hj,
    Option.some.injEq] at hm
  refine ⟨_, hm, ?_⟩
  intro kv hkv
  obtain ⟨hnodup, hprops⟩ := assignAll_props a.dependencies [] (ID + 1 + importCount (g.take j))
    (by simp)
  rcases hprops kv hkv with hnil | ⟨hd, hp⟩
  · simp at hnil
  · refine ⟨hd, ?_⟩
    obtain ⟨m, t, c, hm2, _, hg, hc, hid, hf⟩ := hinv.closure hj hd hp
    rw [hm] at hm2
    simp only [Option.some.injEq] at hm2
    subst hm2
    have hget := JsObject.get_of_mem _ kv.1 kv.2 hnodup hkv
    rw [hg] at hget
    simp only [Option.some.injEq] at hget
    exact ⟨c, List.mem_iff_getElem?.mpr ⟨_, hc⟩, by rw [hid, hget], hf⟩

theorem graphLoop_causal (env : Env) (ID0 : Nat) (ep : String) :
    ∀ (fuel : Nat) (done todo : List Asset) (ID : Nat) (g : List Asset) (ID1 : Nat),
      LoopInv env ID0 ep done todo ID →
      (∀ k, k < done.length → k ≤ importCount (done.take k)) →
      graphLoop env fuel done.length (done ++ todo) ID = .returned (g, ID1) →
      ∀ k, k < g.length → k ≤ importCount (g.take k) := by
  intro fuel
  induction fuel with
  | zero => intro done todo ID g ID1 _ _ h; simp [graphLoop] at h
  | succ fuel ih =>
    intro done todo ID g ID1 hinv hc h
    cases todo with
    | nil =>
      rw [List.append_nil, graphLoop_end] at h
      simp only [Outcome.returned.injEq, Prod.mk.injEq] at h
      obtain ⟨rfl, rfl⟩ := h
      exact hc
    | cons a rest =>
      rw [graphLoop_step env fuel done rest a ID (hinv.pending a (by simp))] at h
      cases hcs : parseAll env (env.dirname a.filename) a.dependencies ID with
      | error e => rw [hcs] at h; cases h
      | ok cs =>
        rw [hcs] at h
        refine ih _ _ _ g ID1 (hinv.step hcs) ?_ h
        intro k hk
        have hlen := hinv.length_eq
        simp only [List.length_append, List.length_cons, List.length_nil] at hk hlen
        by_cases hkd : k < done.length
        · rw [List.take_append_of_le_length (Nat.le_of_lt hkd)]
          exact hc k hkd
        · have hkeq : k = done.length := by omega
          subst hkeq
          rw [List.take_left' rfl]
          omega

/-- In a returned graph every asset was appended before the loop came to it: the assets
before position `k` have at least `k` specifier occurrences between them. -/
theorem parseGraph_causal {env : Env} {fuel : Nat} {entry : String} {ID : Nat}
    {g : List Asset} {ID1 : Nat} (h : parseGraph env fuel entry ID = .returned (g, ID1)) :
    ∀ k, k < g.length → k ≤ importCount (g.take k) := by
  unfold parseGraph at h
  cases hp : parseDependecies env (env.resolve env.currentPath entry) ID with
  | error e => rw [hp] at h; cases h
  | ok r =>
    obtain ⟨a, ID2⟩ := r
    rw [hp] at h
    exact graphLoop_causal env ID _ fuel [] [a] ID2 g ID1 (LoopInv.init hp) (by simp) h

theorem levelsFrom_spec (env : Env) (ep : String) (g : List Asset)
    (hfiles : g.map (fun a => a.filename) = ep :: g.flatMap (childPaths env))
    (hcausal : ∀ k, k < g.length → k ≤ importCount (g.take k)) :
    ∀ (fuel : Nat) (P L rest : List Asset), rest.length ≤ fuel → L ≠ [] →
      g = P ++ L ++ rest → (P ++ L).length = 1 + importCount P →
      (levelsFrom fuel L rest).flatten = L ++ rest ∧
      (levelsFrom fuel L rest).head? = some L ∧
      (∀ X ∈ levelsFrom fuel L rest, X ≠ []) ∧
      List.Chain' (fun X Y => Y.map (fun a => a.filename) = X.flatMap (childPaths env))
        (levelsFrom fuel L rest) := by
  intro fuel
  induction fuel with
  | zero =>
    intro P L rest hfuel hL hg hlen
    have hrest : rest = [] := List.length_eq_zero.mp (Nat.le_zero.mp hfuel)
    subst hrest
    simp [levelsFrom, hL]
  | succ fuel ih =>
    intro P L rest hfuel hL hg hlen
    cases hrest : rest with
    | nil => simp [levelsFrom, hL]
    | cons r rs =>
      rw [← hrest]
      have hne : rest ≠ [] := by rw [hrest]; simp
      -- the file names of `rest` are the resolutions of the specifiers of `L ++ rest`
      have hsplit : (P ++ L).map (fun a => a.filename) ++ rest.map (fun a => a.filename)
          = (ep :: P.flatMap (childPaths env))
            ++ (L.flatMap (childPaths env) ++ rest.flatMap (childPaths env)) := by
        have := hfiles
        rw [hg] at this
        simpa [List.map_append, List.flatMap_append, List.append_assoc] using this
      have hl : ((P ++ L).map (fun a => a.filename)).length
          = (ep :: P.flatMap (childPaths env)).length := by
        simp only [List.length_map, List.length_cons, length_flatMap_childPaths]
        omega
      obtain ⟨_, hrestf⟩ := List.append_inj hsplit hl
      have hrlen : rest.length = importCount L + importCount rest := by
        have := congrArg List.length hrestf
        rw [List.length_map, List.length_append, length_flatMap_childPaths,
          length_flatMap_childPaths] at this
        exact this
      -- the loop came to the first asset of `rest`, so `L` has a specifier
      have hpos : 1 ≤ importCount L := by
        have hk : (P ++ L).length < g.length := by
          rw [hg]
          simp only [List.length_append]
          have : 0 < rest.length := List.length_pos.mpr hne
          omega
        have := hcausal _ hk
        rw [hg, List.take_left' rfl, importCount_append] at this
        omega
      have htake : (rest.take (importCount L)).length = importCount L := by
        rw [List.length_take]
        omega
      have hnext := ih (P ++ L) (rest.take (importCount L)) (rest.drop (importCount L))
        (by rw [List.length_drop]; omega)
        (by
          intro hnil
          rw [hnil] at htake
          simp at htake
          omega)
        (by rw [hg, List.append_assoc (P ++ L), List.take_append_drop])
        (by
          rw [List.length_append, htake, importCount_append]
          omega)
      obtain ⟨h1, h2, h3, h4⟩ := hnext
      have hlev : levelsFrom (fuel + 1) L rest
          = L :: levelsFrom fuel (rest.take (importCount L)) (rest.drop (importCount L)) := by
        rw [hrest]
        rfl
      rw [hlev]
      refine ⟨?_, rfl, ?_, ?_⟩
      · rw [List.flatten_cons, h1, List.take_append_drop]
      · intro X hX
        rcases List.mem_cons.mp hX with rfl | hX
        · exact hL
        · exact h3 X hX
      · rw [List.chain'_cons']
        refine ⟨?_, h4⟩
        intro Y hY
        rw [h2] at hY
        simp only [Option.mem_def, Option.some.injEq] at hY
        subst hY
        rw [List.map_take, hrestf, List.take_left' (length_flatMap_childPaths env L)]

theorem levelNumbers_spec :
    ∀ (Ls : List (List Asset)) (n : Nat),
      (levelNumbers n Ls).length = Ls.flatten.length ∧
      (∀ x ∈ levelNumbers n Ls, n ≤ x) ∧
      (levelNumbers n Ls).Pairwise (fun x y => x ≤ y) := by
  intro Ls
  induction Ls with
  | nil => intro n; simp [levelNumbers]
  | cons L Ls ih =>
    intro n
    obtain ⟨h1, h2, h3⟩ := ih (n + 1)
    refine ⟨by simp [levelNumbers, h1], ?_, ?_⟩
    · intro x hx
      simp only [levelNumbers, List.mem_append, List.mem_replicate] at hx
      rcases hx with ⟨_, rfl⟩ | hx
      · exact Nat.le_refl _
      · exact Nat.le_of_succ_le (h2 x hx)
    · simp only [levelNumbers]
      rw [List.pairwise_append]
      refine ⟨?_, h3, ?_⟩
      · rw [List.pairwise_replicate]
        exact Or.inr (Nat.le_refl _)
      · intro x hx y hy
        rw [List.mem_replicate] at hx
        rw [hx.2]
        exact Nat.le_of_succ_le (h2 y hy)

end Roid

namespace Roid

/-- The levels of a returned graph: they partition it in order, the first is the entry
alone, none is empty, and each is parsed from the specifiers of the one before, in the
order of the files and of their specifiers. -/
theorem parseGraph_levels {env : Env} {fuel : Nat} {entry : String} {ID : Nat}
    {g : List Asset} {ID1 : Nat} (h : parseGraph env fuel entry ID = .returned (g, ID1)) :
    ∃ entryAsset rest, g = entryAsset :: rest ∧
      entryAsset.filename = env.resolve env.currentPath entry ∧
      (levels g).head? = some [entryAsset] ∧
      (levels g).flatten = g ∧
      (∀ L ∈ levels g, L ≠ []) ∧
      List.Chain' (fun X Y => Y.map (fun a => a.filename) = X.flatMap (childPaths env))
        (levels g) := by
  have hinv := parseGraph_inv h
  have hf := hinv.files
  simp only [List.append_nil] at hf
  cases g with
  | nil => simp at hf
  | cons a rest =>
    have hfa : a.filename = env.resolve env.currentPath entry := by
      have := congrArg List.head? hf
      simpa using this
    obtain ⟨h1, h2, h3, h4⟩ := levelsFrom_spec env _ (a :: rest) hf (parseGraph_causal h)
      rest.length [] [a] rest (Nat.le_refl _) (by simp) rfl (by simp [importCount])
    exact ⟨a, rest, rfl, hfa, h2, h1, h3, h4⟩

theorem importsOf_of_parse {env : Env} {p : String} {n : Nat} {a : Asset} {ID1 : Nat}
    (h : parseDependecies env p n = .ok (a, ID1)) : importsOf env p = childPaths env a := by
  unfold importsOf
  rw [parseDependecies_counter h 0]
  rfl

theorem sumSizes_cons_some {size : String → Option Nat} {q : String} {rest : List String}
    {t : Nat} (h : sumSizes size (q :: rest) = some t) :
    ∃ n m, size q = some n ∧ sumSizes size rest = some m ∧ t = n + m := by
  simp only [sumSizes] at h
  cases hq : size q with
  | none => rw [hq] at h; cases h
  | some n =>
    cases hr : sumSizes size rest with
    | none => rw [hq, hr] at h; cases h
    | some m =>
      rw [hq, hr] at h
      simp only [Option.some.injEq] at h
      exact ⟨n, m, rfl, rfl, h.symm⟩

theorem sumSizes_cons {size : String → Option Nat} {q : String} {rest : List String}
    {n m : Nat} (hq : size q = some n) (hr : sumSizes size rest = some m) :
    sumSizes size (q :: rest) = some (n + m) := by
  simp only [sumSizes, hq, hr]

theorem sumSizes_append (size : String → Option Nat) :
    ∀ (l r : List String) (n m : Nat), sumSizes size l = some n → sumSizes size r = some m →
      sumSizes size (l ++ r) = some (n + m) := by
  intro l
  induction l with
  | nil =>
    intro r n m hl hr
    simp only [sumSizes, Option.some.injEq] at hl
    subst hl
    simpa using hr
  | cons q l ih =>
    intro r n m hl hr
    obtain ⟨a, b, hq, hl2, rfl⟩ := sumSizes_cons_some hl
    rw [List.cons_append, sumSizes_cons hq (ih r b m hl2 hr), Nat.add_assoc]

theorem sumSizes_mono {f g : String → Option Nat} :
    ∀ (l : List String) (m : Nat), (∀ q ∈ l, ∀ n, f q = some n → g q = some n) →
      sumSizes f l = some m → sumSizes g l = some m := by
  intro l
  induction l with
  | nil => intro m _ h; exact h
  | cons q l ih =>
    intro m hfg h
    obtain ⟨a, b, hq, hl, rfl⟩ := sumSizes_cons_some h
    exact sumSizes_cons (hfg q (by simp) a hq) (ih b (fun q' hq' => hfg q' (by simp [hq'])) hl)

theorem sumSizes_total {f : String → Option Nat} :
    ∀ (l : List String), (∀ q ∈ l, ∃ n, f q = some n) → ∃ m, sumSizes f l = some m := by
  intro l
  induction l with
  | nil => intro _; exact ⟨0, rfl⟩
  | cons q l ih =>
    intro h
    obtain ⟨n, hn⟩ := h q (by simp)
    obtain ⟨m, hm⟩ := ih (fun q' hq' => h q' (by simp [hq']))
    exact ⟨n + m, sumSizes_cons hn hm⟩

theorem sumSizes_mem {f : String → Option Nat} :
    ∀ (l : List String) (m : Nat), sumSizes f l = some m → ∀ q ∈ l, ∃ n, f q = some n := by
  intro l
  induction l with
  | nil => intro m _ q hq; cases hq
  | cons x l ih =>
    intro m h q hq
    obtain ⟨a, b, hx, hl, _⟩ := sumSizes_cons_some h
    rcases List.mem_cons.mp hq with rfl | hq
    · exact ⟨a, hx⟩
    · exact ih b hl q hq

theorem unfoldSize_succ_some {env : Env} {d : Nat} {p : String} {t : Nat}
    (h : unfoldSize env (d + 1) p = some t) :
    ∃ a ID1 m, parseDependecies env p 0 = .ok (a, ID1) ∧
      sumSizes (unfoldSize env d) (childPaths env a) = some m ∧ t = 1 + m := by
  simp only [unfoldSize] at h
  cases hp : parseDependecies env p 0 with
  | error e => rw [hp] at h; cases h
  | ok r =>
    obtain ⟨a, ID1⟩ := r
    rw [hp] at h
    simp only at h
    cases hs : sumSizes (unfoldSize env d) (childPaths env a) with
    | none => rw [hs] at h; cases h
    | some m =>
      rw [hs] at h
      simp only [Option.some.injEq] at h
      exact ⟨a, ID1, m, rfl, hs, h.symm⟩

theorem unfoldSize_succ {env : Env} {d : Nat} {p : String} {a : Asset} {ID1 m : Nat}
    (hp : parseDependecies env p 0 = .ok (a, ID1))
    (hs : sumSizes (unfoldSize env d) (childPaths env a) = some m) :
    unfoldSize env (d + 1) p = some (1 + m) := by
  simp only [unfoldSize, hp, hs]

theorem unfoldSize_step (env : Env) :
    ∀ (d : Nat) (p : String) (n : Nat), unfoldSize env d p = some n →
      unfoldSize env (d + 1) p = some n := by
  intro d
  induction d with
  | zero => intro p n h; simp [unfoldSize] at h
  | succ d ih =>
    intro p n h
    obtain ⟨a, ID1, m, hp, hs, rfl⟩ := unfoldSize_succ_some h
    exact unfoldSize_succ hp (sumSizes_mono _ m (fun q _ k hk => ih q k hk) hs)

/-- A deeper bound does not change the number of import chains once there is one. -/
theorem unfoldSize_mono (env : Env) {d d' : Nat} (hd : d ≤ d') {p : String} {n : Nat}
    (h : unfoldSize env d p = some n) : unfoldSize env d' p = some n := by
  induction hd with
  | refl => exact h
  | step _ ih => exact unfoldSize_step env _ p n ih

theorem unfoldSize_unique (env : Env) {d d' : Nat} {p : String} {n n' : Nat}
    (h : unfoldSize env d p = some n) (h' : unfoldSize env d' p = some n') : n = n' := by
  have h1 := unfoldSize_mono env (Nat.le_max_left d d') h
  have h2 := unfoldSize_mono env (Nat.le_max_right d d') h'
  rw [h1] at h2
  exact Option.some.inj h2

/-- The loop of `parseGraph` ends after as many rounds as the files still to walk
have import chains between them, each round walking one asset. -/
theorem graphLoop_returns (env : Env) (d : Nat) :
    ∀ (total : Nat) (done todo : List Asset) (ID : Nat),
      (∀ a ∈ todo, a.idMapping = none ∧
        ∃ n ID1, parseDependecies env a.filename n = .ok (a, ID1)) →
      sumSizes (unfoldSize env d) (todo.map (fun a => a.filename)) = some total →
      ∃ g ID1, graphLoop env (total + 1) done.length (done ++ todo) ID = .returned (g, ID1) ∧
        g.length = done.length + total := by
  intro total
  induction total with
  | zero =>
    intro done todo ID htodo hsum
    cases todo with
    | nil => exact ⟨done, ID, by rw [List.append_nil, graphLoop_end], rfl⟩
    | cons a rest =>
      obtain ⟨n, m, hn, _, ht⟩ := sumSizes_cons_some hsum
      cases d with
      | zero => simp [unfoldSize] at hn
      | succ d =>
        obtain ⟨_, _, k, _, _, rfl⟩ := unfoldSize_succ_some hn
        omega
  | succ t ih =>
    intro done todo ID htodo hsum
    cases todo with
    | nil => simp [sumSizes] at hsum
    | cons a rest =>
      obtain ⟨hnone, n0, ID0, hpa⟩ := htodo a (by simp)
      obtain ⟨n, m, hn, hm, ht⟩ := sumSizes_cons_some hsum
      cases d with
      | zero => simp [unfoldSize] at hn
      | succ d =>
        obtain ⟨a0, ID2, k, hp0, hk, rfl⟩ := unfoldSize_succ_some hn
        have hch : childPaths env a0 = childPaths env a := by
          rw [← importsOf_of_parse hp0, importsOf_of_parse hpa]
        rw [hch] at hk
        have hk1 := sumSizes_mono _ k (fun q _ j hj => unfoldSize_step env d q j hj) hk
        obtain ⟨cs, hcs⟩ := parseAll_total env (env.dirname a.filename) a.dependencies ID
          (fun s hs => by
            have hmem : env.resolve (env.dirname a.filename) s ∈ childPaths env a :=
              List.mem_map_of_mem _ hs
            obtain ⟨j, hj⟩ := sumSizes_mem _ k hk _ hmem
            cases d with
            | zero => simp [unfoldSize] at hj
            | succ d =>
              obtain ⟨c, ID3, _, hc, _, _⟩ := unfoldSize_succ_some hj
              exact ⟨c, ID3, hc⟩)
        obtain ⟨h1, _, _, h4, h5⟩ := parseAll_ok env _ _ _ _ hcs
        have hsum2 : sumSizes (unfoldSize env (d + 1))
            ((rest ++ cs).map (fun a => a.filename)) = some t := by
          rw [List.map_append, h1]
          have := sumSizes_append _ _ _ _ _ hm hk1
          have ht2 : m + k = t := by omega
          rw [ht2] at this
          exact this
        obtain ⟨g, ID1, hg, hlen⟩ := ih
          (done ++ [{ a with idMapping := some (assignAll [] a.dependencies ID) }]) (rest ++ cs)
          (ID + a.dependencies.length)
          (fun b hb => by
            rcases List.mem_append.mp hb with hb | hb
            · exact htodo b (by simp [hb])
            · exact ⟨h4 b hb, b.id, b.id + 1, h5 b hb⟩)
          hsum2
        refine ⟨g, ID1, ?_, ?_⟩
        · rw [graphLoop_step env (t + 1) done rest a ID hnone, hcs]
          exact hg
        · rw [hlen]
          simp only [List.length_append, List.length_cons, List.length_nil]
          omega

/-- When the entry has `n` import chains, `parseGraph` returns a graph of `n` assets after
`n + 1` rounds at most. -/
theorem parseGraph_returns_of_size {env : Env} {entry : String} {d n : Nat}
    (h : unfoldSize env d (env.resolve env.currentPath entry) = some n) (ID : Nat) :
    ∃ g, parseGraph env (n + 1) entry ID = .returned (g, ID + n) ∧ g.length = n := by
  cases d with
  | zero => simp [unfoldSize] at h
  | succ d =>
    obtain ⟨a0, ID2, k, hp0, _, _⟩ := unfoldSize_succ_some h
    have hp := parseDependecies_counter hp0 ID
    obtain ⟨_, _, hf, hm⟩ := parseDependecies_ok hp
    simp only at hf hm
    obtain ⟨g, ID1, hg, hlen⟩ := graphLoop_returns env (d + 1) n [] [{ a0 with id := ID }] (ID + 1)
      (fun b hb => by
        simp only [List.mem_singleton] at hb
        subst hb
        exact ⟨hm, ID, ID + 1, by simpa [hf] using hp⟩)
      (by
        simp only [List.map_cons, List.map_nil, hf]
        simpa using sumSizes_cons h (rfl : sumSizes (unfoldSize env (d + 1)) [] = some 0))
    have hpg : parseGraph env (n + 1) entry ID = .returned (g, ID1) := by
      unfold parseGraph
      rw [hp]
      exact hg
    have hc := (parseGraph_inv hpg).counter
    simp only [List.append_nil] at hc
    simp only [List.length_nil, Nat.zero_add] at hlen
    refine ⟨g, ?_, hlen⟩
    rw [hpg, hc, hlen]

/-- The loop of `parseGraph` never ends while a file that comes to an import cycle is
still to walk: `Ok` is a set of files that parse, closed under imports, and each file of
`Bad` in it imports a file of `Bad`. -/
theorem graphLoop_cycle_diverges (env : Env) (Ok Bad : String → Prop)
    (hOk : ∀ f, Ok f → (∃ a ID1, parseDependecies env f 0 = .ok (a, ID1)) ∧
      ∀ q, Imports env f q → Ok q)
    (hBad : ∀ f, Ok f → Bad f → ∃ q, Imports env f q ∧ Bad q) :
    ∀ (fuel : Nat) (done todo : List Asset) (ID : Nat),
      (∀ a ∈ todo, a.idMapping = none ∧ Ok a.filename ∧
        ∃ n ID1, parseDependecies env a.filename n = .ok (a, ID1)) →
      (∃ a ∈ todo, Bad a.filename) →
      graphLoop env fuel done.length (done ++ todo) ID = .outOfFuel := by
  intro fuel
  induction fuel with
  | zero => intro done todo ID _ _; rfl
  | succ fuel ih =>
    intro done todo ID htodo hbad
    cases todo with
    | nil =>
      obtain ⟨_, hmem, _⟩ := hbad
      cases hmem
    | cons a rest =>
      obtain ⟨hnone, hok, n, ID1, hpa⟩ := htodo a (by simp)
      have himp : importsOf env a.filename = childPaths env a := importsOf_of_parse hpa
      obtain ⟨cs, hcs⟩ := parseAll_total env (env.dirname a.filename) a.dependencies ID
        (fun s hs => by
          have hq : Imports env a.filename (env.resolve (env.dirname a.filename) s) := by
            unfold Imports
            rw [himp]
            exact List.mem_map_of_mem _ hs
          exact (hOk _ ((hOk _ hok).2 _ hq)).1)
      rw [graphLoop_step env fuel done rest a ID hnone, hcs]
      obtain ⟨h1, _, _, h4, h5⟩ := parseAll_ok env _ _ _ _ hcs
      have hfiles : cs.map (fun c => c.filename) = importsOf env a.filename := by
        rw [h1, himp]
        rfl
      apply ih
      · intro b hb
        rcases List.mem_append.mp hb with hb | hb
        · exact htodo b (by simp [hb])
        · refine ⟨h4 b hb, ?_, b.id, b.id + 1, h5 b hb⟩
          apply (hOk _ hok).2
          unfold Imports
          rw [← hfiles]
          exact List.mem_map_of_mem _ hb
      · obtain ⟨b, hb, hbb⟩ := hbad
        rcases List.mem_cons.mp hb with rfl | hb
        · obtain ⟨q, hq, hqb⟩ := hBad _ hok hbb
          unfold Imports at hq
          rw [← hfiles] at hq
          obtain ⟨c, hc, hcq⟩ := List.mem_map.mp hq
          exact ⟨c, List.mem_append_right _ hc, by rw [hcq]; exact hqb⟩
        · exact ⟨b, List.mem_append_left _ hb, hbb⟩

/-- A file from which an import cycle can be reached imports such a file. -/
theorem reaches_cycle_step {R : String → String → Prop} {p : String}
    (h : ∃ q, Relation.ReflTransGen R p q ∧ Relation.TransGen R q q) :
    ∃ p1, R p p1 ∧ ∃ q, Relation.ReflTransGen R p1 q ∧ Relation.TransGen R q q := by
  obtain ⟨q, hpq, hqq⟩ := h
  rcases Relation.ReflTransGen.cases_head hpq with rfl | ⟨p1, hp1, hp1q⟩
  · obtain ⟨p1, hp1, hp1q⟩ := Relation.TransGen.head'_iff.mp hqq
    exact ⟨p1, hp1, p, hp1q, hqq⟩
  · exact ⟨p1, hp1, q, hp1q, hqq⟩

/-- When every file reachable from the entry parses and an import cycle is reachable,
`parseGraph` neither returns nor throws, whatever the number of rounds. -/
theorem parseGraph_cycle_diverges {env : Env} {entry : String}
    (hparse : ∀ p, Relation.ReflTransGen (Imports env) (env.resolve env.currentPath entry) p →
      ∃ a ID1, parseDependecies env p 0 = .ok (a, ID1))
    (hcycle : ∃ q, Relation.ReflTransGen (Imports env) (env.resolve env.currentPath entry) q ∧
      Relation.TransGen (Imports env) q q) (fuel ID : Nat) :
    parseGraph env fuel entry ID = .outOfFuel := by
  obtain ⟨a0, ID1, hp0⟩ := hparse _ Relation.ReflTransGen.refl
  have hp := parseDependecies_counter hp0 ID
  unfold parseGraph
  rw [hp]
  obtain ⟨_, _, hf, hm⟩ := parseDependecies_ok hp
  simp only at hf hm
  refine graphLoop_cycle_diverges env
    (fun p => Relation.ReflTransGen (Imports env) (env.resolve env.currentPath entry) p)
    (fun p => ∃ q, Relation.ReflTransGen (Imports env) p q ∧ Relation.TransGen (Imports env) q q)
    (fun f hf => ⟨hparse f hf, fun q hq => hf.tail hq⟩)
    (fun f _ hb => reaches_cycle_step hb) fuel [] [_] (ID + 1) ?_ ?_
  · intro b hb
    simp only [List.mem_singleton] at hb
    subst hb
    exact ⟨hm, by simp only [hf]; exact Relation.ReflTransGen.refl, ID, ID + 1,
      by simpa [hf] using hp⟩
  · exact ⟨_, List.mem_singleton.mpr rfl, by simpa [hf] using hcycle⟩

theorem sumSizes_common (env : Env) :
    ∀ (l : List String), (∀ q ∈ l, ∃ d n, unfoldSize env d q = some n) →
      ∃ d m, sumSizes (unfoldSize env d) l = some m := by
  intro l
  induction l with
  | nil => intro _; exact ⟨0, 0, rfl⟩
  | cons q l ih =>
    intro h
    obtain ⟨d1, n, hn⟩ := h q (by simp)
    obtain ⟨d2, m, hm⟩ := ih (fun q' hq' => h q' (by simp [hq']))
    refine ⟨max d1 d2, n + m, sumSizes_cons (unfoldSize_mono env (Nat.le_max_left _ _) hn) ?_⟩
    exact sumSizes_mono _ m (fun x _ k hk => unfoldSize_mono env (Nat.le_max_right _ _) hk) hm

/-- Over finitely many reachable files that all parse, without an import cycle, every
reachable file has finitely many import chains. -/
theorem unfoldSize_exists {env : Env} {ep : String} (files : List String)
    (hfin : ∀ p, Relation.ReflTransGen (Imports env) ep p → p ∈ files)
    (hparse : ∀ p, Relation.ReflTransGen (Imports env) ep p →
      ∃ a ID1, parseDependecies env p 0 = .ok (a, ID1))
    (hacyclic : ¬ ∃ q, Relation.ReflTransGen (Imports env) ep q ∧
      Relation.TransGen (Imports env) q q) :
    ∀ p, Relation.ReflTransGen (Imports env) ep p → ∃ d n, unfoldSize env d p = some n := by
  have hfinite : Set.Finite { p | Relation.ReflTransGen (Imports env) ep p } :=
    Set.Finite.subset (List.finite_toSet files) (fun p hp => hfin p hp)
  haveI : Finite { p // Relation.ReflTransGen (Imports env) ep p } := hfinite.to_subtype
  let r : { p // Relation.ReflTransGen (Imports env) ep p } →
      { p // Relation.ReflTransGen (Imports env) ep p } → Prop :=
    fun x y => Relation.TransGen (Imports env) y.1 x.1
  haveI : IsTrans _ r := ⟨fun _ _ _ hab hbc => Relation.TransGen.trans hbc hab⟩
  haveI : IsIrrefl _ r := ⟨fun x hx => hacyclic ⟨x.1, x.2, hx⟩⟩
  have wf : WellFounded r := Finite.wellFounded_of_trans_of_irrefl r
  intro p hp
  refine wf.induction (C := fun x => ∃ d n, unfoldSize env d x.1 = some n) ⟨p, hp⟩ ?_
  intro x ih
  obtain ⟨a, ID1, hpa⟩ := hparse x.1 x.2
  have himp : importsOf env x.1 = childPaths env a := importsOf_of_parse hpa
  obtain ⟨d, m, hs⟩ := sumSizes_common env (childPaths env a) (fun q hq => by
    have hq2 : Imports env x.1 q := by
      unfold Imports
      rw [himp]
      exact hq
    exact ih ⟨q, x.2.tail hq2⟩ (Relation.TransGen.single hq2))
  exact ⟨d + 1, 1 + m, unfoldSize_succ hpa hs⟩

end Roid

namespace Roid

/-- The files reachable from a file of a list closed under imports are in the list. -/
theorem reachable_mem_of_closed {env : Env} {ep : String} (files : List String)
    (hep : ep ∈ files) (hclosed : ∀ p ∈ files, ∀ q ∈ importsOf env p, q ∈ files) :
    ∀ p, Relation.ReflTransGen (Imports env) ep p → p ∈ files := by
  intro p hp
  induction hp with
  | refl => exact hep
  | tail _ hq ih => exact hclosed _ ih _ hq

/-- With every reachable file parsing, `parseGraph` throws nothing. -/
theorem parseGraph_never_throws {env : Env} {entry : String} (files : List String)
    (hfin : ∀ p, Relation.ReflTransGen (Imports env) (env.resolve env.currentPath entry) p →
      p ∈ files)
    (hparse : ∀ p, Relation.ReflTransGen (Imports env) (env.resolve env.currentPath entry) p →
      ∃ a ID1, parseDependecies env p 0 = .ok (a, ID1))
    (fuel ID : Nat) (e : JsError) : parseGraph env fuel entry ID ≠ .threw e := by
  intro hthrew
  by_cases hc : ∃ q, Relation.ReflTransGen (Imports env) (env.resolve env.currentPath entry) q ∧
      Relation.TransGen (Imports env) q q
  · rw [parseGraph_cycle_diverges hparse hc fuel ID] at hthrew
    cases hthrew
  · obtain ⟨d, n, hn⟩ := unfoldSize_exists files hfin hparse hc _ Relation.ReflTransGen.refl
    obtain ⟨g, hg, _⟩ := parseGraph_returns_of_size hn ID
    have h1 := parseGraph_fuel_add env entry ID _ (by simp) fuel (n + 1) hthrew
    have h2 := parseGraph_fuel_add env entry ID _ (by simp) (n + 1) fuel hg
    rw [Nat.add_comm, h1] at h2
    cases h2

/-- Every asset still to walk when the loop of `parseGraph` goes on to return has
finitely many import chains. -/
theorem graphLoop_sizes (env : Env) :
    ∀ (fuel : Nat) (done todo : List Asset) (ID : Nat) (g : List Asset) (ID1 : Nat),
      (∀ a ∈ todo, a.idMapping = none ∧
        ∃ n ID2, parseDependecies env a.filename n = .ok (a, ID2)) →
      graphLoop env fuel done.length (done ++ todo) ID = .returned (g, ID1) →
      ∀ a ∈ todo, ∃ d n, unfoldSize env d a.filename = some n := by
  intro fuel
  induction fuel with
  | zero => intro done todo ID g ID1 _ h; simp [graphLoop] at h
  | succ fuel ih =>
    intro done todo ID g ID1 htodo h
    cases todo with
    | nil => intro a ha; cases ha
    | cons a rest =>
      obtain ⟨hnone, n0, ID0, hpa⟩ := htodo a (by simp)
      rw [graphLoop_step env fuel done rest a ID hnone] at h
      cases hcs : parseAll env (env.dirname a.filename) a.dependencies ID with
      | error e => rw [hcs] at h; cases h
      | ok cs =>
        rw [hcs] at h
        obtain ⟨h1, _, _, h4, h5⟩ := parseAll_ok env _ _ _ _ hcs
        have hnext := ih _ (rest ++ cs) _ g ID1
          (fun b hb => by
            rcases List.mem_append.mp hb with hb | hb
            · exact htodo b (by simp [hb])
            · exact ⟨h4 b hb, b.id, b.id + 1, h5 b hb⟩)
          h
        intro b hb
        rcases List.mem_cons.mp hb with rfl | hb
        · obtain ⟨d, m, hs⟩ := sumSizes_common env (childPaths env b) (fun q hq => by
            have hq2 : q ∈ cs.map (fun c => c.filename) := by
              rw [h1]
              exact hq
            obtain ⟨c, hc, hcq⟩ := List.mem_map.mp hq2
            rw [← hcq]
            exact hnext c (List.mem_append_right _ hc))
          have hp0 := parseDependecies_counter hpa 0
          exact ⟨d + 1, 1 + m, unfoldSize_succ hp0 hs⟩
        · exact hnext b (List.mem_append_left _ hb)

/-- The number of assets of a returned graph is the number of import chains that start
at the entry. -/
theorem parseGraph_length_eq_size {env : Env} {fuel : Nat} {entry : String} {ID : Nat}
    {g : List Asset} {ID1 : Nat} (h : parseGraph env fuel entry ID = .returned (g, ID1)) :
    ∃ d, unfoldSize env d (env.resolve env.currentPath entry) = some g.length := by
  have h0 := h
  unfold parseGraph at h0
  cases hp : parseDependecies env (env.resolve env.currentPath entry) ID with
  | error e => rw [hp] at h0; cases h0
  | ok r =>
    obtain ⟨a, ID2⟩ := r
    rw [hp] at h0
    obtain ⟨_, _, hf, hm⟩ := parseDependecies_ok hp
    obtain ⟨d, n, hn⟩ := graphLoop_sizes env fuel [] [a] ID2 g ID1
      (fun b hb => by
        simp only [List.mem_singleton] at hb
        subst hb
        exact ⟨hm, ID, ID2, by rw [hf]; exact hp⟩)
      h0 a (by simp)
    rw [hf] at hn
    obtain ⟨g2, hg2, hlen⟩ := parseGraph_returns_of_size hn ID
    have h1 := parseGraph_fuel_add env entry ID _ (by simp) fuel (n + 1) h
    have h2 := parseGraph_fuel_add env entry ID _ (by simp) (n + 1) fuel hg2
    rw [Nat.add_comm, h1] at h2
    simp only [Outcome.returned.injEq, Prod.mk.injEq] at h2
    refine ⟨d, ?_⟩
    rw [h2.1, hlen]
    exact hn

theorem length_flatMap_chains (env : Env) (d : Nat) (p : String)
    (hlen : ∀ q n, unfoldSize env d q = some n → (importChains env d q).length = n) :
    ∀ (l : List String) (m : Nat), sumSizes (unfoldSize env d) l = some m →
      (l.flatMap (fun q => (importChains env d q).map (fun chain => p :: chain))).length = m := by
  intro l
  induction l with
  | nil =>
    intro m h
    simp only [sumSizes, Option.some.injEq] at h
    subst h
    rfl
  | cons q l ih =>
    intro m h
    obtain ⟨a, b, hq, hl, rfl⟩ := sumSizes_cons_some h
    rw [List.flatMap_cons, List.length_append, List.length_map, hlen q a hq, ih b hl]

/-- When a file has `n` import chains within the bound, `importChains` lists `n` chains. -/
theorem importChains_length (env : Env) :
    ∀ (d : Nat) (p : String) (n : Nat), unfoldSize env d p = some n →
      (importChains env d p).length = n := by
  intro d
  induction d with
  | zero => intro p n h; simp [unfoldSize] at h
  | succ d ih =>
    intro p n h
    obtain ⟨a, ID1, m, hp, hs, rfl⟩ := unfoldSize_succ_some h
    rw [importChains, List.length_cons, importsOf_of_parse hp,
      length_flatMap_chains env d p ih _ m hs, Nat.add_comm]

theorem flatMap_congr_mem {α β : Type} {f g : α → List β} :
    ∀ (l : List α), (∀ x ∈ l, f x = g x) → l.flatMap f = l.flatMap g := by
  intro l
  induction l with
  | nil => intro _; rfl
  | cons x l ih =>
    intro h
    rw [List.flatMap_cons, List.flatMap_cons, h x (by simp),
      ih (fun y hy => h y (by simp [hy]))]

/-- A deeper bound adds no import chain once the file has finitely many. -/
theorem importChains_stable (env : Env) :
    ∀ (d : Nat) (p : String) (n : Nat), unfoldSize env d p = some n →
      ∀ d1, d ≤ d1 → importChains env d1 p = importChains env d p := by
  intro d
  induction d with
  | zero => intro p n h; simp [unfoldSize] at h
  | succ d ih =>
    intro p n h d1 hd1
    obtain ⟨a, ID1, m, hp, hs, rfl⟩ := unfoldSize_succ_some h
    obtain ⟨d2, rfl⟩ : ∃ d2, d1 = d2 + 1 := ⟨d1 - 1, by omega⟩
    rw [importChains, importChains]
    congr 1
    apply flatMap_congr_mem
    intro q hq
    rw [importsOf_of_parse hp] at hq
    obtain ⟨k, hk⟩ := sumSizes_mem _ m hs q hq
    rw [ih q k hk d2 (by omega)]

theorem sublist_flatMap {α β : Type} (f : α → List β) {l₁ l₂ : List α} (h : l₁.Sublist l₂) :
    (l₁.flatMap f).Sublist (l₂.flatMap f) := by
  induction h with
  | slnil => exact List.Sublist.refl _
  | cons a _ ih =>
    rw [List.flatMap_cons]
    exact ih.trans (List.sublist_append_right _ _)
  | cons₂ a _ ih =>
    rw [List.flatMap_cons, List.flatMap_cons]
    exact List.Sublist.append (List.Sublist.refl _) ih

theorem nodup_flatMap_of_subset {f : String → List String} {ep : String}
    {X files : List String} (hX : X.Nodup) (hsub : X ⊆ files)
    (hD : (ep :: files.flatMap f).Nodup) : (ep :: X.flatMap f).Nodup := by
  obtain ⟨Y, hYX, hY⟩ := List.subperm_of_subset hX hsub
  have h1 : (ep :: Y.flatMap f).Nodup :=
    List.Nodup.sublist ((sublist_flatMap f hY).cons₂ ep) hD
  exact ((List.Perm.flatMap_right f hYX).cons ep).nodup_iff.mp h1

/-- In a tree no path is imported twice, and the entry by nobody. -/
theorem ImportTree.nodup {env : Env} {ep : String} {files : List String}
    (h : ImportTree env ep files) : (ep :: files.flatMap (importsOf env)).Nodup := by
  obtain ⟨_, hreach, hacyc, hone⟩ := h
  rw [List.nodup_cons]
  constructor
  · intro hmem
    obtain ⟨p, hp, hep⟩ := List.mem_flatMap.mp hmem
    exact hacyc ⟨ep, Relation.ReflTransGen.refl, Relation.TransGen.tail' ((hreach p).mp hp) hep⟩
  · rw [List.nodup_iff_count_le_one]
    intro q
    by_cases hq : q ∈ files.flatMap (importsOf env)
    · obtain ⟨p, hp, hqp⟩ := List.mem_flatMap.mp hq
      have hqf : q ∈ files := (hreach q).mpr (((hreach p).mp hp).tail hqp)
      have hne : q ≠ ep := by
        rintro rfl
        exact hacyc ⟨q, Relation.ReflTransGen.refl,
          Relation.TransGen.tail' ((hreach p).mp hp) hqp⟩
      rw [hone q hqf hne]
    · rw [List.count_eq_zero_of_not_mem hq]
      omega

theorem ImportTree.closed {env : Env} {ep : String} {files : List String}
    (h : ImportTree env ep files) : ∀ p ∈ files, ∀ q ∈ importsOf env p, q ∈ files :=
  fun p hp q hq => (h.2.1 q).mpr (((h.2.1 p).mp hp).tail hq)

theorem knownId_eq_none :
    ∀ (known : List (String × Nat)) (P : String), P ∉ known.map Prod.fst →
      knownId known P = none := by
  intro known
  induction known with
  | nil => intro P _; rfl
  | cons kv known ih =>
    intro P h
    obtain ⟨k, v⟩ := kv
    simp only [List.map_cons, List.mem_cons, not_or] at h
    simp only [knownId]
    rw [if_neg (fun hk => h.1 hk.symm)]
    exact ih P h.2

/-- While every resolved path is new, the builder of the specification parses the same
files as `parseGraph` and records the same identifiers, provided no specifier is
`__proto__`. -/
theorem specResolveEach_fresh (env : Env) (dir : String) :
    ∀ (deps : List String) (m : JsObject) (graph : List Asset) (known : List (String × Nat))
      (next : Nat),
      "__proto__" ∉ deps →
      (∀ s ∈ deps, env.resolve dir s ∉ known.map Prod.fst) →
      (deps.map (env.resolve dir)).Nodup →
      specResolveEach env dir deps m graph known next =
        match parseAll env dir deps next with
        | .error e => .error e
        | .ok cs =>
          .ok (assignAll m deps next, graph ++ cs,
            known ++ cs.map (fun c => (c.filename, c.id)), next + deps.length) := by
  intro deps
  induction deps with
  | nil =>
    intro m graph known next _ _ _
    simp [specResolveEach, parseAll, assignAll]
  | cons s rest ih =>
    intro m graph known next hproto hfresh hnd
    simp only [List.mem_cons, not_or] at hproto
    simp only [List.map_cons, List.nodup_cons] at hnd
    simp only [specResolveEach, knownId_eq_none known _ (hfresh s (by simp)), parseAll]
    cases hp : parseDependecies env (env.resolve dir s) next with
    | error e => rfl
    | ok r =>
      obtain ⟨B, ID1⟩ := r
      obtain ⟨hid, _, hf, _⟩ := parseDependecies_ok hp
      simp only
      rw [ih (m.put s B.id) (graph ++ [B]) (known ++ [(env.resolve dir s, B.id)]) (next + 1)
        hproto.2
        (fun s' hs' => by
          simp only [List.map_append, List.map_cons, List.map_nil, List.mem_append,
            List.mem_singleton, not_or]
          refine ⟨hfresh s' (by simp [hs']), ?_⟩
          intro heq
          exact hnd.1 (by rw [← heq]; exact List.mem_map_of_mem _ hs'))
        hnd.2]
      cases parseAll env dir rest (next + 1) with
      | error e => rfl
      | ok cs =>
        have hset : JsObject.set m s next = m.put s B.id := by
          unfold JsObject.set
          rw [if_neg (fun h => hproto.1 h.symm), hid]
        simp only [assignAll, hset, List.append_assoc, List.singleton_append, List.map_cons,
          List.length_cons, hf]
        congr 4
        omega

theorem flatMap_importsOf_eq (env : Env) :
    ∀ (l : List Asset), (∀ b ∈ l, importsOf env b.filename = childPaths env b) →
      (l.map (fun b => b.filename)).flatMap (importsOf env) = l.flatMap (childPaths env) := by
  intro l
  induction l with
  | nil => intro _; rfl
  | cons b l ih =>
    intro h
    rw [List.map_cons, List.flatMap_cons, List.flatMap_cons, h b (by simp),
      ih (fun c hc => h c (by simp [hc]))]

/-- On a tree without the specifier `__proto__`, the worklist loop of the specification
and the loop of `parseGraph` go through the same graphs, round by round. -/
theorem specLoop_eq_graphLoop (env : Env) (ep : String) (files : List String)
    (hD : (ep :: files.flatMap (importsOf env)).Nodup)
    (hclosed : ∀ p ∈ files, ∀ q ∈ importsOf env p, q ∈ files)
    (hproto : ∀ p ∈ files, ∀ a ID1, parseDependecies env p 0 = .ok (a, ID1) →
      "__proto__" ∉ a.dependencies) :
    ∀ (fuel : Nat) (done todo : List Asset) (ID : Nat),
      LoopInv env 0 ep done todo ID →
      ((done ++ todo).map (fun a => a.filename)).Nodup →
      (∀ a ∈ done ++ todo, a.filename ∈ files) →
      specLoop env fuel done.length (done ++ todo)
          ((done ++ todo).map (fun a => (a.filename, a.id))) ID =
        graphOf (graphLoop env fuel done.length (done ++ todo) ID) := by
  intro fuel
  induction fuel with
  | zero => intro done todo ID _ _ _; rfl
  | succ fuel ih =>
    intro done todo ID hinv hnd hfiles
    cases todo with
    | nil =>
      rw [List.append_nil, graphLoop_end]
      simp [specLoop, graphOf]
    | cons a rest =>
      have hnone := hinv.pending a (by simp)
      have himp : ∀ b ∈ done ++ a :: rest, importsOf env b.filename = childPaths env b :=
        fun b hb => (importsOf_of_parse (hinv.parsed b hb)).trans rfl
      -- the paths the specifiers of `a` resolve to are new and distinct
      have hX : ((done ++ [a]).map (fun b => b.filename)).Nodup := by
        have hsplit : done ++ a :: rest = (done ++ [a]) ++ rest := by simp
        rw [hsplit, List.map_append] at hnd
        exact (List.nodup_append.mp hnd).1
      have hXsub : (done ++ [a]).map (fun b => b.filename) ⊆ files := by
        intro p hp
        obtain ⟨b, hb, rfl⟩ := List.mem_map.mp hp
        exact hfiles b (by
          rcases List.mem_append.mp hb with hb | hb
          · exact List.mem_append_left _ hb
          · exact List.mem_append_right _ (by
              rw [List.mem_singleton.mp hb]
              exact List.mem_cons_self _ _))
      have hN := nodup_flatMap_of_subset hX hXsub hD
      rw [flatMap_importsOf_eq env (done ++ [a]) (fun b hb => himp b (by
          rcases List.mem_append.mp hb with hb | hb
          · exact List.mem_append_left _ hb
          · exact List.mem_append_right _ (by
              rw [List.mem_singleton.mp hb]
              exact List.mem_cons_self _ _))),
        List.flatMap_append, ← List.cons_append, ← hinv.files] at hN
      simp only [List.flatMap_cons, List.flatMap_nil, List.append_nil] at hN
      obtain ⟨_, hchild, hdisj⟩ := List.nodup_append.mp hN
      have ha0 := parseDependecies_counter (hinv.parsed a (by simp)) 0
      have hnoproto : "__proto__" ∉ a.dependencies := by
        have := hproto a.filename (hfiles a (by simp)) _ _ ha0
        exact this
      have hfresh : ∀ s ∈ a.dependencies, env.resolve (env.dirname a.filename) s ∉
          ((done ++ a :: rest).map (fun b => (b.filename, b.id))).map Prod.fst := by
        intro s hs hmem
        rw [List.map_map] at hmem
        exact hdisj hmem (List.mem_map_of_mem _ hs)
      rw [graphLoop_step env fuel done rest a ID hnone]
      simp only [specLoop, getElem?_append_cons]
      rw [specResolveEach_fresh env _ a.dependencies [] _ _ ID hnoproto hfresh hchild]
      cases hcs : parseAll env (env.dirname a.filename) a.dependencies ID with
      | error e => rfl
      | ok cs =>
        obtain ⟨h1, _, _, _, _⟩ := parseAll_ok env _ _ _ _ hcs
        simp only
        have hgraph : ((done ++ a :: rest) ++ cs).set done.length
            { a with idMapping := some (assignAll [] a.dependencies ID) }
            = (done ++ [{ a with idMapping := some (assignAll [] a.dependencies ID) }])
              ++ (rest ++ cs) := by
          rw [List.append_assoc, List.cons_append, set_append_cons]
          simp
        have hknown : (done ++ a :: rest).map (fun b => (b.filename, b.id))
              ++ cs.map (fun c => (c.filename, c.id))
            = ((done ++ [{ a with idMapping := some (assignAll [] a.dependencies ID) }])
              ++ (rest ++ cs)).map (fun (b : Asset) => (b.filename, b.id)) := by
          simp
        have hlen : done.length + 1
            = (done ++ [{ a with idMapping := some (assignAll [] a.dependencies ID) }]).length := by
          simp
        rw [hgraph, hknown, hlen]
        apply ih _ _ _ (hinv.step hcs)
        · have : ((done ++ [{ a with idMapping := some (assignAll [] a.dependencies ID) }])
                ++ (rest ++ cs)).map (fun (b : Asset) => b.filename)
              = (done ++ a :: rest).map (fun b => b.filename) ++ childPaths env a := by
            rw [childPaths, ← h1]
            simp
          rw [this]
          exact hN
        · intro b hb
          rcases List.mem_append.mp hb with hb | hb
          · rcases List.mem_append.mp hb with hb | hb
            · exact hfiles b (List.mem_append_left _ hb)
            · rw [List.mem_singleton.mp hb]
              exact hfiles a (by simp)
          · rcases List.mem_append.mp hb with hb | hb
            · exact hfiles b (by simp [hb])
            · apply hclosed a.filename (hfiles a (by simp))
              rw [himp a (by simp), childPaths, ← h1]
              exact List.mem_map_of_mem _ hb

/-- On a tree in which no file imports the specifier `__proto__`, the builder of the
specification and `parseGraph` with the counter at 0 have the same outcome for every
number of rounds: the same Graph, the same exception, or both still running. -/
theorem specBuild_eq_parseGraph_of_tree {env : Env} {entry : String} {files : List String}
    (htree : ImportTree env (env.resolve env.currentPath entry) files)
    (hproto : ∀ p ∈ files, ∀ a ID1, parseDependecies env p 0 = .ok (a, ID1) →
      "__proto__" ∉ a.dependencies) (fuel : Nat) :
    specBuild env fuel entry = graphOf (parseGraph env fuel entry 0) := by
  unfold specBuild parseGraph
  cases hp : parseDependecies env (env.resolve env.currentPath entry) 0 with
  | error e => rfl
  | ok r =>
    obtain ⟨A, ID1⟩ := r
    obtain ⟨_, hID1, hf, _⟩ := parseDependecies_ok hp
    subst hID1
    have := specLoop_eq_graphLoop env _ files htree.nodup htree.closed hproto fuel [] [A] 1
      (LoopInv.init hp) (by simp)
      (fun b hb => by
        simp only [List.nil_append, List.mem_singleton] at hb
        rw [hb, hf]
        exact (htree.2.1 _).mpr Relation.ReflTransGen.refl)
    simpa [hf] using this

end Roid

namespace Roid

/-- The two builders on the tree of four files `treeEnv`: the same graph of four assets. -/
theorem specBuild_eq_parseGraph_treeEnv :
    ImportTree treeEnv "/entry.js" ["/entry.js", "/a.js", "/b.js", "/c.js"] ∧
    (∀ fuel, specBuild treeEnv fuel "entry.js" = graphOf (parseGraph treeEnv fuel "entry.js" 0)) ∧
    (∃ g, parseGraph treeEnv 5 "entry.js" 0 = .returned (g, 4) ∧
      specBuild treeEnv 5 "entry.js" = .returned g ∧
      g.map (fun a => (a.filename, a.id, a.idMapping)) =
        [("/entry.js", 0, some [("./a.js", 1), ("./b.js", 2)]),
          ("/a.js", 1, some [("./c.js", 3)]), ("/b.js", 2, some []), ("/c.js", 3, some [])]) := by
  have hmem : ∀ p, Relation.ReflTransGen (Imports treeEnv) "/entry.js" p →
      p ∈ ["/entry.js", "/a.js", "/b.js", "/c.js"] :=
    reachable_mem_of_closed _ (by decide) (by decide)
  have hparse : ∀ p, Relation.ReflTransGen (Imports treeEnv)
      (treeEnv.resolve treeEnv.currentPath "entry.js") p →
      ∃ a ID1, parseDependecies treeEnv p 0 = .ok (a, ID1) := by
    intro p hp
    have := hmem p hp
    simp only [List.mem_cons, List.mem_singleton, List.not_mem_nil, or_false] at this
    rcases this with rfl | rfl | rfl | rfl
    · exact ⟨_, _, rfl⟩
    · exact ⟨_, _, rfl⟩
    · exact ⟨_, _, rfl⟩
    · exact ⟨_, _, rfl⟩
  have hrun : ∃ g, parseGraph treeEnv 5 "entry.js" 0 = .returned (g, 4) ∧
      specBuild treeEnv 5 "entry.js" = .returned g ∧
      g.map (fun a => (a.filename, a.id, a.idMapping)) =
        [("/entry.js", 0, some [("./a.js", 1), ("./b.js", 2)]),
          ("/a.js", 1, some [("./c.js", 3)]), ("/b.js", 2, some []), ("/c.js", 3, some [])] :=
    ⟨_, rfl, rfl, rfl⟩
  have hstep1 : Imports treeEnv "/entry.js" "/a.js" := by decide
  have hstep2 : Imports treeEnv "/entry.js" "/b.js" := by decide
  have hstep3 : Imports treeEnv "/a.js" "/c.js" := by decide
  have htree : ImportTree treeEnv "/entry.js" ["/entry.js", "/a.js", "/b.js", "/c.js"] := by
    refine ⟨by decide, ?_, ?_, by decide⟩
    · intro p
      refine ⟨?_, hmem p⟩
      intro hp
      simp only [List.mem_cons, List.mem_singleton, List.not_mem_nil, or_false] at hp
      rcases hp with rfl | rfl | rfl | rfl
      · exact Relation.ReflTransGen.refl
      · exact Relation.ReflTransGen.single hstep1
      · exact Relation.ReflTransGen.single hstep2
      · exact (Relation.ReflTransGen.single hstep1).tail hstep3
    · intro hc
      obtain ⟨g, hg, _⟩ := hrun
      rw [parseGraph_cycle_diverges hparse hc 5 0] at hg
      cases hg
  refine ⟨htree, fun fuel => specBuild_eq_parseGraph_of_tree htree ?_ fuel, hrun⟩
  intro p hp a ID1 hpa
  simp only [List.mem_cons, List.mem_singleton, List.not_mem_nil, or_false] at hp
  rcases hp with rfl | rfl | rfl | rfl <;>
  · have hd : a.dependencies ∈ [["./a.js", "./b.js"], ["./c.js"], []] := by
      have := congrArg (fun r => match r with
        | Except.ok (x, _) => x.dependencies
        | Except.error _ => []) hpa
      simp only at this
      rw [← this]
      decide
    intro hmem
    simp only [List.mem_cons, List.mem_singleton, List.not_mem_nil, or_false] at hd
    rcases hd with hd | hd | hd <;> rw [hd] at hmem <;> simp at hmem

/-! ## The claims -/

set_option maxRecDepth 8000

/-- C1 (counterexample). In the example behind `output.js` the graph returned by
`parseGraph` holds the file `/example/name.js` twice, as the assets at positions 2 and
3: two Assets of one Graph share an absolute path. -/
theorem parseGraph_shared_path_twice :
    parseGraph exampleEnv 10 "example/entry.js" 0 = .returned (exampleGraph, 4) ∧
    exampleGraph[2]?.map (fun a => a.filename) = some "/example/name.js" ∧
    exampleGraph[3]?.map (fun a => a.filename) = some "/example/name.js" ∧
    ¬ (exampleGraph.map (fun a => a.filename)).Nodup := by
  decide

/-- C1 (amended). For every build for which `parseGraph` returns, every call of
`parseDependecies` contributes exactly one Asset, and a path is parsed once for the
entry and once for every specifier occurrence that resolves to it: the absolute paths
along the Graph are the entry path followed by the resolutions of the specifiers of
each Asset, in Graph order and source order.  So the number of Assets with path `p`
is the number of specifier occurrences resolving to `p`, plus one for the entry path,
and no two Assets share a path exactly when no path is reached twice. -/
theorem parseGraph_paths_per_import (env : Env) (fuel : Nat) (entry : String) (ID : Nat)
    (g : List Asset) (ID1 : Nat) (h : parseGraph env fuel entry ID = .returned (g, ID1)) :
    g.map (fun a => a.filename)
      = env.resolve env.currentPath entry :: g.flatMap (childPaths env) ∧
    (∀ p, (g.map (fun a => a.filename)).count p
      = (if p = env.resolve env.currentPath entry then 1 else 0)
        + (g.flatMap (childPaths env)).count p) ∧
    ((g.map (fun a => a.filename)).Nodup ↔
      (env.resolve env.currentPath entry :: g.flatMap (childPaths env)).Nodup) := by
  have hf := (parseGraph_inv h).files
  simp only [List.append_nil] at hf
  refine ⟨hf, ?_, by rw [hf]⟩
  intro p
  rw [hf, List.count_cons]
  by_cases hp : p = env.resolve env.currentPath entry
  · subst hp
    simp
    omega
  · have : ¬ env.resolve env.currentPath entry = p := fun h' => hp h'.symm
    simp [hp, this]

/-- C1 (witness). The amended claim at the example: `name.js` is reached by two
specifier occurrences and is held twice. -/
theorem parseGraph_paths_per_import_witness :
    parseGraph exampleEnv 10 "example/entry.js" 0 = .returned (exampleGraph, 4) ∧
    (exampleGraph.map (fun a => a.filename)
      = exampleEnv.resolve exampleEnv.currentPath "example/entry.js"
        :: exampleGraph.flatMap (childPaths exampleEnv) ∧
    (∀ p, (exampleGraph.map (fun a => a.filename)).count p
      = (if p = exampleEnv.resolve exampleEnv.currentPath "example/entry.js" then 1 else 0)
        + (exampleGraph.flatMap (childPaths exampleEnv)).count p) ∧
    ((exampleGraph.map (fun a => a.filename)).Nodup ↔
      (exampleEnv.resolve exampleEnv.currentPath "example/entry.js"
        :: exampleGraph.flatMap (childPaths exampleEnv)).Nodup)) :=
  ⟨by decide, parseGraph_paths_per_import exampleEnv 10 "example/entry.js" 0 exampleGraph 4
    (by decide)⟩

/-- C2 (counterexample). In the example (the entry imports `./message.js` and
`./name.js`, and `message.js` imports `./name.js`) the bundler emits the text of
`output.js`, whose table has two entries for `name.js`, keyed 2 and 3; the entry maps
`./name.js` to 2 and `message.js` maps it to 3. -/
theorem diamond_table_has_two_entries :
    bundler exampleEnv 10 "example/entry.js" 0 = .returned (build exampleGraph, 4) ∧
    build exampleGraph = outputJs ∧
    (exampleGraph.filter (fun a => a.filename == "/example/name.js")).map (fun a => a.id)
      = [2, 3] ∧
    (exampleGraph[0]?.bind (fun a => a.idMapping)).bind (fun m => JsObject.get m "./name.js")
      = some 2 ∧
    (exampleGraph[1]?.bind (fun a => a.idMapping)).bind (fun m => JsObject.get m "./name.js")
      = some 3 := by
  have h : parseGraph exampleEnv 10 "example/entry.js" 0 = .returned (exampleGraph, 4) := by
    decide
  refine ⟨by simp only [bundler, h], by rfl, by decide, by decide, by decide⟩

/-- C2 (amended). For every build for which `parseGraph` returns: when two different
Assets `X` and `Y` of the Graph import a file `Z` through specifiers (other than the
reserved key `__proto__`) that resolve to the same absolute path, the Graph, and so
the emitted table, holds one entry for `Z` per import occurrence, hence at least two,
and `X.idMapping` and `Y.idMapping` map their specifiers to two different identifiers,
each the `id` of an Asset of the Graph whose file is `Z`. -/
theorem diamond_one_asset_per_importer (env : Env) (fuel : Nat) (entry : String) (ID : Nat)
    (g : List Asset) (ID1 : Nat) (h : parseGraph env fuel entry ID = .returned (g, ID1))
    (jx jy : Nat) (X Y : Asset) (hX : g[jx]? = some X) (hY : g[jy]? = some Y) (hne : jx ≠ jy)
    (sx sy : String) (hsx : sx ∈ X.dependencies) (hsy : sy ∈ Y.dependencies)
    (hpx : sx ≠ "__proto__") (hpy : sy ≠ "__proto__") (Z : String)
    (hzx : env.resolve (env.dirname X.filename) sx = Z)
    (hzy : env.resolve (env.dirname Y.filename) sy = Z) :
    ∃ (kx ky : Nat) (zx zy : Asset),
      X.idMapping.bind (fun m => JsObject.get m sx) = some kx ∧
      Y.idMapping.bind (fun m => JsObject.get m sy) = some ky ∧
      kx ≠ ky ∧ zx ∈ g ∧ zy ∈ g ∧ zx.id = kx ∧ zy.id = ky ∧
      zx.filename = Z ∧ zy.filename = Z ∧
      2 ≤ g.countP (fun a => a.filename == Z) := by
  have hinv := parseGraph_inv h
  obtain ⟨mx, tx, cx, hmx, htx, hgx, hcx, hidx, hfx⟩ := hinv.closure hX hsx hpx
  obtain ⟨my, ty, cy, hmy, hty, hgy, hcy, hidy, hfy⟩ := hinv.closure hY hsy hpy
  have htxl : tx < X.dependencies.length := by
    rcases List.getElem?_eq_some.mp htx with ⟨hl, _⟩
    exact hl
  have htyl : ty < Y.dependencies.length := by
    rcases List.getElem?_eq_some.mp hty with ⟨hl, _⟩
    exact hl
  have hpos : 1 + importCount (g.take jx) + tx ≠ 1 + importCount (g.take jy) + ty := by
    rcases Nat.lt_or_gt_of_ne hne with hlt | hgt
    · have := importCount_take_lt g jx jy X hX hlt
      omega
    · have := importCount_take_lt g jy jx Y hY hgt
      omega
  refine ⟨_, _, cx, cy, by rw [hmx]; exact hgx, by rw [hmy]; exact hgy, by omega,
    List.mem_iff_getElem?.mpr ⟨_, hcx⟩, List.mem_iff_getElem?.mpr ⟨_, hcy⟩, hidx, hidy,
    by rw [hfx, hzx], by rw [hfy, hzy], ?_⟩
  exact two_le_countP _ g _ _ cx cy hcx hcy hpos (by simp [hfx, hzx]) (by simp [hfy, hzy])

/-- C2 (witness). The amended claim at the example, for the entry and `message.js`,
which both import `./name.js`. -/
theorem diamond_one_asset_per_importer_witness :
    ∃ (X Y : Asset), exampleGraph[0]? = some X ∧ exampleGraph[1]? = some Y ∧
      ∃ (kx ky : Nat) (zx zy : Asset),
        X.idMapping.bind (fun m => JsObject.get m "./name.js") = some kx ∧
        Y.idMapping.bind (fun m => JsObject.get m "./name.js") = some ky ∧
        kx ≠ ky ∧ zx ∈ exampleGraph ∧ zy ∈ exampleGraph ∧ zx.id = kx ∧ zy.id = ky ∧
        zx.filename = "/example/name.js" ∧ zy.filename = "/example/name.js" ∧
        2 ≤ exampleGraph.countP (fun a => a.filename == "/example/name.js") :=
  ⟨_, _, rfl, rfl,
    diamond_one_asset_per_importer exampleEnv 10 "example/entry.js" 0 exampleGraph 4 (by decide)
      0 1 _ _ rfl rfl (by decide) "./name.js" "./name.js" (by decide) (by decide) (by decide)
      (by decide) "/example/name.js" (by decide) (by decide)⟩

/-- C3 (counterexample). For the two files `a.js` and `b.js` that import each other,
`parseGraph("a.js")` returns no Graph, whatever the number of rounds allowed to its
loop (in particular not one of two Assets). -/
theorem cycle_build_never_returns :
    ¬ ∃ (fuel : Nat) (g : List Asset) (ID1 : Nat),
      parseGraph cycleEnv fuel "a.js" 0 = .returned (g, ID1) := by
  rintro ⟨fuel, g, ID1, h⟩
  have := two_cycle_diverges cycleEnv "a.js" "/a.js" "/b.js" "./a.js" "./b.js"
    { id := 0, code := "var _b = require('./b.js');", dependencies := ["./b.js"],
      filename := "/a.js", idMapping := none }
    { id := 0, code := "var _a = require('./a.js');", dependencies := ["./a.js"],
      filename := "/b.js", idMapping := none }
    1 1 (by decide) rfl rfl rfl rfl (by decide) (by decide) fuel 0
  rw [this] at h
  cases h

/-- C3 (amended). For a file system where the entry `A` imports `B` and `B` imports `A`
(and nothing else), `parseGraph(A)` does not terminate: whatever the value of the
counter and however many rounds its loop is allowed, the loop is still running, so it
neither returns a Graph nor throws. -/
theorem parseGraph_import_cycle_diverges (env : Env) (entry pathA pathB sa sb : String)
    (a b : Asset) (IDa IDb : Nat) (hentry : env.resolve env.currentPath entry = pathA)
    (hA : parseDependecies env pathA 0 = .ok (a, IDa)) (hdA : a.dependencies = [sb])
    (hB : parseDependecies env pathB 0 = .ok (b, IDb)) (hdB : b.dependencies = [sa])
    (hAB : env.resolve (env.dirname pathA) sb = pathB)
    (hBA : env.resolve (env.dirname pathB) sa = pathA) :
    ∀ (fuel ID : Nat), parseGraph env fuel entry ID = .outOfFuel :=
  fun fuel ID =>
    two_cycle_diverges env entry pathA pathB sa sb a b IDa IDb hentry hA hdA hB hdB hAB hBA
      fuel ID

/-- C3 (witness). The amended claim at the two files `a.js` and `b.js`: a thousand
rounds do not end the loop. -/
theorem parseGraph_import_cycle_diverges_witness :
    parseGraph cycleEnv 1000 "a.js" 0 = .outOfFuel :=
  parseGraph_import_cycle_diverges cycleEnv "a.js" "/a.js" "/b.js" "./a.js" "./b.js"
    { id := 0, code := "var _b = require('./b.js');", dependencies := ["./b.js"],
      filename := "/a.js", idMapping := none }
    { id := 0, code := "var _a = require('./a.js');", dependencies := ["./a.js"],
      filename := "/b.js", idMapping := none }
    1 1 (by decide) rfl rfl rfl rfl (by decide) (by decide) 1000 0

/-- C4. For every build for which `parseGraph` returns, no two Assets of the returned
Graph share an `id`: Assets at different positions have different ids. -/
theorem parseGraph_ids_unique (env : Env) (fuel : Nat) (entry : String) (ID : Nat)
    (g : List Asset) (ID1 : Nat) (h : parseGraph env fuel entry ID = .returned (g, ID1)) :
    (g.map (fun a => a.id)).Nodup ∧
    ∀ (i j : Nat) (a b : Asset), g[i]? = some a → g[j]? = some b → a.id = b.id → i = j := by
  have hinv := parseGraph_inv h
  constructor
  · have := hinv.ids
    simp only [List.append_nil] at this
    rw [this]
    exact List.nodup_range' _ _
  · intro i j a b hi hj hab
    rw [hinv.id_at hi, hinv.id_at hj] at hab
    omega

/-- C4 (witness). The ids of the example graph are pairwise different. -/
theorem parseGraph_ids_unique_witness :
    parseGraph exampleEnv 10 "example/entry.js" 0 = .returned (exampleGraph, 4) ∧
    ((exampleGraph.map (fun a => a.id)).Nodup ∧
    ∀ (i j : Nat) (a b : Asset), exampleGraph[i]? = some a → exampleGraph[j]? = some b →
      a.id = b.id → i = j) :=
  ⟨by decide, parseGraph_ids_unique exampleEnv 10 "example/entry.js" 0 exampleGraph 4
    (by decide)⟩

/-- In a returned graph every specifier of every asset, the reserved key `__proto__`
apart, is mapped to the `id` of an asset of the graph that holds the file the specifier
resolves to. -/
theorem parseGraph_closure_ordinary {env : Env} {fuel : Nat} {entry : String} {ID : Nat}
    {g : List Asset} {ID1 : Nat} (h : parseGraph env fuel entry ID = .returned (g, ID1))
    {A : Asset} (hA : A ∈ g) {s : String} (hs : s ∈ A.dependencies) (hp : s ≠ "__proto__") :
    ∃ (k : Nat) (c : Asset), A.idMapping.bind (fun m => JsObject.get m s) = some k ∧
      c ∈ g ∧ c.id = k ∧ c.filename = env.resolve (env.dirname A.filename) s := by
  obtain ⟨j, hj⟩ := List.mem_iff_getElem?.mp hA
  obtain ⟨m, t, c, hm, _, hg, hc, hid, hf⟩ := (parseGraph_inv h).closure hj hs hp
  exact ⟨_, c, by rw [hm]; exact hg, List.mem_iff_getElem?.mpr ⟨_, hc⟩, hid, hf⟩

/-- In a returned graph no `idMapping` has the property `__proto__`, imported or not. -/
theorem parseGraph_proto_unmapped {env : Env} {fuel : Nat} {entry : String} {ID : Nat}
    {g : List Asset} {ID1 : Nat} (h : parseGraph env fuel entry ID = .returned (g, ID1))
    {A : Asset} (hA : A ∈ g) :
    A.idMapping.bind (fun m => JsObject.get m "__proto__") = none := by
  obtain ⟨j, hj⟩ := List.mem_iff_getElem?.mp hA
  have hm := congrArg (fun l => l[j]?) (parseGraph_inv h).mapped
  simp only [List.getElem?_map, hj, Option.map_some', expectedMappings_getElem g _ j A hj,
    Option.some.injEq] at hm
  rw [hm]
  simp only [Option.some_bind, assignAll_get_proto]
  rfl

/-- The entry asset of a returned graph has the value of the counter at the call as its
`id`, and no asset of the graph has a smaller one. -/
theorem parseGraph_entry_id {env : Env} {fuel : Nat} {entry : String} {ID : Nat}
    {g : List Asset} {ID1 : Nat} (h : parseGraph env fuel entry ID = .returned (g, ID1)) :
    g[0]?.map (fun a => a.id) = some ID ∧ ∀ a ∈ g, ID ≤ a.id := by
  have hinv := parseGraph_inv h
  have hlen := hinv.length_eq
  simp only [List.append_nil] at hlen
  constructor
  · cases hg : g[0]? with
    | none =>
      have := List.getElem?_eq_none_iff.mp hg
      omega
    | some a => simp [hinv.id_at hg]
  · intro a ha
    obtain ⟨j, hj⟩ := List.mem_iff_getElem?.mp ha
    rw [hinv.id_at hj]
    omega

/-- C5 (failing input). The entry of `protoEnv` imports the specifier `__proto__`, which
resolves to the file `/__proto__`; `parseGraph` returns the two assets, with ids 0 and
1, but the entry's `idMapping` stays empty: `idMapping["__proto__"]` is not the id of
an asset of the graph. -/
theorem proto_specifier_unmapped :
    parseGraph protoEnv 10 "entry.js" 0 = .returned (protoGraph, 2) ∧
    protoGraph[0]?.map (fun a => a.dependencies) = some ["__proto__"] ∧
    protoGraph[0]?.bind (fun a => a.idMapping) = some [] ∧
    (protoGraph[0]?.bind (fun a => a.idMapping)).bind (fun m => JsObject.get m "__proto__")
      = none ∧
    protoGraph.map (fun a => a.id) = [0, 1] := by
  decide

/-- C6 (failing input). Two builds of the one-file project in one process: the first
leaves the counter at 1, so the second gives the entry asset the id 1, and the table
of the second artifact has the one key 1 and none keyed 0; on such a table the
`require(0)` that starts the loader throws. -/
theorem second_build_entry_id :
    bundler singleEnv 5 "entry.js" 0 = .returned (build [singleAsset 0], 1) ∧
    parseGraph singleEnv 5 "entry.js" 1 = .returned ([singleAsset 1], 2) ∧
    bundler singleEnv 5 "entry.js" 1 = .returned (build [singleAsset 1], 2) ∧
    modulesText [singleAsset 1]
      = "1:[\n            function(require,module,exports)\x7bconsole.log(1);\x7d,\n            \x7b\x7d,\n        ]," ∧
    require [(1, { fn := [], idMapping := [] })] 1 (some 0) LoaderState.initial
      = .threw "TypeError: undefined is not iterable" := by
  have h0 : parseGraph singleEnv 5 "entry.js" 0 = .returned ([singleAsset 0], 1) := by decide
  have h1 : parseGraph singleEnv 5 "entry.js" 1 = .returned ([singleAsset 1], 2) := by decide
  refine ⟨by simp only [bundler, h0], h1, by simp only [bundler, h1], by decide, by decide⟩

/-- C7 (counterexample). With the table of the one module 0, two calls of `require(0)`
return the references 0 and 1 of two different objects, and the body of module 0 is
entered twice. -/
theorem require_twice_runs_body_twice :
    require singleModules 1 (some 0) LoaderState.initial
      = .returned (0, { objects := [[("name", 7)]], executed := [0] }) ∧
    require singleModules 1 (some 0) { objects := [[("name", 7)]], executed := [0] }
      = .returned (1, { objects := [[("name", 7)], [("name", 7)]], executed := [0, 0] }) := by
  decide

/-- C7 (amended). Within one execution of the loader, for every module table and every
identifier: when a call of the top-level `require(id)` returns, a second call returns
too, the two calls give two different exports objects, each created by its own call,
and each call enters the body of `id` once, so the body is executed twice. -/
theorem require_again_reruns_body (modules : Modules) (depth id : Nat)
    (st st1 : LoaderState) (r1 : Nat)
    (h1 : require modules depth (some id) st = .returned (r1, st1)) :
    ∃ (r2 : Nat) (st2 : LoaderState),
      require modules depth (some id) st1 = .returned (r2, st2) ∧
      r1 ≠ r2 ∧ r1 = st.objects.length ∧ r2 = st1.objects.length ∧
      st1.executed.count id = st.executed.count id + 1 ∧
      st2.executed.count id = st.executed.count id + 2 := by
  obtain ⟨⟨r2, st2⟩, h2⟩ := require_returns_anywhere modules _ _ _ _ h1 st1
  obtain ⟨_, _, hr1, hlt1, _⟩ := require_returned modules _ _ _ _ _ h1
  obtain ⟨_, _, hr2, _, _⟩ := require_returned modules _ _ _ _ _ h2
  obtain ⟨t1, ht1, he1⟩ := require_trace modules _ _ _ _ _ h1
  obtain ⟨t2, ht2, he2⟩ := require_trace modules _ _ _ _ _ h2
  have hc1 := requireTrace_count modules _ _ _ ht1
  have hc2 := requireTrace_count modules _ _ _ ht2
  refine ⟨r2, st2, h2, by omega, hr1, hr2, ?_, ?_⟩
  · rw [he1, List.count_append, hc1]
  · rw [he2, he1, List.count_append, List.count_append, hc1, hc2]

/-- C7 (witness). The amended claim at the table of the one module 0, from the state in
which the loader starts. -/
theorem require_again_reruns_body_witness :
    ∃ (r2 : Nat) (st2 : LoaderState),
      require singleModules 1 (some 0) { objects := [[("name", 7)]], executed := [0] }
        = .returned (r2, st2) ∧
      0 ≠ r2 ∧ 0 = LoaderState.initial.objects.length ∧
      r2 = ({ objects := [[("name", 7)]], executed := [0] } : LoaderState).objects.length ∧
      ({ objects := [[("name", 7)]], executed := [0] } : LoaderState).executed.count 0
        = LoaderState.initial.executed.count 0 + 1 ∧
      st2.executed.count 0 = LoaderState.initial.executed.count 0 + 2 :=
  require_again_reruns_body singleModules 1 0 LoaderState.initial
    { objects := [[("name", 7)]], executed := [0] } 0 (by decide)

/-- C8 (counterexample). With the table of the two modules that require each other,
`require(0)` returns at no nesting depth: the re-entrant `require(0)` made from module
1 does not hand back the exports object in progress. -/
theorem circular_require_never_returns :
    ¬ ∃ (depth : Nat) (x : Nat × LoaderState),
      require circularModules depth (some 0) LoaderState.initial = .returned x := by
  rintro ⟨depth, x, h⟩
  exact (require_circular circularModules 0 1 _ _ "./b.js" "./a.js" rfl rfl (by decide)
    (by decide) (by decide) (by decide) depth LoaderState.initial x).1 h

/-- C8 (amended). For a module table in which the body of module 0 requires module 1
and the body of module 1 requires module 0, `require(0)` never returns, from any state
and whatever nesting of calls is allowed: the re-entrant `require` of module 0 made
from module 1 starts the body of module 0 again instead of returning an exports
object. -/
theorem require_circular_never_returns (modules : Modules) (e0 e1 : ModuleEntry)
    (s0 s1 : String) (h0 : Modules.get modules 0 = some e0) (h1 : Modules.get modules 1 = some e1)
    (hs0 : Stmt.require s0 ∈ e0.fn) (hm0 : JsObject.get e0.idMapping s0 = some 1)
    (hs1 : Stmt.require s1 ∈ e1.fn) (hm1 : JsObject.get e1.idMapping s1 = some 0) :
    ∀ (depth : Nat) (st : LoaderState) (x : Nat × LoaderState),
      require modules depth (some 0) st ≠ .returned x :=
  fun depth st x =>
    (require_circular modules 0 1 e0 e1 s0 s1 h0 h1 hs0 hm0 hs1 hm1 depth st x).1

/-- C8 (witness). The amended claim at the table of the two modules that require each
other: `require(0)` does not return within a nesting of a thousand calls. -/
theorem require_circular_never_returns_witness :
    ¬ ∃ (x : Nat × LoaderState),
      require circularModules 1000 (some 0) LoaderState.initial = .returned x :=
  fun ⟨x, h⟩ =>
    require_circular_never_returns circularModules _ _ "./b.js" "./a.js" rfl rfl (by decide)
      (by decide) (by decide) (by decide) 1000 LoaderState.initial x h

/-- C9 (failing input). In `protoEnv` the specifier `__proto__` of the entry resolves to
`/__proto__`, the one asset of the graph with that file has the id 1, and the entry's
`idMapping["__proto__"]` is not 1. -/
theorem proto_specifier_not_mapped_to_file :
    parseGraph protoEnv 10 "entry.js" 0 = .returned (protoGraph, 2) ∧
    protoEnv.resolve (protoEnv.dirname "/entry.js") "__proto__" = "/__proto__" ∧
    (protoGraph.filter (fun a => a.filename == "/__proto__")).map (fun a => a.id) = [1] ∧
    (protoGraph[0]?.bind (fun a => a.idMapping)).bind (fun m => JsObject.get m "__proto__")
      ≠ some 1 := by
  decide

/-- C10. The exported bundler is fail-fast.  Take the paths that a run passes to
`parseDependecies`, in the order of the calls (the second component of
`parseGraphLogged`, whose first component is the outcome of `parseGraph`).  The
bundler returns an artifact only when `parseGraph` returned a Graph; the artifact is
then `build` of that Graph, the calls made are those for the files along the Graph
and every one of them succeeded.  When a call made fails with `e` (a failed read or
transform; whether a call fails does not depend on the counter), the bundler throws
`e`, that call is the last one made and all calls before it succeeded.  When the
bundler throws `e`, `parseGraph` threw `e`, so that no Graph is returned and `build`
is not run, and `e` is the error of the last call made. -/
theorem bundler_fail_fast (env : Env) (fuel : Nat) (entry : String) (ID : Nat) :
    (parseGraphLogged env fuel entry ID).1 = parseGraph env fuel entry ID ∧
    (∀ (art : String) (ID1 : Nat), bundler env fuel entry ID = .returned (art, ID1) →
      ∃ g, parseGraph env fuel entry ID = .returned (g, ID1) ∧ art = build g ∧
        (parseGraphLogged env fuel entry ID).2 = g.map (fun a => a.filename) ∧
        ∀ p ∈ (parseGraphLogged env fuel entry ID).2,
          ∃ b, parseDependecies env p 0 = .ok (b, 1)) ∧
    (∀ p ∈ (parseGraphLogged env fuel entry ID).2, ∀ (e : JsError),
      parseDependecies env p 0 = .error e →
      bundler env fuel entry ID = .threw e ∧
      ∃ before, (parseGraphLogged env fuel entry ID).2 = before ++ [p] ∧
        ∀ q ∈ before, ∃ b, parseDependecies env q 0 = .ok (b, 1)) ∧
    (∀ (e : JsError), bundler env fuel entry ID = .threw e →
      parseGraph env fuel entry ID = .threw e ∧
      ∃ before p, (parseGraphLogged env fuel entry ID).2 = before ++ [p] ∧
        parseDependecies env p 0 = .error e ∧
        ∀ q ∈ before, ∃ b, parseDependecies env q 0 = .ok (b, 1)) := by
  obtain ⟨hout, hlog⟩ := parseGraphLogged_spec env fuel entry ID
  refine ⟨hout, ?_, ?_, ?_⟩
  · intro art ID1 h
    unfold bundler at h
    cases hg : parseGraph env fuel entry ID with
    | returned x =>
      obtain ⟨g, ID2⟩ := x
      rw [hg] at h
      simp only [Outcome.returned.injEq, Prod.mk.injEq] at h
      obtain ⟨rfl, rfl⟩ := h
      rcases hlog with ⟨_, hall, hret⟩ | ⟨_, _, e, hthrew, _⟩
      · exact ⟨g, rfl, rfl, hret g _ hg, hall⟩
      · rw [hg] at hthrew
        cases hthrew
    | threw e => rw [hg] at h; cases h
    | outOfFuel => rw [hg] at h; cases h
  · intro p hp e he
    rcases hlog with ⟨_, hall, _⟩ | ⟨before, p1, e1, hthrew, hl, hperr, hbefore⟩
    · obtain ⟨b, hb⟩ := hall p hp
      rw [hb] at he
      cases he
    · rw [hl] at hp
      rcases List.mem_append.mp hp with hp | hp
      · obtain ⟨b, hb⟩ := hbefore p hp
        rw [hb] at he
        cases he
      · simp only [List.mem_singleton] at hp
        subst hp
        rw [hperr] at he
        simp only [Except.error.injEq] at he
        subst he
        exact ⟨by simp only [bundler, hthrew], before, hl, hbefore⟩
  · intro e h
    unfold bundler at h
    cases hg : parseGraph env fuel entry ID with
    | returned x => rw [hg] at h; cases h
    | threw e1 =>
      rw [hg] at h
      simp only [Outcome.threw.injEq] at h
      subst h
      rcases hlog with ⟨hno, _, _⟩ | ⟨before, p1, e2, hthrew, hl, hperr, hbefore⟩
      · exact absurd hg (hno e1)
      · rw [hg] at hthrew
        simp only [Outcome.threw.injEq] at hthrew
        subst hthrew
        exact ⟨rfl, before, p1, hl, hperr, hbefore⟩
    | outOfFuel => rw [hg] at h; cases h

/-- C10 (witness). The entry of `brokenEnv` imports `./a.js`, which Babel cannot parse,
and then `./missing.js`, which does not exist: the call for `/a.js` fails, the build
throws its error, and that call is the last one made (`missing.js` is never read). -/
theorem bundler_fail_fast_witness :
    (parseGraphLogged brokenEnv 5 "entry.js" 0).2 = ["/entry.js", "/a.js"] ∧
    (bundler brokenEnv 5 "entry.js" 0 = .threw "SyntaxError: Unexpected token" ∧
      ∃ before, (parseGraphLogged brokenEnv 5 "entry.js" 0).2 = before ++ ["/a.js"] ∧
        ∀ q ∈ before, ∃ b, parseDependecies brokenEnv q 0 = .ok (b, 1)) :=
  ⟨by decide, (bundler_fail_fast brokenEnv 5 "entry.js" 0).2.2.1 "/a.js" (by decide)
    "SyntaxError: Unexpected token" rfl⟩

/-- C11. An unknown identifier is fatal in the runtime loader.  For every module table:
`require(id)` with `id` absent from the table (or not a number at all) throws a
`TypeError` as soon as it is entered, and so returns no exports object;
`childRequire(s)` with `s` absent from the `idMapping` of the requiring module is
`require` of `undefined` and throws the same way; a module whose body makes such a call
never returns from `require`, and when only writes to `exports` precede the call the
`require` of that module throws the `TypeError`. -/
theorem require_unknown_fatal (modules : Modules) :
    (∀ (depth : Nat) (id : Option Nat) (st : LoaderState),
      (id = none ∨ ∃ n, id = some n ∧ Modules.get modules n = none) →
      require modules (depth + 1) id st = .threw "TypeError: undefined is not iterable") ∧
    (∀ (depth : Nat) (entry : ModuleEntry) (s : String) (st : LoaderState),
      JsObject.get entry.idMapping s = none →
      require modules (depth + 1) (JsObject.get entry.idMapping s) st
        = .threw "TypeError: undefined is not iterable") ∧
    (∀ (depth n : Nat) (entry : ModuleEntry) (s : String) (st : LoaderState)
      (x : Nat × LoaderState),
      Modules.get modules n = some entry → Stmt.require s ∈ entry.fn →
      JsObject.get entry.idMapping s = none →
      require modules depth (some n) st ≠ .returned x) ∧
    (∀ (depth n : Nat) (entry : ModuleEntry) (pre post : List Stmt) (s : String)
      (st : LoaderState),
      Modules.get modules n = some entry → entry.fn = pre ++ Stmt.require s :: post →
      (∀ stmt ∈ pre, ∃ k v, stmt = Stmt.exportsAssign k v) →
      JsObject.get entry.idMapping s = none →
      require modules (depth + 2) (some n) st
        = .threw "TypeError: undefined is not iterable") := by
  refine ⟨fun depth id st h => require_absent modules depth id st h, ?_, ?_, ?_⟩
  · intro depth entry s st h
    exact require_absent modules depth _ st (Or.inl h)
  · intro depth n entry s st x hn hs hget h
    cases depth with
    | zero => simp [require] at h
    | succ depth =>
      simp only [require, hn] at h
      split at h
      · rename_i st2 hrun
        refine runBody_never_returns _ _ s (fun s1 y => ?_) _ _ _ hs hrun
        simp only [hget]
        cases depth with
        | zero => simp [require]
        | succ depth => simp [require]
      · cases h
      · cases h
  · intro depth n entry pre post s st hn hfn hpre hget
    rw [require]
    simp only [hn]
    rw [hfn]
    obtain ⟨st', h1⟩ := runBody_append_writes
      (fun filename s1 => require modules (depth + 1) (JsObject.get entry.idMapping filename) s1)
      st.objects.length (Stmt.require s :: post) pre
      { objects := st.objects ++ [[]], executed := st.executed ++ [n] } hpre
    rw [h1]
    simp only [runBody, hget, require]

/-- C11 (witness). In `danglingModules` the table has no module 7, and module 0 requires
`./gone.js`, which its mapping does not hold: both calls throw. -/
theorem require_unknown_fatal_witness :
    require danglingModules 1 (some 7) LoaderState.initial
      = .threw "TypeError: undefined is not iterable" ∧
    require danglingModules 2 (some 0) LoaderState.initial
      = .threw "TypeError: undefined is not iterable" :=
  ⟨(require_unknown_fatal danglingModules).1 0 (some 7) LoaderState.initial
      (Or.inr ⟨7, rfl, by decide⟩),
    (require_unknown_fatal danglingModules).2.2.2 0 0 _ [.exportsAssign "first" 1] [] "./gone.js"
      LoaderState.initial rfl rfl (by simp) (by decide)⟩

/-- C12 (counterexample). The entry of `extensionEnv` imports `./name`; a file exists at
`/name.js` and none at `/name`, the path that `path.resolve` gives: the build does not
succeed but throws the error of reading `/name`.  Likewise in `indexEnv`, where the
entry imports `./lib` and the file `/lib/index.js` exists, the build throws. -/
theorem extension_not_inferred :
    extensionEnv.resolve (extensionEnv.dirname "/entry.js") "./name" = "/name" ∧
    (∃ text, extensionEnv.readFileSync "/name.js" = .ok text) ∧
    extensionEnv.readFileSync "/name"
      = .error "ENOENT: no such file or directory, open /name" ∧
    bundler extensionEnv 5 "entry.js" 0
      = .threw "ENOENT: no such file or directory, open /name" ∧
    (∃ text, indexEnv.readFileSync "/lib/index.js" = .ok text) ∧
    (∃ e, bundler indexEnv 5 "entry.js" 0 = .threw e) :=
  ⟨by decide, ⟨_, rfl⟩, rfl, by decide, ⟨_, rfl⟩, ⟨_, rfl⟩⟩

/-- C12 (amended). Path resolution is `path.resolve` alone, without extension inference
or directory-index fallback: for every build for which `parseGraph` returns, every
Asset `A` of the Graph and every specifier `s` of `A`, the path that was parsed for `s`
is `path.resolve(dirname(A.filename), s)` as it stands; a file was read and
transformed at that very path, and the Graph holds an Asset with that `filename`.  A
build therefore succeeds only if a file exists at the resolved path itself. -/
theorem parseGraph_resolves_verbatim (env : Env) (fuel : Nat) (entry : String) (ID : Nat)
    (g : List Asset) (ID1 : Nat) (h : parseGraph env fuel entry ID = .returned (g, ID1))
    (A : Asset) (hA : A ∈ g) (s : String) (hs : s ∈ A.dependencies) :
    (∃ text, env.readFileSync (env.resolve (env.dirname A.filename) s) = .ok text) ∧
    (∃ b, parseDependecies env (env.resolve (env.dirname A.filename) s) 0 = .ok (b, 1)) ∧
    ∃ c ∈ g, c.filename = env.resolve (env.dirname A.filename) s := by
  obtain ⟨⟨b, hb⟩, hc⟩ := parseGraph_child_parsed h hA hs
  refine ⟨?_, ⟨b, hb⟩, hc⟩
  unfold parseDependecies at hb
  cases hr : env.readFileSync (env.resolve (env.dirname A.filename) s) with
  | error e => rw [hr] at hb; cases hb
  | ok text => exact ⟨text, rfl⟩

/-- C12 (witness). The amended claim at the example, for the entry and its specifier
`./name.js`, which resolves to the existing file `/example/name.js`. -/
theorem parseGraph_resolves_verbatim_witness :
    (∃ text, exampleEnv.readFileSync
      (exampleEnv.resolve (exampleEnv.dirname "/example/entry.js") "./name.js") = .ok text) ∧
    (∃ b, parseDependecies exampleEnv
      (exampleEnv.resolve (exampleEnv.dirname "/example/entry.js") "./name.js") 0 = .ok (b, 1)) ∧
    ∃ c ∈ exampleGraph,
      c.filename = exampleEnv.resolve (exampleEnv.dirname "/example/entry.js") "./name.js" :=
  parseGraph_resolves_verbatim exampleEnv 10 "example/entry.js" 0 exampleGraph 4 (by decide)
    { id := 0, code := entryCode, dependencies := ["./message.js", "./name.js"],
      filename := "/example/entry.js",
      idMapping := some [("./message.js", 1), ("./name.js", 2)] }
    (by decide) "./name.js" (by decide)

/-- C13. The structure of the emitted text.  For every graph, `build(graph)` is the text
of the loader, a self-executing function of the one parameter `modules` whose last
statement is `require(0);`, applied to the table in braces as its one argument.  The
table is the concatenation, in graph order, of one entry per asset: the asset's `id`,
a colon, and in brackets the asset's code wrapped in
`function(require,module,exports)` with braces, then `JSON.stringify(asset.idMapping)`.
That text lists every own property of the mapping once, as the quoted key, a colon
and the number; the engine reads back from the quoted key the very string of the key.
For a graph returned by `parseGraph` every mapping exists, its keys are specifiers of
the asset as they are written and its values are ids of assets of the graph. -/
theorem build_structure (graph : List Asset) :
    build graph
      = ("\n" ++
      "  (function(modules) \x7b\n" ++
      "    function require(id) \x7b\n" ++
      "      const [fn, idMapping] = modules[id];\n" ++
      "      function childRequire(filename) \x7b\n" ++
      "        return require(idMapping[filename]);\n" ++
      "      \x7d\n" ++
      "      const newModule = \x7bexports: \x7b\x7d\x7d;\n" ++
      "      fn(childRequire, newModule, newModule.exports);\n" ++
      "      return newModule.exports\n" ++
      "    \x7d\n" ++
      "    require(0);\n" ++
      "  \x7d)(\x7b")
        ++ String.join (graph.map moduleEntry) ++ "\x7d" ++ ");" ∧
    (∀ (a : Asset), moduleEntry a
      = toString a.id ++ ":[\n            function(require,module,exports)" ++ "\x7b"
        ++ a.code ++ "\x7d" ++ ",\n            " ++ stringifyIdMapping a.idMapping
        ++ ",\n        ],") ∧
    (∀ (m : JsObject), stringifyIdMapping (some m)
      = "\x7b" ++ String.intercalate ","
          ((ownProperties m).map (fun p => quoteJSONString p.1 ++ ":" ++ toString p.2))
        ++ "\x7d" ∧
      (ownProperties m).Perm m) ∧
    (∀ (s : String), unquoteJSONString (quoteJSONString s) = some s) ∧
    (∀ (env : Env) (fuel : Nat) (entry : String) (ID ID1 : Nat),
      parseGraph env fuel entry ID = .returned (graph, ID1) →
      ∀ a ∈ graph, ∃ m, a.idMapping = some m ∧ ∀ kv ∈ m, kv.1 ∈ a.dependencies ∧
        ∃ c ∈ graph, c.id = kv.2 ∧
          c.filename = env.resolve (env.dirname a.filename) kv.1) := by
  refine ⟨?_, fun a => rfl, fun m => ⟨rfl, ownProperties_perm m⟩, unquote_quoteJSONString, ?_⟩
  · unfold build
    rw [modulesText_eq_join]
    rfl
  · intro env fuel entry ID ID1 h a ha
    exact parseGraph_mapping_props h ha

/-- C14 (counterexample). The one file of `constantEnv` has no imports and its body sets
`exports.answer` to 42.  `parseGraph` returns one asset (id 0, empty `idMapping`), and
in the run of the artifact `require(0)` returns the object that holds 42, but the
value of the self-executing expression is `undefined`: it is neither the constant nor
the result of `require(0)`. -/
theorem artifact_value_undefined :
    parseGraph constantEnv 5 "entry.js" 0 = .returned ([constantAsset], 1) ∧
    tableOf constantBody [constantAsset]
      = [(0, { fn := [.exportsAssign "answer" 42], idMapping := [] })] ∧
    require (tableOf constantBody [constantAsset]) 1 (some 0) LoaderState.initial
      = .returned (0, { objects := [[("answer", 42)]], executed := [0] }) ∧
    runtimeLoader (tableOf constantBody [constantAsset]) 1
      = .returned (none, { objects := [[("answer", 42)]], executed := [0] }) := by
  decide

/-- C14 (amended). For an entry file without imports whose body sets one export to a
constant `c`, with the counter at 0: `parseGraph` returns exactly one Asset, with id 0
and the empty `idMapping`; executing the emitted artifact runs the body of module 0
once, `require(0)` returns the one exports object created, which holds `c` under the
key written, and the self-executing loader expression has no value (`undefined`):
the result of `require(0)` is dropped. -/
theorem single_module_end_to_end (env : Env) (entry : String) (a : Asset) (ID1 : Nat)
    (bodyOf : String → List Stmt) (key : String) (c : Nat)
    (hp : parseDependecies env (env.resolve env.currentPath entry) 0 = .ok (a, ID1))
    (hd : a.dependencies = []) (hb : bodyOf a.code = [.exportsAssign key c])
    (hk : key ≠ "__proto__") (fuel depth : Nat) :
    parseGraph env (fuel + 2) entry 0 = .returned ([{ a with idMapping := some [] }], 1) ∧
    a.id = 0 ∧
    require (tableOf bodyOf [{ a with idMapping := some [] }]) (depth + 1) (some 0)
        LoaderState.initial
      = .returned (0, { objects := [[(key, c)]], executed := [0] }) ∧
    runtimeLoader (tableOf bodyOf [{ a with idMapping := some [] }]) (depth + 1)
      = .returned (none, { objects := [[(key, c)]], executed := [0] }) := by
  obtain ⟨hid, _, _, _⟩ := parseDependecies_ok hp
  have hreq : require (tableOf bodyOf [{ a with idMapping := some [] }]) (depth + 1) (some 0)
      LoaderState.initial = .returned (0, { objects := [[(key, c)]], executed := [0] }) := by
    simp [require, tableOf, Modules.get, hid, hb, runBody, LoaderState.initial, writeExport,
      JsObject.set, hk, JsObject.put]
  refine ⟨parseGraph_single hp hd fuel, hid, hreq, ?_⟩
  unfold runtimeLoader
  rw [hreq]

/-- C14 (witness). The amended claim at `constantEnv`. -/
theorem single_module_end_to_end_witness :
    parseGraph constantEnv (3 + 2) "entry.js" 0 = .returned ([constantAsset], 1) ∧
    constantAsset.id = 0 ∧
    require (tableOf constantBody [constantAsset]) (0 + 1) (some 0) LoaderState.initial
      = .returned (0, { objects := [[("answer", 42)]], executed := [0] }) ∧
    runtimeLoader (tableOf constantBody [constantAsset]) (0 + 1)
      = .returned (none, { objects := [[("answer", 42)]], executed := [0] }) :=
  single_module_end_to_end constantEnv "entry.js"
    { constantAsset with idMapping := none } 1 constantBody "answer" 42 rfl rfl (by decide)
    (by decide) 3 0

/-- C15. Identifiers are sequential in discovery order.  For every Graph `g` returned by
`parseGraph`: the entry has the value of the counter before the build as its id, the
Asset at index `i` has the id of the entry plus `i`, so that ids are strictly
increasing and contiguous along `g`, and the counter after the build is its value
before the build plus the number of Assets of `g`. -/
theorem parseGraph_ids_sequential (env : Env) (fuel : Nat) (entry : String) (ID : Nat)
    (g : List Asset) (ID1 : Nat) (h : parseGraph env fuel entry ID = .returned (g, ID1)) :
    (∀ (i : Nat) (a0 a : Asset), g[0]? = some a0 → g[i]? = some a → a.id = a0.id + i) ∧
    g[0]?.map (fun a => a.id) = some ID ∧
    (g.map (fun a => a.id)).Pairwise (fun x y => x < y) ∧
    g.map (fun a => a.id) = List.range' ID g.length ∧
    ID1 = ID + g.length := by
  have hinv := parseGraph_inv h
  have hids := hinv.ids
  have hc := hinv.counter
  simp only [List.append_nil] at hids hc
  refine ⟨?_, (parseGraph_entry_id h).1, ?_, hids, hc⟩
  · intro i a0 a h0 hi
    rw [hinv.id_at h0, hinv.id_at hi]
    omega
  · rw [hids]
    exact List.pairwise_lt_range' _ _

/-- C15 (witness). The ids of the example graph are 0, 1, 2, 3 and the counter ends
at 4. -/
theorem parseGraph_ids_sequential_witness :
    (∀ (i : Nat) (a0 a : Asset), exampleGraph[0]? = some a0 → exampleGraph[i]? = some a →
      a.id = a0.id + i) ∧
    exampleGraph[0]?.map (fun a => a.id) = some 0 ∧
    (exampleGraph.map (fun a => a.id)).Pairwise (fun x y => x < y) ∧
    exampleGraph.map (fun a => a.id) = List.range' 0 exampleGraph.length ∧
    4 = 0 + exampleGraph.length :=
  parseGraph_ids_sequential exampleEnv 10 "example/entry.js" 0 exampleGraph 4 (by decide)

/-- C16. Breadth-first discovery order.  For every Graph `g` returned by `parseGraph`,
cut `g` into levels: the entry alone, then as many Assets as the entry has specifier
occurrences, then as many as these have, and so on.  The levels are `g` itself in its
order, the first is the entry, none is empty, and the files of each level are the
resolutions of the specifiers of the level before, file by file in source order; so the
lengths of the import chains by which the Assets were discovered are non-decreasing
along `g`, and the ids, consecutive along `g`, are assigned level by level. -/
theorem parseGraph_breadth_first (env : Env) (fuel : Nat) (entry : String) (ID : Nat)
    (g : List Asset) (ID1 : Nat) (h : parseGraph env fuel entry ID = .returned (g, ID1)) :
    (∃ entryAsset rest, g = entryAsset :: rest ∧
      entryAsset.filename = env.resolve env.currentPath entry ∧
      (levels g).head? = some [entryAsset]) ∧
    (levels g).flatten = g ∧
    (∀ L ∈ levels g, L ≠ []) ∧
    List.Chain' (fun X Y => Y.map (fun a => a.filename) = X.flatMap (childPaths env))
      (levels g) ∧
    (chainLengths g).length = g.length ∧
    (chainLengths g).Pairwise (fun x y => x ≤ y) ∧
    (levels g).flatten.map (fun a => a.id) = List.range' ID g.length := by
  obtain ⟨a, rest, hg, hfa, hhead, hflat, hne, hchain⟩ := parseGraph_levels h
  have hnum := levelNumbers_spec (levels g) 0
  have hids := (parseGraph_inv h).ids
  simp only [List.append_nil] at hids
  refine ⟨⟨a, rest, hg, hfa, hhead⟩, hflat, hne, hchain, ?_, hnum.2.2, ?_⟩
  · unfold chainLengths
    rw [hnum.1, hflat]
  · rw [hflat]
    exact hids

/-- C16 (witness). The example graph has three levels: the entry, `message.js` and
`name.js` for its two imports, and `name.js` again for the import of `message.js`; the
chain lengths along it are 0, 1, 1, 2. -/
theorem parseGraph_breadth_first_witness :
    levels exampleGraph = [exampleGraph.take 1, (exampleGraph.drop 1).take 2,
      exampleGraph.drop 3] ∧
    chainLengths exampleGraph = [0, 1, 1, 2] ∧
    ((∃ entryAsset rest, exampleGraph = entryAsset :: rest ∧
      entryAsset.filename = exampleEnv.resolve exampleEnv.currentPath "example/entry.js" ∧
      (levels exampleGraph).head? = some [entryAsset]) ∧
    (levels exampleGraph).flatten = exampleGraph ∧
    (∀ L ∈ levels exampleGraph, L ≠ []) ∧
    List.Chain' (fun X Y => Y.map (fun a => a.filename) = X.flatMap (childPaths exampleEnv))
      (levels exampleGraph) ∧
    (chainLengths exampleGraph).length = exampleGraph.length ∧
    (chainLengths exampleGraph).Pairwise (fun x y => x ≤ y) ∧
    (levels exampleGraph).flatten.map (fun a => a.id) = List.range' 0 exampleGraph.length) :=
  ⟨by rfl, by rfl,
    parseGraph_breadth_first exampleEnv 10 "example/entry.js" 0 exampleGraph 4 (by decide)⟩

/-- C17. Termination characterisation.  Over a file system in which the files reachable
from the entry by imports are finitely many (all in the list `files`) and all parse:
`parseGraph(entry)` returns a Graph, given enough rounds of its loop, if and only if
no import cycle is reachable from the entry; when a file reachable from the entry
imports itself transitively, the loop is still running after any number of rounds; and
in neither case is anything thrown, so that returning is the only way to terminate. -/
theorem parseGraph_terminates_iff_acyclic (env : Env) (entry : String) (ID : Nat)
    (files : List String)
    (hfin : ∀ p, Relation.ReflTransGen (Imports env) (env.resolve env.currentPath entry) p →
      p ∈ files)
    (hparse : ∀ p, Relation.ReflTransGen (Imports env) (env.resolve env.currentPath entry) p →
      ∃ a ID1, parseDependecies env p 0 = .ok (a, ID1)) :
    ((∃ fuel g ID1, parseGraph env fuel entry ID = .returned (g, ID1)) ↔
      ¬ ∃ q, Relation.ReflTransGen (Imports env) (env.resolve env.currentPath entry) q ∧
        Relation.TransGen (Imports env) q q) ∧
    ((∃ q, Relation.ReflTransGen (Imports env) (env.resolve env.currentPath entry) q ∧
        Relation.TransGen (Imports env) q q) →
      ∀ fuel, parseGraph env fuel entry ID = .outOfFuel) ∧
    (∀ fuel e, parseGraph env fuel entry ID ≠ .threw e) := by
  refine ⟨⟨?_, ?_⟩, fun hc fuel => parseGraph_cycle_diverges hparse hc fuel ID,
    fun fuel e => parseGraph_never_throws files hfin hparse fuel ID e⟩
  · rintro ⟨fuel, g, ID1, hg⟩ hc
    rw [parseGraph_cycle_diverges hparse hc fuel ID] at hg
    cases hg
  · intro hc
    obtain ⟨d, n, hn⟩ := unfoldSize_exists files hfin hparse hc _ Relation.ReflTransGen.refl
    obtain ⟨g, hg, _⟩ := parseGraph_returns_of_size hn ID
    exact ⟨n + 1, g, ID + n, hg⟩

/-- C17 (witness). The three files of the example all parse: the build of the example
returns, so no import cycle is reachable from its entry.  The two files that import each
other both parse and `a.js` imports itself through `b.js`: the build that starts at
`a.js` is still running after any number of rounds. -/
theorem parseGraph_terminates_iff_acyclic_witness :
    parseGraph exampleEnv 5 "example/entry.js" 0 = .returned (exampleGraph, 4) ∧
    (((∃ fuel g ID1, parseGraph exampleEnv fuel "example/entry.js" 0 = .returned (g, ID1)) ↔
      ¬ ∃ q, Relation.ReflTransGen (Imports exampleEnv)
          (exampleEnv.resolve exampleEnv.currentPath "example/entry.js") q ∧
        Relation.TransGen (Imports exampleEnv) q q) ∧
    ((∃ q, Relation.ReflTransGen (Imports exampleEnv)
          (exampleEnv.resolve exampleEnv.currentPath "example/entry.js") q ∧
        Relation.TransGen (Imports exampleEnv) q q) →
      ∀ fuel, parseGraph exampleEnv fuel "example/entry.js" 0 = .outOfFuel) ∧
    (∀ fuel e, parseGraph exampleEnv fuel "example/entry.js" 0 ≠ .threw e)) ∧
    (∀ fuel, parseGraph cycleEnv fuel "a.js" 0 = .outOfFuel) :=
  ⟨by decide,
    parseGraph_terminates_iff_acyclic exampleEnv "example/entry.js" 0
      ["/example/entry.js", "/example/message.js", "/example/name.js"]
      (reachable_mem_of_closed _ (by decide) (by decide))
      (fun p hp => by
        have hmem := reachable_mem_of_closed
          ["/example/entry.js", "/example/message.js", "/example/name.js"]
          (by decide) (by decide) p hp
        simp only [List.mem_cons, List.mem_singleton, List.not_mem_nil, or_false] at hmem
        rcases hmem with rfl | rfl | rfl
        · exact ⟨_, _, rfl⟩
        · exact ⟨_, _, rfl⟩
        · exact ⟨_, _, rfl⟩),
    (parseGraph_terminates_iff_acyclic cycleEnv "a.js" 0 ["/a.js", "/b.js"]
      (reachable_mem_of_closed _ (by decide) (by decide))
      (fun p hp => by
        have hmem := reachable_mem_of_closed ["/a.js", "/b.js"] (by decide) (by decide) p hp
        simp only [List.mem_cons, List.mem_singleton, List.not_mem_nil, or_false] at hmem
        rcases hmem with rfl | rfl
        · exact ⟨_, _, rfl⟩
        · exact ⟨_, _, rfl⟩)).2.1
      ⟨"/a.js", Relation.ReflTransGen.refl,
        Relation.TransGen.head (show Imports cycleEnv "/a.js" "/b.js" by decide)
          (Relation.TransGen.single (show Imports cycleEnv "/b.js" "/a.js" by decide))⟩⟩

/-- C18. Graph size.  For every Graph `g` that `parseGraph` returns (by C17 there is one
exactly over an acyclic file system), the number of Assets of `g` is the number of import
chains that start at the entry, the empty chain included and each occurrence of a
specifier counted separately: the number `size(entry)` given by
`size(f) = 1 + sum of size(resolve(f, s))` over the entries `s` of the dependency list
of `f` (this is `unfoldSize`), which is also how many chains `importChains` lists, however
large the bound on their length. -/
theorem parseGraph_size_is_chain_count (env : Env) (fuel : Nat) (entry : String) (ID : Nat)
    (g : List Asset) (ID1 : Nat) (h : parseGraph env fuel entry ID = .returned (g, ID1)) :
    ∃ d, unfoldSize env d (env.resolve env.currentPath entry) = some g.length ∧
      (∀ d1 n, unfoldSize env d1 (env.resolve env.currentPath entry) = some n →
        n = g.length) ∧
      (∀ d1, d ≤ d1 →
        (importChains env d1 (env.resolve env.currentPath entry)).length = g.length) := by
  obtain ⟨d, hd⟩ := parseGraph_length_eq_size h
  refine ⟨d, hd, fun d1 n hn => unfoldSize_unique env hn hd, fun d1 hd1 => ?_⟩
  rw [importChains_stable env d _ _ hd d1 hd1]
  exact importChains_length env d _ _ hd

/-- C18 (witness). The example has four import chains, `entry`, `entry > message`,
`entry > message > name` and `entry > name`, and its graph has four assets. -/
theorem parseGraph_size_is_chain_count_witness :
    importChains exampleEnv 3 "/example/entry.js" =
      [["/example/entry.js"], ["/example/entry.js", "/example/message.js"],
        ["/example/entry.js", "/example/message.js", "/example/name.js"],
        ["/example/entry.js", "/example/name.js"]] ∧
    unfoldSize exampleEnv 3 "/example/entry.js" = some 4 ∧
    ∃ d, unfoldSize exampleEnv d (exampleEnv.resolve exampleEnv.currentPath "example/entry.js")
        = some exampleGraph.length ∧
      (∀ d1 n, unfoldSize exampleEnv d1
          (exampleEnv.resolve exampleEnv.currentPath "example/entry.js") = some n →
        n = exampleGraph.length) ∧
      (∀ d1, d ≤ d1 →
        (importChains exampleEnv d1
          (exampleEnv.resolve exampleEnv.currentPath "example/entry.js")).length
          = exampleGraph.length) :=
  ⟨by decide, by decide,
    parseGraph_size_is_chain_count exampleEnv 10 "example/entry.js" 0 exampleGraph 4
      (by decide)⟩

/-- C19 (failing input). The two files of `protoEnv` form a tree: the entry imports
`/__proto__` by its one specifier, `__proto__`.  With the counter at 0, `parseGraph` and
the builder of the specification both return two assets with the ids 0 and 1, but the
entry's `idMapping` is empty in the Graph of `parseGraph`, while the specification
records `specifierToId["__proto__"] = 1`: the two Graphs differ. -/
theorem proto_tree_differs_from_specification :
    ImportTree protoEnv (protoEnv.resolve protoEnv.currentPath "entry.js")
      ["/entry.js", "/__proto__"] ∧
    parseGraph protoEnv 5 "entry.js" 0 = .returned (protoGraph, 2) ∧
    specBuild protoEnv 5 "entry.js" = .returned specProtoGraph ∧
    protoGraph.map (fun a => a.id) = specProtoGraph.map (fun a => a.id) ∧
    protoGraph.map (fun a => a.idMapping) = [some [], some []] ∧
    specProtoGraph.map (fun a => a.idMapping) = [some [("__proto__", 1)], some []] ∧
    protoGraph ≠ specProtoGraph := by
  have hmem : ∀ p, Relation.ReflTransGen (Imports protoEnv)
      (protoEnv.resolve protoEnv.currentPath "entry.js") p → p ∈ ["/entry.js", "/__proto__"] :=
    reachable_mem_of_closed _ (by decide) (by decide)
  have hparse : ∀ p, Relation.ReflTransGen (Imports protoEnv)
      (protoEnv.resolve protoEnv.currentPath "entry.js") p →
      ∃ a ID1, parseDependecies protoEnv p 0 = .ok (a, ID1) := by
    intro p hp
    have := hmem p hp
    simp only [List.mem_cons, List.mem_singleton, List.not_mem_nil, or_false] at this
    rcases this with rfl | rfl
    · exact ⟨_, _, rfl⟩
    · exact ⟨_, _, rfl⟩
  have hrun : parseGraph protoEnv 5 "entry.js" 0 = .returned (protoGraph, 2) := by decide
  refine ⟨⟨by decide, ?_, ?_, by decide⟩, hrun, by decide, by decide, by decide, by decide,
    by decide⟩
  · intro p
    refine ⟨?_, hmem p⟩
    intro hp
    simp only [List.mem_cons, List.mem_singleton, List.not_mem_nil, or_false] at hp
    rcases hp with rfl | rfl
    · exact Relation.ReflTransGen.refl
    · exact Relation.ReflTransGen.single
        (show Imports protoEnv "/entry.js" "/__proto__" by decide)
  · intro hc
    rw [parseGraph_cycle_diverges hparse hc 5 0] at hrun
    cases hrun

end Roid
